import Mathlib

set_option linter.unusedSectionVars false

/-!
# Verification of the core task-queue / task-ordering machinery

Shallow embedding of the synchronization primitives of the repository:

* `TaskQueue` (the prioritized task queue, `trinity/utils/datastructures.py`),
* `OrderedTaskPreparation` (the dependency tracker, same file),
* `BaseRequestManager` (the per-peer request/response manager,
  `trinity/protocol/common/managers.py`).

Python's mutable objects become explicit state records; `async` methods
become functions that either return the post-state or an explicit
"blocked" outcome at their suspension point; exceptions become error
values whose constructors correspond to the `raise` sites of the source.
The helpers `queue_get_batch` / `queue_get_nowait` live in
`trinity/utils/queues.py`, which is not part of the provided sources;
they are modelled from the spec (drain up to `max_results` items in
priority order, suspending respectively failing when nothing is
available), as noted at their definitions.
-/

namespace Spec2Proof

/-! ## Task queue: data model

`TaskQueue.__init__` keeps
  * `_maxsize`,
  * `_open_queue` (an `asyncio.PriorityQueue` of `SortableTask` wrappers;
    modelled as a list kept sorted by the priority key, smallest —
    highest priority — first),
  * `_tasks` (a `set` of all present tasks; modelled as a duplicate-free
    list),
  * `_in_progress` (a dict from batch id to the checked-out task tuple),
  * `_id_generator` (`itertools.count()`; modelled by `nextId`).

The order function bound by `SortableTask.orderable_by_func` is the
section parameter `orderOf`, mapping a task to its priority key in a
linear order. -/

/-- Exception values of the task-queue code, one constructor per `raise`
site class.  `excClass` below maps each to the Python exception class it
is raised with. -/
inductive TQErr where
  /-- `add`: "must pass a tuple of tasks" (not modelled, tuples are implicit). -/
  | notTuple
  /-- `add`: "Duplicate tasks detected: ... already present in the queue". -/
  | duplicateTask
  /-- `get_nowait`: "No tasks are available to get". -/
  | noTasksAvailable
  /-- `complete`: "batch id ... not recognized". -/
  | unknownBatch
  /-- `complete`: "cannot complete tasks ... in this batch". -/
  | unknownTasks
  deriving DecidableEq, Repr

/-- The Python exception classes used by the task queue. -/
inductive ExcClass where
  | validationError
  | queueFull
  | queueEmpty
  deriving DecidableEq, Repr

/-- Which Python exception class each task-queue error is raised with.
Notably `get_nowait` raises `asyncio.QueueFull` (datastructures.py line
217), not `asyncio.QueueEmpty`. -/
def TQErr.excClass : TQErr → ExcClass
  | .notTuple => .validationError
  | .duplicateTask => .validationError
  | .noTasksAvailable => .queueFull
  | .unknownBatch => .validationError
  | .unknownTasks => .validationError

/-- State of a `TaskQueue` instance.  `α` is the task type, `β` the
priority-key type produced by the bound order function.  The
`_full_lock` (an `asyncio.Lock`) is the pair of `lockHeld` (its
`_locked` flag) and `waiters` (its FIFO waiter queue: each suspended
`add` call is represented by its sorted `remaining` tuple, which the
resumed coroutine will insert *without re-running the duplicate
check*). -/
structure TaskQueue (α : Type u) where
  /-- `_maxsize`. -/
  maxsize : Nat
  /-- `_open_queue`: tasks placed in the queue and not yet checked out,
  kept sorted by priority key (head = highest priority). -/
  openQueue : List α
  /-- `_tasks`: all tasks placed and not yet completed (a Python `set`). -/
  present : List α
  /-- `_in_progress`: checked-out batches, keyed by batch id. -/
  inProgress : List (Nat × List α)
  /-- `_id_generator`: the next batch id `next(...)` would yield. -/
  nextId : Nat
  /-- `_full_lock._locked`. -/
  lockHeld : Bool := false
  /-- `_full_lock`'s waiter queue: the `remaining` tuples of the `add`
  calls suspended on `acquire()`, oldest first. -/
  waiters : List (List α) := []

variable {α : Type u} {β : Type v} [DecidableEq α] [LinearOrder β]

/-- A fresh, empty queue (`TaskQueue(maxsize, order_fn)`). -/
def TaskQueue.init (maxsize : Nat) : TaskQueue α :=
  { maxsize := maxsize, openQueue := [], present := [], inProgress := [], nextId := 0 }

/-- Insert one wrapped task into the priority queue: it lands before the
first strictly larger key, i.e. FIFO among equal priorities. -/
def insertOpen (orderOf : α → β) (x : α) : List α → List α
  | [] => [x]
  | y :: ys => if orderOf x < orderOf y then x :: y :: ys else y :: insertOpen orderOf x ys

/-- `put_nowait` each task of a chunk into the open queue. -/
def pushAll (orderOf : α → β) (q : List α) (chunk : List α) : List α :=
  chunk.foldl (fun acc x => insertOpen orderOf x acc) q

/-- `self._tasks.update(original_queued)`: add each task to the present
set (Python set semantics: duplicates are collapsed). -/
def updatePresent (p : List α) (chunk : List α) : List α :=
  chunk.foldl (fun acc x => if x ∈ acc then acc else acc ++ [x]) p

/-- `sorted(map(self._task_wrapper, tasks))`: a stable ascending sort by
priority key (Python's `sorted` is stable), so the highest-priority
tasks are inserted first. -/
def sortByKey (orderOf : α → β) (ts : List α) : List α :=
  ts.insertionSort (fun a b => orderOf a ≤ orderOf b)

/-- Admit a chunk of already-sorted tasks: put each into the open queue
and record them as present. -/
def TaskQueue.enqueue (orderOf : α → β) (q : TaskQueue α) (chunk : List α) : TaskQueue α :=
  { q with openQueue := pushAll orderOf q.openQueue chunk,
           present := updatePresent q.present chunk }

/-- Outcome of one call to `await add(tasks)` (or of a resumed
continuation) run until it either returns, raises, or suspends on
`_full_lock.acquire()`.  A suspended call has already inserted what fit;
`remaining` is the rest, parked in the lock's waiter queue. -/
inductive AddOutcome (α : Type u) where
  | done
  | err (e : TQErr)
  | blocked (remaining : List α)
  deriving DecidableEq, Repr

/-- `if self._full_lock.locked() and len(self._tasks) < self._maxsize:
self._full_lock.release()` — the end of each `add` loop iteration and
the tail of `complete`. -/
def TaskQueue.releaseIfRoom (q : TaskQueue α) : TaskQueue α :=
  if q.lockHeld ∧ q.present.length < q.maxsize then { q with lockHeld := false } else q

/-- The `while remaining:` loop of `add`, entered fresh by `add` and
again (without any duplicate re-check) by a continuation woken from the
lock.  Per iteration: with no cap insert everything; with room insert up
to `maxsize - len(_tasks)` tasks and release the lock if it is held and
room remains; when full, `await acquire()` — immediate when the lock is
free with no waiters (and the iteration repeats with zero open slots),
otherwise the call parks its `remaining` in the waiter queue and
suspends.  The fuel is bookkeeping only: every iteration either inserts
a task, suspends, or is the single barren acquire before a suspension,
so `|remaining| + 3` always suffices. -/
def TaskQueue.addLoop (orderOf : α → β) : Nat → TaskQueue α → List α →
    TaskQueue α × AddOutcome α
  | _, q, [] => (q, .done)
  | 0, q, remaining => (q, .blocked remaining)
  | fuel + 1, q, remaining =>
    if q.maxsize = 0 then
      TaskQueue.addLoop orderOf fuel ((q.enqueue orderOf remaining).releaseIfRoom) []
    else if q.present.length < q.maxsize then
      TaskQueue.addLoop orderOf fuel
        ((q.enqueue orderOf (remaining.take (q.maxsize - q.present.length))).releaseIfRoom)
        (remaining.drop (q.maxsize - q.present.length))
    else if q.lockHeld ∨ ¬ q.waiters.isEmpty then
      ({ q with waiters := q.waiters ++ [remaining] }, .blocked remaining)
    else
      TaskQueue.addLoop orderOf fuel { q with lockHeld := true } remaining

/-- `TaskQueue.add`.  Faithful to the source: reject if any task is
already present (`_tasks.intersection(tasks)` — checked *only here*, at
entry), sort ascending by key, then run the insertion loop. -/
def TaskQueue.add (orderOf : α → β) (q : TaskQueue α) (ts : List α) :
    TaskQueue α × AddOutcome α :=
  if ts.any (· ∈ q.present) then (q, .err .duplicateTask)
  else TaskQueue.addLoop orderOf (ts.length + 3) q (sortByKey orderOf ts)

/-- One scheduler step after a `release`: when the lock is free and a
waiter is parked, the oldest suspended `add` re-acquires the lock and
continues its loop — re-inserting its `remaining` tasks with no
duplicate re-check.  With no waiter (or the lock still held) nothing
happens. -/
def TaskQueue.resume (orderOf : α → β) (q : TaskQueue α) :
    TaskQueue α × AddOutcome α :=
  match q.waiters with
  | [] => (q, .done)
  | w :: ws =>
    if q.lockHeld then (q, .done)
    else TaskQueue.addLoop orderOf (w.length + 3)
      { q with lockHeld := true, waiters := ws } w

/-- How many tasks a drain takes: `queue_get_nowait` is modelled from
the spec — return up to `max_results` pending tasks, all of them when
`max_results` is `None`. -/
def TaskQueue.drainCount (q : TaskQueue α) (maxResults : Option Nat) : Nat :=
  match maxResults with
  | none => q.openQueue.length
  | some m => min m q.openQueue.length

/-- `TaskQueue.get_nowait`: raise (`asyncio.QueueFull`, message "No
tasks are available to get") if the open queue is empty; otherwise
drain up to `max_results` tasks in priority order, allocate the next
batch id and record the batch as in flight. -/
def TaskQueue.getNowait (q : TaskQueue α) (maxResults : Option Nat) :
    TaskQueue α × Except TQErr (Nat × List α) :=
  if q.openQueue.isEmpty then (q, .error .noTasksAvailable)
  else
    ({ q with openQueue := q.openQueue.drop (q.drainCount maxResults),
              inProgress := q.inProgress ++
                [(q.nextId, q.openQueue.take (q.drainCount maxResults))],
              nextId := q.nextId + 1 },
     .ok (q.nextId, q.openQueue.take (q.drainCount maxResults)))

/-- `TaskQueue.get`: `queue_get_batch` is modelled from the spec — it
suspends (result `none`) until at least one task is available, then
drains up to `max_results` tasks without further suspension; the
bookkeeping is as in the source. -/
def TaskQueue.get (q : TaskQueue α) (maxResults : Option Nat) :
    TaskQueue α × Option (Nat × List α) :=
  if q.openQueue.isEmpty then (q, none)
  else
    ({ q with openQueue := q.openQueue.drop (q.drainCount maxResults),
              inProgress := q.inProgress ++
                [(q.nextId, q.openQueue.take (q.drainCount maxResults))],
              nextId := q.nextId + 1 },
     some (q.nextId, q.openQueue.take (q.drainCount maxResults)))

/-- Look up a batch by id (`self._in_progress[batch_id]`). -/
def lookupBatch (l : List (Nat × List α)) (bid : Nat) : Option (List α) :=
  (l.find? (fun e => e.1 = bid)).map Prod.snd

/-- `TaskQueue.complete`.  Unknown batch id raises; tasks of `completed`
outside the batch raise after restoring the popped batch; otherwise the
unacknowledged remainder of the batch is reinserted into the open queue
(`set(attempted).difference(completed)`, modelled as a deduplicated
filter), the completed tasks leave the present set, and the full-queue
lock is released if it is held and room opened up (waking the oldest
suspended `add`, which runs at the next scheduler step).  The returned
state is the post-state of the Python object even on the error paths. -/
def TaskQueue.complete (orderOf : α → β) (q : TaskQueue α) (bid : Nat) (completed : List α) :
    TaskQueue α × Option TQErr :=
  match lookupBatch q.inProgress bid with
  | none => (q, some .unknownBatch)
  | some attempted =>
    let popped := q.inProgress.filter (fun e => ¬ e.1 = bid)
    if completed.any (· ∉ attempted) then
      ({ q with inProgress := popped ++ [(bid, attempted)] }, some .unknownTasks)
    else
      let incomplete := (attempted.filter (· ∉ completed)).dedup
      (({ q with inProgress := popped,
                 openQueue := pushAll orderOf q.openQueue incomplete,
                 present := q.present.filter (· ∉ completed) } :
          TaskQueue α).releaseIfRoom, none)

/-- `len(queue)` = `len(self._tasks)`. -/
def TaskQueue.len (q : TaskQueue α) : Nat := q.present.length

/-! ### Basic lemmas about the queue primitives -/

theorem insertOpen_perm (orderOf : α → β) (x : α) (l : List α) :
    List.Perm (insertOpen orderOf x l) (x :: l) := by
  induction l with
  | nil => simp [insertOpen]
  | cons y ys ih =>
    simp only [insertOpen]
    split
    · exact List.Perm.refl _
    · exact ((ih.cons y).trans (List.Perm.swap x y ys))

theorem pushAll_perm (orderOf : α → β) (q chunk : List α) :
    List.Perm (pushAll orderOf q chunk) (chunk ++ q) := by
  induction chunk generalizing q with
  | nil => simp [pushAll]
  | cons c cs ih =>
    have h1 : pushAll orderOf q (c :: cs) = pushAll orderOf (insertOpen orderOf c q) cs := rfl
    rw [h1]
    refine (ih _).trans ?_
    have h2 : List.Perm (cs ++ insertOpen orderOf c q) (cs ++ (c :: q)) :=
      List.Perm.append_left cs (insertOpen_perm orderOf c q)
    exact h2.trans List.perm_middle

theorem mem_pushAll (orderOf : α → β) (q chunk : List α) (x : α) :
    x ∈ pushAll orderOf q chunk ↔ x ∈ chunk ∨ x ∈ q := by
  rw [(pushAll_perm orderOf q chunk).mem_iff, List.mem_append]

theorem mem_updatePresent (p ts : List α) (x : α) :
    x ∈ updatePresent p ts ↔ x ∈ p ∨ x ∈ ts := by
  induction ts generalizing p with
  | nil => simp [updatePresent]
  | cons t ts ih =>
    have h1 : updatePresent p (t :: ts) =
        updatePresent (if t ∈ p then p else p ++ [t]) ts := rfl
    rw [h1, ih]
    split
    · next hin =>
      constructor
      · rintro (h | h)
        · exact Or.inl h
        · exact Or.inr (List.mem_cons_of_mem _ h)
      · rintro (h | h)
        · exact Or.inl h
        · rcases List.mem_cons.mp h with rfl | h
          · exact Or.inl hin
          · exact Or.inr h
    · next hnin =>
      simp only [List.mem_append, List.mem_singleton, List.mem_cons]
      tauto

theorem updatePresent_nodup (p ts : List α) (hp : p.Nodup) :
    (updatePresent p ts).Nodup := by
  induction ts generalizing p with
  | nil => exact hp
  | cons t ts ih =>
    have h1 : updatePresent p (t :: ts) =
        updatePresent (if t ∈ p then p else p ++ [t]) ts := rfl
    rw [h1]
    split
    · exact ih p hp
    · next hnin =>
      refine ih _ ?_
      simpa [List.nodup_append] using ⟨hp, hnin⟩

theorem updatePresent_length (p ts : List α) (hts : ts.Nodup)
    (hdisj : ∀ x ∈ ts, x ∉ p) :
    (updatePresent p ts).length = p.length + ts.length := by
  induction ts generalizing p with
  | nil => simp [updatePresent]
  | cons t ts ih =>
    have h1 : updatePresent p (t :: ts) =
        updatePresent (if t ∈ p then p else p ++ [t]) ts := rfl
    rw [h1]
    have hnp : t ∉ p := hdisj t (List.mem_cons_self t ts)
    rw [if_neg hnp]
    have hd2 : ∀ x ∈ ts, x ∉ p ++ [t] := by
      intro x hx
      simp only [List.mem_append, List.mem_singleton]
      rintro (h | rfl)
      · exact hdisj x (List.mem_cons_of_mem _ hx) h
      · exact (List.nodup_cons.mp hts).1 hx
    rw [ih (p ++ [t]) (List.Nodup.of_cons hts) hd2]
    simp only [List.length_append, List.length_cons, List.length_nil]
    omega

theorem sortByKey_perm (orderOf : α → β) (ts : List α) :
    List.Perm (sortByKey orderOf ts) ts :=
  List.perm_insertionSort _ ts

/-! ### The full-queue lock -/

theorem releaseIfRoom_openQueue (q : TaskQueue α) :
    q.releaseIfRoom.openQueue = q.openQueue := by
  unfold TaskQueue.releaseIfRoom
  split <;> rfl

theorem releaseIfRoom_present (q : TaskQueue α) :
    q.releaseIfRoom.present = q.present := by
  unfold TaskQueue.releaseIfRoom
  split <;> rfl

theorem releaseIfRoom_inProgress (q : TaskQueue α) :
    q.releaseIfRoom.inProgress = q.inProgress := by
  unfold TaskQueue.releaseIfRoom
  split <;> rfl

theorem releaseIfRoom_nextId (q : TaskQueue α) :
    q.releaseIfRoom.nextId = q.nextId := by
  unfold TaskQueue.releaseIfRoom
  split <;> rfl

theorem releaseIfRoom_maxsize (q : TaskQueue α) :
    q.releaseIfRoom.maxsize = q.maxsize := by
  unfold TaskQueue.releaseIfRoom
  split <;> rfl

theorem releaseIfRoom_waiters (q : TaskQueue α) :
    q.releaseIfRoom.waiters = q.waiters := by
  unfold TaskQueue.releaseIfRoom
  split <;> rfl

theorem releaseIfRoom_of_unlocked (q : TaskQueue α) (h : q.lockHeld = false) :
    q.releaseIfRoom = q := by
  unfold TaskQueue.releaseIfRoom
  rw [if_neg]
  rintro ⟨h1, _⟩
  rw [h] at h1
  exact absurd h1 (by simp)

/-! ### The `add` loop -/

theorem enqueue_nil (orderOf : α → β) (q : TaskQueue α) : q.enqueue orderOf [] = q := rfl

theorem enqueue_enqueue (orderOf : α → β) (q : TaskQueue α) (a b : List α) :
    (q.enqueue orderOf a).enqueue orderOf b = q.enqueue orderOf (a ++ b) := by
  unfold TaskQueue.enqueue pushAll updatePresent
  rw [List.foldl_append, List.foldl_append]

theorem addLoop_nil (orderOf : α → β) (fuel : Nat) (q : TaskQueue α) :
    TaskQueue.addLoop orderOf fuel q [] = (q, .done) := by
  cases fuel <;> rfl

/-- Once the loop holds the lock in front of a full queue, it parks. -/
theorem addLoop_stuck (orderOf : α → β) (fuel : Nat) (q : TaskQueue α)
    (rem : List α) (hne : rem ≠ []) (hm : ¬ q.maxsize = 0)
    (hroom : ¬ q.present.length < q.maxsize) (hl : q.lockHeld = true) :
    (TaskQueue.addLoop orderOf fuel q rem).2 = AddOutcome.blocked rem := by
  cases rem with
  | nil => exact absurd rfl hne
  | cons a l =>
    cases fuel with
    | zero => rfl
    | succ fuel =>
      unfold TaskQueue.addLoop
      rw [if_neg hm, if_neg hroom, if_pos (Or.inl hl)]

/-- The loop never raises: its outcomes are `done` and `blocked`. -/
theorem addLoop_no_err (orderOf : α → β) (fuel : Nat) :
    ∀ (q : TaskQueue α) (rem : List α) (e : TQErr),
    (TaskQueue.addLoop orderOf fuel q rem).2 ≠ AddOutcome.err e := by
  induction fuel with
  | zero =>
    intro q rem e h
    cases rem with
    | nil => exact absurd h (by rw [addLoop_nil]; simp)
    | cons a l => exact absurd h (by simp [TaskQueue.addLoop])
  | succ fuel ih =>
    intro q rem e h
    cases rem with
    | nil => exact absurd h (by rw [addLoop_nil]; simp)
    | cons a l =>
      unfold TaskQueue.addLoop at h
      by_cases h0 : q.maxsize = 0
      · rw [if_pos h0] at h
        exact ih _ _ e h
      · rw [if_neg h0] at h
        by_cases h1 : q.present.length < q.maxsize
        · rw [if_pos h1] at h
          exact ih _ _ e h
        · rw [if_neg h1] at h
          by_cases h2 : q.lockHeld = true ∨ ¬ q.waiters.isEmpty = true
          · rw [if_pos h2] at h
            exact absurd h (by simp)
          · rw [if_neg h2] at h
            exact ih _ _ e h

/-- A completed loop pass inserted exactly its argument: on an unlocked,
waiter-free queue the loop either parks or lands in the one-shot
insertion state. -/
theorem addLoop_done_eq (orderOf : α → β) (fuel : Nat) :
    ∀ (q : TaskQueue α) (rem : List α), q.lockHeld = false → q.waiters = [] →
    (TaskQueue.addLoop orderOf fuel q rem).2 = AddOutcome.done →
    (TaskQueue.addLoop orderOf fuel q rem).1 = q.enqueue orderOf rem := by
  induction fuel with
  | zero =>
    intro q rem hl hw hdone
    cases rem with
    | nil => rw [addLoop_nil, enqueue_nil]
    | cons a l => exact absurd hdone (by simp [TaskQueue.addLoop])
  | succ fuel ih =>
    intro q rem hl hw hdone
    cases rem with
    | nil => rw [addLoop_nil, enqueue_nil]
    | cons a l =>
      unfold TaskQueue.addLoop at hdone ⊢
      by_cases h0 : q.maxsize = 0
      · rw [if_pos h0] at hdone ⊢
        rw [releaseIfRoom_of_unlocked (q.enqueue orderOf (a :: l)) hl] at hdone ⊢
        rw [addLoop_nil]
      · rw [if_neg h0] at hdone ⊢
        by_cases h1 : q.present.length < q.maxsize
        · rw [if_pos h1] at hdone ⊢
          rw [releaseIfRoom_of_unlocked
            (q.enqueue orderOf ((a :: l).take (q.maxsize - q.present.length))) hl]
            at hdone ⊢
          rw [ih (q.enqueue orderOf ((a :: l).take (q.maxsize - q.present.length)))
            ((a :: l).drop (q.maxsize - q.present.length)) hl hw hdone,
            enqueue_enqueue, List.take_append_drop]
        · rw [if_neg h1] at hdone ⊢
          rw [if_neg (by rw [hl, hw]; simp)] at hdone ⊢
          exact absurd hdone (by
            rw [addLoop_stuck orderOf fuel ({ q with lockHeld := true } : TaskQueue α)
              (a :: l) (by simp) h0 h1 rfl]
            simp)

/-- An `add` whose tasks all fit returns at once with everything
inserted. -/
theorem addLoop_fits (orderOf : α → β) (fuel : Nat) (q : TaskQueue α)
    (rem : List α) (hl : q.lockHeld = false)
    (hfit : q.maxsize = 0 ∨ q.present.length + rem.length ≤ q.maxsize) :
    TaskQueue.addLoop orderOf (fuel + 1) q rem = (q.enqueue orderOf rem, .done) := by
  cases rem with
  | nil => rw [addLoop_nil, enqueue_nil]
  | cons a l =>
    unfold TaskQueue.addLoop
    by_cases h0 : q.maxsize = 0
    · rw [if_pos h0, releaseIfRoom_of_unlocked (q.enqueue orderOf (a :: l)) hl,
        addLoop_nil]
    · rw [if_neg h0]
      have hle : q.present.length + (a :: l).length ≤ q.maxsize := by
        rcases hfit with h | h
        · exact absurd h h0
        · exact h
      have hroom : q.present.length < q.maxsize := by
        simp only [List.length_cons] at hle
        omega
      rw [if_pos hroom, releaseIfRoom_of_unlocked
        (q.enqueue orderOf ((a :: l).take (q.maxsize - q.present.length))) hl]
      rw [List.take_of_length_le (by omega), List.drop_eq_nil_of_le (by omega),
        addLoop_nil]

/-- An `add` that completed synchronously is the one-shot insertion of
its (sorted) tasks; the duplicate check passed. -/
theorem add_done_eq (orderOf : α → β) (q : TaskQueue α) (ts : List α)
    (hl : q.lockHeld = false) (hw : q.waiters = [])
    (hdone : (q.add orderOf ts).2 = AddOutcome.done) :
    (q.add orderOf ts).1 = q.enqueue orderOf (sortByKey orderOf ts) ∧
    ts.any (· ∈ q.present) = false := by
  unfold TaskQueue.add at hdone ⊢
  by_cases hdup : ts.any (· ∈ q.present)
  · rw [if_pos hdup] at hdone
    exact absurd hdone (by simp)
  · rw [if_neg hdup] at hdone ⊢
    exact ⟨addLoop_done_eq orderOf _ q _ hl hw hdone, by simpa using hdup⟩

/-- `find?` on a filtered list agrees with `find?` on the original list
when the filter only removes elements that the search predicate rejects. -/
theorem find?_filter_of_imp (l : List γ) (p q : γ → Bool)
    (h : ∀ x, p x = true → q x = true) :
    (l.filter q).find? p = l.find? p := by
  induction l with
  | nil => rfl
  | cons a l ih =>
    by_cases hq : q a = true
    · rw [List.filter_cons_of_pos hq]
      by_cases hp : p a = true
      · rw [List.find?_cons_of_pos _ hp, List.find?_cons_of_pos _ hp]
      · rw [List.find?_cons_of_neg _ (by simpa using hp),
            List.find?_cons_of_neg _ (by simpa using hp), ih]
    · have hp : ¬ p a = true := fun hpa => hq (h a hpa)
      rw [List.filter_cons_of_neg (by simpa using hq),
          List.find?_cons_of_neg _ (by simpa using hp), ih]

theorem lookupBatch_append_self (l : List (Nat × List α)) (bid : Nat) (v : List α) :
    lookupBatch (l.filter (fun e => ¬ e.1 = bid) ++ [(bid, v)]) bid = some v := by
  unfold lookupBatch
  rw [List.find?_append]
  have hnone : (l.filter (fun e => ¬ e.1 = bid)).find? (fun e => e.1 = bid) = none := by
    rw [List.find?_eq_none]
    intro x hx
    have := (List.mem_filter.mp hx).2
    simpa using this
  rw [hnone]
  simp [List.find?]

theorem lookupBatch_append_other (l : List (Nat × List α)) (bid k : Nat) (v : List α)
    (hk : k ≠ bid) :
    lookupBatch (l.filter (fun e => ¬ e.1 = bid) ++ [(bid, v)]) k = lookupBatch l k := by
  unfold lookupBatch
  rw [List.find?_append]
  rw [find?_filter_of_imp l (fun e => e.1 = k) (fun e => ¬ e.1 = bid)
    (by intro x hx; simp only [decide_eq_true_eq] at hx ⊢; omega)]
  cases hfind : l.find? (fun e => e.1 = k) with
  | some e => rfl
  | none => simp [List.find?, hk.symm]

/-! ## Claim C5 — `add` of `S` into an empty queue

The claim reads: for every task sequence `S` with `|S| ≤ maxsize`
admitted into an empty PTQ, `add(S)` returns without suspending and
`len(ptq) == |S|` immediately afterwards.

On the code this fails when `S` contains the same task twice: the
duplicate check in `add` only compares against `self._tasks`
(`_tasks.intersection(tasks)`), so `add((3, 3))` into an empty queue
raises nothing, and `_tasks` — a set — ends up holding one element, so
`len(ptq) = 1 ≠ 2 = |S|`.  The claim holds once `S` is required to be
duplicate-free. -/

/-- C5 counterexample: `add([3,3])` into an empty queue of `maxsize=2`
returns without suspending, yet `len(ptq) = 1 ≠ 2 = |S|`, refuting the
claim for the sequence `S = [3,3]`. -/
theorem C5_counterexample :
    (((TaskQueue.init 2).add (id : Nat → Nat) [3, 3]).2 = AddOutcome.done ∧
      ¬ (((TaskQueue.init 2).add (id : Nat → Nat) [3, 3]).1.len = [3, 3].length)) := by
  decide

/-- C5 (amended): for every duplicate-free task sequence `S` with
`|S| ≤ maxsize` admitted into an empty PTQ, `add(S)` returns without
suspending (outcome `done`, never touching `_full_lock`) and
`len(ptq) = |S|` immediately afterwards and before any `get`. -/
theorem C5_add_into_empty_queue (orderOf : α → β) (maxsize : Nat) (ts : List α)
    (hnd : ts.Nodup) (hlen : ts.length ≤ maxsize) :
    ((TaskQueue.init maxsize).add orderOf ts).2 = AddOutcome.done ∧
      ((TaskQueue.init maxsize).add orderOf ts).1.len = ts.length := by
  have hnodup : (sortByKey orderOf ts).Nodup := (sortByKey_perm orderOf ts).nodup_iff.mpr hnd
  have hslen : (sortByKey orderOf ts).length = ts.length :=
    (sortByKey_perm orderOf ts).length_eq
  have hany : ts.any (· ∈ (TaskQueue.init maxsize : TaskQueue α).present) = false := by
    simp [TaskQueue.init]
  have hfit : (TaskQueue.init maxsize : TaskQueue α).maxsize = 0 ∨
      (TaskQueue.init maxsize : TaskQueue α).present.length +
        (sortByKey orderOf ts).length ≤ (TaskQueue.init maxsize : TaskQueue α).maxsize := by
    by_cases h0 : maxsize = 0
    · exact Or.inl h0
    · refine Or.inr ?_
      show 0 + (sortByKey orderOf ts).length ≤ maxsize
      omega
  have hloop : TaskQueue.addLoop orderOf (ts.length + 3)
      (TaskQueue.init maxsize : TaskQueue α) (sortByKey orderOf ts) =
      ((TaskQueue.init maxsize : TaskQueue α).enqueue orderOf (sortByKey orderOf ts),
        .done) :=
    addLoop_fits orderOf (ts.length + 2) (TaskQueue.init maxsize)
      (sortByKey orderOf ts) rfl hfit
  unfold TaskQueue.add
  rw [hany]
  simp only [Bool.false_eq_true, if_false]
  rw [hloop]
  refine ⟨rfl, ?_⟩
  show (updatePresent (TaskQueue.init maxsize : TaskQueue α).present
    (sortByKey orderOf ts)).length = ts.length
  rw [show (TaskQueue.init maxsize : TaskQueue α).present = [] from rfl,
    updatePresent_length [] _ hnodup (by simp), hslen]
  simp

/-- C5 witness: the amended theorem at `S = [5,1,3]`, `maxsize = 3`. -/
theorem C5_witness :
    ((TaskQueue.init 3).add (id : Nat → Nat) [5, 1, 3]).2 = AddOutcome.done ∧
      ((TaskQueue.init 3).add (id : Nat → Nat) [5, 1, 3]).1.len = [5, 1, 3].length :=
  C5_add_into_empty_queue (id : Nat → Nat) 3 [5, 1, 3] (by decide) (by decide)

/-! ## Claim C2 — `get_nowait` on an empty pool

The claim says the failure is the transient error `Empty`.  The source
(datastructures.py line 217, and its own docstring) raises
`asyncio.QueueFull("No tasks are available to get")` — the *full*-queue
exception class, not `asyncio.QueueEmpty`.  So the claim's error kind is
wrong; everything else (fails iff nothing is available, otherwise
behaves like `get` with a fresh batch id, never suspending) holds. -/

/-- C2 counterexample: on a freshly constructed queue (open pool empty)
`get_nowait` raises with exception class `QueueFull`, not the
`QueueEmpty` class, refuting "fails with the transient error Empty (not
some other error kind)". -/
theorem C2_counterexample :
    ((TaskQueue.init 0 : TaskQueue Nat).getNowait none).2 = .error .noTasksAvailable ∧
      TQErr.excClass .noTasksAvailable = ExcClass.queueFull ∧
      ExcClass.queueFull ≠ ExcClass.queueEmpty :=
  ⟨rfl, rfl, by decide⟩

/-- C2 (amended): for every PTQ with no task available in the open
pool, `get_nowait` fails by raising `asyncio.QueueFull` ("No tasks are
available to get") — not `asyncio.QueueEmpty` — leaving the state
unchanged; when at least one task is available it returns, without
suspending, exactly what `get` would: the same post-state and a fresh
batch id (not previously in flight) with the available tasks. -/
theorem C2_get_nowait (q : TaskQueue α) (maxResults : Option Nat)
    (hfresh : ∀ e ∈ q.inProgress, e.1 < q.nextId) :
    (q.openQueue = [] →
        q.getNowait maxResults = (q, .error .noTasksAvailable) ∧
        TQErr.excClass .noTasksAvailable = ExcClass.queueFull) ∧
    (q.openQueue ≠ [] →
        (q.getNowait maxResults).1 = (q.get maxResults).1 ∧
        (q.getNowait maxResults).2 =
          .ok (q.nextId, q.openQueue.take (q.drainCount maxResults)) ∧
        (q.get maxResults).2 =
          some (q.nextId, q.openQueue.take (q.drainCount maxResults)) ∧
        q.nextId ∉ q.inProgress.map Prod.fst) := by
  constructor
  · intro hempty
    have he : q.openQueue.isEmpty := by simp [hempty]
    constructor
    · unfold TaskQueue.getNowait
      rw [if_pos he]
    · rfl
  · intro hne
    have he : ¬ q.openQueue.isEmpty = true := by
      simpa [List.isEmpty_iff] using hne
    refine ⟨?_, ?_, ?_, ?_⟩
    · unfold TaskQueue.getNowait TaskQueue.get
      rw [if_neg he, if_neg he]
    · unfold TaskQueue.getNowait
      rw [if_neg he]
    · unfold TaskQueue.get
      rw [if_neg he]
    · intro hmem
      rcases List.mem_map.mp hmem with ⟨e, he2, heq⟩
      have := hfresh e he2
      omega

/-- C2 witness: the amended theorem at a queue with one open task and a
batch already in flight. -/
theorem C2_witness :
    (∀ e ∈ ({ maxsize := 2, openQueue := [7], present := [5, 7],
              inProgress := [(0, [5])], nextId := 1 } : TaskQueue Nat).inProgress,
        e.1 < 1) ∧
    (([7] : List Nat) ≠ [] →
        (({ maxsize := 2, openQueue := [7], present := [5, 7],
            inProgress := [(0, [5])], nextId := 1 } : TaskQueue Nat).getNowait none).2 =
          .ok (1, [7]) ∧
        (1 : Nat) ∉ [(0, [5])].map (@Prod.fst Nat (List Nat))) := by
  refine ⟨by decide, fun hne => ?_⟩
  have h := (C2_get_nowait
    ({ maxsize := 2, openQueue := [7], present := [5, 7],
       inProgress := [(0, [5])], nextId := 1 } : TaskQueue Nat) none (by decide)).2
    (by decide)
  exact ⟨h.2.1, h.2.2.2⟩

/-! ## Claim C6 — `complete(batch_id, [])` abandons the whole batch

`complete` computes `incomplete = set(attempted).difference(completed)`;
with an empty `completed` this is the entire batch, each member of which
is reinserted into the open queue (wrapped again by `_task_wrapper`, so
at its original priority key), and `_tasks` is unchanged.  The S1
scenario is checked literally. -/

/-- The S1 trace states: PTQ with `maxsize=3`, `order_fn=identity`,
after `add([5,1,3])`. -/
def s1q1 : TaskQueue Nat := ((TaskQueue.init 3).add (id : Nat → Nat) [5, 1, 3]).1

/-- S1 after the first `get()`. -/
def s1q2 : TaskQueue Nat := (s1q1.get none).1

/-- S1 after `complete(b0, [1])`. -/
def s1q3 : TaskQueue Nat := (s1q2.complete (id : Nat → Nat) 0 [1]).1

/-- S1 after the second `get()`. -/
def s1q4 : TaskQueue Nat := (s1q3.get none).1

/-- S1 after `complete(b1, [])`. -/
def s1q5 : TaskQueue Nat := (s1q4.complete (id : Nat → Nat) 1 []).1

/-- The literal S1 scenario of the spec:
`get() → (b0,[1,3,5])`; `complete(b0,[1])`; `get() → (b1,[3,5])`;
`complete(b1,[])`; `get() → (b2,[3,5])`. -/
def S1Trace : Prop :=
  (s1q1.get none).2 = some (0, [1, 3, 5]) ∧
  (s1q2.complete (id : Nat → Nat) 0 [1]).2 = none ∧
  (s1q3.get none).2 = some (1, [3, 5]) ∧
  (s1q4.complete (id : Nat → Nat) 1 []).2 = none ∧
  (s1q5.get none).2 = some (2, [3, 5])

/-- C6: `complete(batch_id, [])` with an empty completed set is legal
(raises nothing), removes the batch from the in-flight map, leaves the
present set unchanged, puts every task of the batch back into the open
pool (re-keyed by the same order function, hence at its original
priority), so that a subsequent `get` returns them again; and the
literal S1 trace holds. -/
theorem C6_complete_empty_abandons (orderOf : α → β) (q : TaskQueue α)
    (bid : Nat) (attempted : List α)
    (hlu : lookupBatch q.inProgress bid = some attempted) :
    (q.complete orderOf bid []).2 = none ∧
    lookupBatch (q.complete orderOf bid []).1.inProgress bid = none ∧
    (q.complete orderOf bid []).1.present = q.present ∧
    List.Perm (q.complete orderOf bid []).1.openQueue (attempted.dedup ++ q.openQueue) ∧
    (attempted ≠ [] →
      ∃ res, ((q.complete orderOf bid []).1.get none).2 = some res ∧
        ∀ x ∈ attempted, x ∈ res.2) ∧
    S1Trace := by
  have hfilter : (attempted.filter (fun x => x ∉ ([] : List α))) = attempted := by
    simp
  have hpres : (q.present.filter (fun x => x ∉ ([] : List α))) = q.present := by
    simp
  have hcomp : q.complete orderOf bid [] =
      (({ q with inProgress := q.inProgress.filter (fun e => ¬ e.1 = bid),
                 openQueue := pushAll orderOf q.openQueue attempted.dedup,
                 present := q.present } : TaskQueue α).releaseIfRoom, none) := by
    unfold TaskQueue.complete
    rw [hlu]
    simp only [List.any_nil, Bool.false_eq_true, if_false, hfilter, hpres]
  refine ⟨by rw [hcomp], ?_, ?_, ?_, ?_, ?_⟩
  · rw [hcomp]
    show lookupBatch (TaskQueue.releaseIfRoom _).inProgress bid = none
    rw [releaseIfRoom_inProgress]
    simp only [lookupBatch]
    rw [List.find?_eq_none.mpr ?_]
    · rfl
    · intro e he
      have := (List.mem_filter.mp he).2
      simpa using this
  · rw [hcomp]
    show (TaskQueue.releaseIfRoom _).present = q.present
    rw [releaseIfRoom_present]
  · rw [hcomp]
    show List.Perm (TaskQueue.releaseIfRoom _).openQueue _
    rw [releaseIfRoom_openQueue]
    exact pushAll_perm orderOf q.openQueue attempted.dedup
  · intro hne
    rw [hcomp]
    have hperm := pushAll_perm orderOf q.openQueue attempted.dedup
    have hopen_ne : ¬ (pushAll orderOf q.openQueue attempted.dedup).isEmpty = true := by
      rw [List.isEmpty_iff]
      intro h0
      have := hperm.length_eq
      rw [h0] at this
      simp only [List.length_nil, List.length_append] at this
      have : attempted.dedup.length = 0 := by omega
      exact hne (by simpa using (List.length_eq_zero.mp this))
    show ∃ res, ((TaskQueue.releaseIfRoom _).get none).2 = some res ∧ _
    unfold TaskQueue.get
    rw [releaseIfRoom_openQueue]
    dsimp only
    rw [if_neg hopen_ne]
    refine ⟨_, rfl, ?_⟩
    intro x hx
    simp only [TaskQueue.drainCount, releaseIfRoom_openQueue]
    simp only [List.take_length]
    rw [hperm.mem_iff, List.mem_append]
    exact Or.inl (List.mem_dedup.mpr hx)
  · refine ⟨by decide, by decide, by decide, by decide, by decide⟩

/-- C6 witness: the theorem applied to the S1 state holding batch
`b1 = (1, [3,5])`. -/
theorem C6_witness :
    lookupBatch s1q4.inProgress 1 = some [3, 5] ∧
      (s1q4.complete (id : Nat → Nat) 1 []).2 = none :=
  ⟨by decide, (C6_complete_empty_abandons (id : Nat → Nat) s1q4 1 [3, 5] (by decide)).1⟩

/-! ## Claim C7 — `complete` with tasks outside the batch

`complete` pops the batch, notices `set(completed).difference(attempted)`
is non-empty, restores the batch into `_in_progress`, and raises
`ValidationError` ("cannot complete tasks ... in this batch") — the
spec's `UnknownTasks`.  Nothing else is touched. -/

/-- C7: if `batch_id` names an in-flight batch but `completed` contains
a task not in that batch, `complete` fails with the `UnknownTasks`
validation error and the queue state is unchanged: the batch is still
in flight with its original tasks, every other batch is untouched, and
the open pool, present set and id counter are not modified. -/
theorem C7_complete_unknown_tasks (orderOf : α → β) (q : TaskQueue α)
    (bid : Nat) (attempted completed : List α)
    (hlu : lookupBatch q.inProgress bid = some attempted)
    (hbad : ∃ x ∈ completed, x ∉ attempted) :
    (q.complete orderOf bid completed).2 = some TQErr.unknownTasks ∧
    TQErr.excClass .unknownTasks = ExcClass.validationError ∧
    (q.complete orderOf bid completed).1.openQueue = q.openQueue ∧
    (q.complete orderOf bid completed).1.present = q.present ∧
    (q.complete orderOf bid completed).1.nextId = q.nextId ∧
    lookupBatch (q.complete orderOf bid completed).1.inProgress bid = some attempted ∧
    (∀ k, lookupBatch (q.complete orderOf bid completed).1.inProgress k =
      lookupBatch q.inProgress k) := by
  have hany : completed.any (· ∉ attempted) = true := by
    rcases hbad with ⟨x, hx, hnx⟩
    rw [List.any_eq_true]
    exact ⟨x, hx, by simpa using hnx⟩
  have hcomp : q.complete orderOf bid completed =
      ({ q with inProgress :=
          q.inProgress.filter (fun e => ¬ e.1 = bid) ++ [(bid, attempted)] },
        some TQErr.unknownTasks) := by
    unfold TaskQueue.complete
    rw [hlu]
    simp only [hany, if_true]
  have hself : lookupBatch
      (q.inProgress.filter (fun e => ¬ e.1 = bid) ++ [(bid, attempted)]) bid =
      some attempted := lookupBatch_append_self q.inProgress bid attempted
  refine ⟨by rw [hcomp], rfl, by rw [hcomp], by rw [hcomp], by rw [hcomp], ?_, ?_⟩
  · rw [hcomp]
    exact hself
  · intro k
    rw [hcomp]
    by_cases hk : k = bid
    · subst hk
      rw [hself, hlu]
    · exact lookupBatch_append_other q.inProgress bid k attempted hk

/-- C7 witness: completing batch `b1 = (1, [3,5])` of the S1 state with
the foreign task `9` fails with `UnknownTasks` and changes nothing. -/
theorem C7_witness :
    (lookupBatch s1q4.inProgress 1 = some [3, 5] ∧ ∃ x ∈ [9], x ∉ [3, 5]) ∧
      ((s1q4.complete (id : Nat → Nat) 1 [9]).2 = some TQErr.unknownTasks ∧
        (s1q4.complete (id : Nat → Nat) 1 [9]).1.present = s1q4.present) := by
  refine ⟨⟨by decide, by decide⟩, ?_⟩
  have h := C7_complete_unknown_tasks (id : Nat → Nat) s1q4 1 [3, 5] [9]
    (by decide) (by decide)
  exact ⟨h.1, h.2.2.2.1⟩

/-! ## Claim C3 — open pool and in-flight batches partition the present set

We model an arbitrary interleaving of `add` / `get` / `get_nowait` /
`complete` as a list of operations applied from the fresh queue, each
operation leaving the state its Python counterpart leaves (including the
partial state of a suspended `add` and the untouched state of a raising
call).  The claimed invariant fails as stated (an `add` whose tuple
contains the same task twice can put that task in the open pool and in
a batch at once) and holds for duplicate-free `add`s. -/

/-- One call into the queue API; `resume` is the event-loop step that
runs the oldest suspended `add` after the lock was released. -/
inductive TQOp (α : Type u) where
  | add (ts : List α)
  | getNowait (maxResults : Option Nat)
  | get (maxResults : Option Nat)
  | complete (bid : Nat) (completed : List α)
  | resume

/-- The state effect of one call (results and raised errors dropped;
a suspended call contributes the state at its suspension point, its
remainder parked in the lock's waiter queue). -/
def TaskQueue.stepOp (orderOf : α → β) (q : TaskQueue α) : TQOp α → TaskQueue α
  | .add ts => (q.add orderOf ts).1
  | .getNowait n => (q.getNowait n).1
  | .get n => (q.get n).1
  | .complete bid completed => (q.complete orderOf bid completed).1
  | .resume => (q.resume orderOf).1

/-- Run a sequence of calls from a given state. -/
def TaskQueue.runOps (orderOf : α → β) (q : TaskQueue α) (ops : List (TQOp α)) : TaskQueue α :=
  ops.foldl (TaskQueue.stepOp orderOf) q

/-- Did a call to `add` suspend on the full-queue lock? -/
def AddOutcome.isBlocked : AddOutcome α → Bool
  | .blocked _ => true
  | _ => false

/-- All tasks sitting in some in-flight batch. -/
def batchTasks (q : TaskQueue α) : List α := (q.inProgress.map Prod.snd).flatten

/-- Every copy of every task held by the queue: open pool then batches. -/
def allOut (q : TaskQueue α) : List α := q.openQueue ++ batchTasks q

/-- The internal invariant of a reachable `TaskQueue`: the open pool and
the in-flight batches hold pairwise distinct tasks, together they are
exactly the present set, batch ids are distinct and below the id
counter. -/
structure TQInv (q : TaskQueue α) : Prop where
  out_nodup : (allOut q).Nodup
  present_iff : ∀ x, x ∈ q.present ↔ x ∈ allOut q
  present_nodup : q.present.Nodup
  keys_nodup : (q.inProgress.map Prod.fst).Nodup
  keys_lt : ∀ e ∈ q.inProgress, e.1 < q.nextId
  lock_free : q.lockHeld = false
  no_waiters : q.waiters = []

/-- The property claimed by C3, for one state: no task is
simultaneously in the open pool and in an in-flight batch, and every
present task is in exactly one of the two (and, when in flight, in
exactly one batch). -/
def exactlyOnePlace (q : TaskQueue α) : Prop :=
  (∀ x, ¬ (x ∈ q.openQueue ∧ x ∈ batchTasks q)) ∧
  (∀ x ∈ q.present,
    (x ∈ q.openQueue ∧ q.inProgress.countP (fun e => x ∈ e.2) = 0) ∨
    (x ∉ q.openQueue ∧ q.inProgress.countP (fun e => x ∈ e.2) = 1))

/-- The per-operation well-formedness under which the claim is provable:
each `add` passes pairwise-distinct tasks (the code itself only rejects
tasks already present) and returns without suspending on the full-queue
lock — a suspended `add`'s continuation re-inserts its remainder with no
duplicate re-check, which breaks the partition (see the counterexample). -/
def TQOp.wf (orderOf : α → β) (q : TaskQueue α) : TQOp α → Prop
  | .add ts => ts.Nodup ∧ (q.add orderOf ts).2.isBlocked = false
  | _ => True

/-- Well-formedness of a whole call sequence, checked state by state. -/
def TQWfTrace (orderOf : α → β) : TaskQueue α → List (TQOp α) → Prop
  | _, [] => True
  | q, op :: rest => TQOp.wf orderOf q op ∧ TQWfTrace orderOf (q.stepOp orderOf op) rest

/-- A batch found by id is one of the `inProgress` entries. -/
theorem lookupBatch_mem (l : List (Nat × List α)) (bid : Nat) (att : List α)
    (hlu : lookupBatch l bid = some att) : (bid, att) ∈ l := by
  unfold lookupBatch at hlu
  cases hfind : l.find? (fun e => e.1 = bid) with
  | none => rw [hfind] at hlu; simp at hlu
  | some e =>
    rw [hfind] at hlu
    have hmem := List.mem_of_find?_eq_some hfind
    have hpred := List.find?_some hfind
    simp only [decide_eq_true_eq] at hpred
    have hlu2 : e.2 = att := by simpa using hlu
    have : e = (bid, att) := Prod.ext hpred hlu2
    rwa [this] at hmem

/-- Popping the entry of a found batch id: the map is a permutation of
the found entry consed onto the filtered remainder. -/
theorem perm_inProgress_pop (l : List (Nat × List α)) (bid : Nat) (att : List α)
    (hnd : (l.map Prod.fst).Nodup) (hlu : lookupBatch l bid = some att) :
    List.Perm l ((bid, att) :: l.filter (fun e => ¬ e.1 = bid)) := by
  induction l with
  | nil => simp [lookupBatch] at hlu
  | cons e l ih =>
    by_cases he : e.1 = bid
    · have hatt : e.2 = att := by
        unfold lookupBatch at hlu
        rw [List.find?_cons_of_pos _ (by simpa using he)] at hlu
        simpa using hlu
      have hnotin : e.1 ∉ l.map Prod.fst := by
        have h1 : (e.1 :: l.map Prod.fst).Nodup := by simpa using hnd
        exact (List.nodup_cons.mp h1).1
      have hrest : l.filter (fun e => ¬ e.1 = bid) = l := by
        rw [List.filter_eq_self]
        intro x hx
        have hne : ¬ x.1 = bid := by
          intro hxbid
          apply hnotin
          rw [he, ← hxbid]
          exact List.mem_map.mpr ⟨x, hx, rfl⟩
        simpa using hne
      rw [List.filter_cons_of_neg (by simpa using he), hrest]
      have : e = (bid, att) := Prod.ext he hatt
      rw [this]
    · unfold lookupBatch at hlu
      rw [List.find?_cons_of_neg _ (by simpa using he)] at hlu
      have hnd' : (l.map Prod.fst).Nodup := (List.nodup_cons.mp (by simpa using hnd)).2
      have := ih hnd' hlu
      rw [List.filter_cons_of_pos (by simpa using he)]
      exact (this.cons e).trans (List.Perm.swap (bid, att) e _)

/-- `batchTasks` only depends on the in-flight map up to permutation. -/
theorem batchTasks_perm {l l' : List (Nat × List α)} (h : List.Perm l l') :
    List.Perm ((l.map Prod.snd).flatten) ((l'.map Prod.snd).flatten) :=
  (h.map Prod.snd).flatten

/-- In a duplicate-free join, an element of the join is in exactly one
of the sublists. -/
theorem countP_join_nodup (ll : List (List α)) (hnd : ll.flatten.Nodup)
    (x : α) (hx : x ∈ ll.flatten) :
    ll.countP (fun s => decide (x ∈ s)) = 1 := by
  induction ll with
  | nil => simp at hx
  | cons s ll ih =>
    rw [List.flatten_cons] at hnd hx
    have hdisj := (List.nodup_append.mp hnd).2.2
    rcases List.mem_append.mp hx with hxs | hxll
    · rw [List.countP_cons_of_pos _ _ (by simpa using hxs)]
      have : ll.countP (fun s => decide (x ∈ s)) = 0 := by
        rw [List.countP_eq_zero]
        intro t ht
        simp only [decide_eq_true_eq]
        intro hxt
        exact hdisj hxs (List.mem_flatten.mpr ⟨t, ht, hxt⟩)
      omega
    · rw [List.countP_cons_of_neg _ _ (by simp; intro hxs; exact hdisj hxs hxll)]
      exact ih (List.nodup_append.mp hnd).2.1 hxll

/-- The claimed partition property follows from the invariant. -/
theorem exactlyOnePlace_of_inv (q : TaskQueue α) (hinv : TQInv q) :
    exactlyOnePlace q := by
  have hnodup := hinv.out_nodup
  unfold allOut at hnodup
  have hdisj := (List.nodup_append.mp hnodup).2.2
  constructor
  · rintro x ⟨hopen, hbatch⟩
    exact hdisj hopen hbatch
  · intro x hx
    rcases List.mem_append.mp ((hinv.present_iff x).mp hx) with hopen | hbatch
    · left
      refine ⟨hopen, ?_⟩
      rw [List.countP_eq_zero]
      intro e he
      simp only [decide_eq_true_eq]
      intro hxe
      exact hdisj hopen (List.mem_flatten.mpr ⟨e.2, List.mem_map.mpr ⟨e, he, rfl⟩, hxe⟩)
    · right
      refine ⟨fun hopen => hdisj hopen hbatch, ?_⟩
      have := countP_join_nodup (q.inProgress.map Prod.snd)
        (List.nodup_append.mp hnodup).2.1 x hbatch
      rw [List.countP_map] at this
      simpa using this

/-! ### Invariant preservation, one operation at a time -/

theorem batchTasks_enqueue (orderOf : α → β) (q : TaskQueue α) (chunk : List α) :
    batchTasks (q.enqueue orderOf chunk) = batchTasks q := rfl

theorem TQInv_enqueue (orderOf : α → β) (q : TaskQueue α) (chunk : List α)
    (hinv : TQInv q) (hnd : chunk.Nodup) (hfresh : ∀ x ∈ chunk, x ∉ q.present) :
    TQInv (q.enqueue orderOf chunk) := by
  have hperm : List.Perm (allOut (q.enqueue orderOf chunk)) (chunk ++ allOut q) := by
    unfold allOut
    rw [batchTasks_enqueue]
    have h1 : List.Perm (pushAll orderOf q.openQueue chunk ++ batchTasks q)
        ((chunk ++ q.openQueue) ++ batchTasks q) :=
      (pushAll_perm orderOf q.openQueue chunk).append_right _
    rw [List.append_assoc] at h1
    exact h1
  have hdisj : ∀ x ∈ chunk, x ∉ allOut q := fun x hx hmem =>
    hfresh x hx ((hinv.present_iff x).mpr hmem)
  constructor
  · rw [hperm.nodup_iff, List.nodup_append]
    exact ⟨hnd, hinv.out_nodup, fun a ha => hdisj a ha⟩
  · intro x
    rw [hperm.mem_iff, List.mem_append]
    show x ∈ updatePresent q.present chunk ↔ _
    rw [mem_updatePresent, hinv.present_iff]
    tauto
  · exact updatePresent_nodup _ _ hinv.present_nodup
  · exact hinv.keys_nodup
  · exact hinv.keys_lt
  · exact hinv.lock_free
  · exact hinv.no_waiters

theorem TQInv_add (orderOf : α → β) (q : TaskQueue α) (ts : List α)
    (hinv : TQInv q) (hnd : ts.Nodup)
    (hnb : (q.add orderOf ts).2.isBlocked = false) : TQInv (q.add orderOf ts).1 := by
  cases hout : (q.add orderOf ts).2 with
  | blocked rem =>
    rw [hout] at hnb
    exact absurd hnb (by simp [AddOutcome.isBlocked])
  | err e =>
    have hq : (q.add orderOf ts).1 = q := by
      unfold TaskQueue.add at hout ⊢
      by_cases hdup : ts.any (· ∈ q.present)
      · rw [if_pos hdup]
      · rw [if_neg hdup] at hout ⊢
        exact absurd hout (addLoop_no_err orderOf _ q _ e)
    rw [hq]
    exact hinv
  | done =>
    obtain ⟨hstate, hdup⟩ := add_done_eq orderOf q ts hinv.lock_free hinv.no_waiters hout
    rw [hstate]
    have hfresh : ∀ x ∈ sortByKey orderOf ts, x ∉ q.present := by
      intro x hx hpres
      have hxts : x ∈ ts := (sortByKey_perm orderOf ts).subset hx
      have : ts.any (· ∈ q.present) = true :=
        List.any_eq_true.mpr ⟨x, hxts, by simpa using hpres⟩
      rw [hdup] at this
      cases this
    have hnds : (sortByKey orderOf ts).Nodup := (sortByKey_perm orderOf ts).nodup_iff.mpr hnd
    exact TQInv_enqueue orderOf q _ hinv hnds hfresh

theorem TQInv_getNowait (q : TaskQueue α) (n : Option Nat)
    (hinv : TQInv q) : TQInv (q.getNowait n).1 := by
  unfold TaskQueue.getNowait
  by_cases he : q.openQueue.isEmpty
  · rw [if_pos he]; exact hinv
  · rw [if_neg he]
    show TQInv ({ q with openQueue := q.openQueue.drop (q.drainCount n),
                         inProgress := q.inProgress ++
                           [(q.nextId, q.openQueue.take (q.drainCount n))],
                         nextId := q.nextId + 1 } : TaskQueue α)
    have hbt : batchTasks ({ q with openQueue := q.openQueue.drop (q.drainCount n),
                                    inProgress := q.inProgress ++
                                      [(q.nextId, q.openQueue.take (q.drainCount n))],
                                    nextId := q.nextId + 1 } : TaskQueue α) =
        batchTasks q ++ q.openQueue.take (q.drainCount n) := by
      unfold batchTasks
      rw [List.map_append, List.flatten_append]
      simp
    have hperm : List.Perm
        (allOut ({ q with openQueue := q.openQueue.drop (q.drainCount n),
                          inProgress := q.inProgress ++
                            [(q.nextId, q.openQueue.take (q.drainCount n))],
                          nextId := q.nextId + 1 } : TaskQueue α)) (allOut q) := by
      unfold allOut
      rw [hbt]
      show List.Perm (q.openQueue.drop (q.drainCount n) ++
        (batchTasks q ++ q.openQueue.take (q.drainCount n))) _
      have hgoal : List.Perm
          (q.openQueue.drop (q.drainCount n) ++
            (batchTasks q ++ q.openQueue.take (q.drainCount n)))
          ((q.openQueue.take (q.drainCount n) ++ q.openQueue.drop (q.drainCount n)) ++
            batchTasks q) := by
        refine List.perm_append_comm.trans ?_
        rw [List.append_assoc]
        exact List.perm_append_comm
      rw [List.take_append_drop] at hgoal
      exact hgoal
    constructor
    · rw [hperm.nodup_iff]; exact hinv.out_nodup
    · intro x
      rw [hperm.mem_iff]
      exact hinv.present_iff x
    · exact hinv.present_nodup
    · show ((q.inProgress ++ [(q.nextId, q.openQueue.take (q.drainCount n))]).map
        Prod.fst).Nodup
      rw [List.map_append, List.nodup_append]
      refine ⟨hinv.keys_nodup, by simp, ?_⟩
      intro a ha
      rcases List.mem_map.mp ha with ⟨e, he2, rfl⟩
      have := hinv.keys_lt e he2
      simp only [List.map_cons, List.map_nil, List.mem_singleton]
      omega
    · intro e he
      rcases List.mem_append.mp he with h | h
      · have := hinv.keys_lt e h
        simp only
        omega
      · simp only [List.mem_singleton] at h
        subst h
        simp only
        omega
    · exact hinv.lock_free
    · exact hinv.no_waiters

theorem get_state_eq_getNowait (q : TaskQueue α) (n : Option Nat) :
    (q.get n).1 = (q.getNowait n).1 := by
  unfold TaskQueue.get TaskQueue.getNowait
  by_cases he : q.openQueue.isEmpty
  · rw [if_pos he, if_pos he]
  · rw [if_neg he, if_neg he]

theorem TQInv_get (q : TaskQueue α) (n : Option Nat)
    (hinv : TQInv q) : TQInv (q.get n).1 := by
  rw [get_state_eq_getNowait]
  exact TQInv_getNowait q n hinv

theorem TQInv_complete (orderOf : α → β) (q : TaskQueue α) (bid : Nat)
    (completed : List α) (hinv : TQInv q) :
    TQInv (q.complete orderOf bid completed).1 := by
  unfold TaskQueue.complete
  cases hlu : lookupBatch q.inProgress bid with
  | none => exact hinv
  | some att =>
    simp only
    have hip : List.Perm q.inProgress
        ((bid, att) :: q.inProgress.filter (fun e => ¬ e.1 = bid)) :=
      perm_inProgress_pop q.inProgress bid att hinv.keys_nodup hlu
    have hbt : List.Perm (batchTasks q)
        (att ++ (((q.inProgress.filter (fun e => ¬ e.1 = bid)).map Prod.snd).flatten)) := by
      unfold batchTasks
      have := batchTasks_perm hip
      simpa using this
    by_cases hbad : completed.any (· ∉ att)
    · rw [if_pos hbad]
      show TQInv ({ q with inProgress :=
        q.inProgress.filter (fun e => ¬ e.1 = bid) ++ [(bid, att)] } : TaskQueue α)
      have hip2 : List.Perm
          (q.inProgress.filter (fun e => ¬ e.1 = bid) ++ [(bid, att)]) q.inProgress :=
        (List.perm_append_singleton _ _).trans hip.symm
      have hperm : List.Perm
          (allOut ({ q with inProgress :=
            q.inProgress.filter (fun e => ¬ e.1 = bid) ++ [(bid, att)] } : TaskQueue α))
          (allOut q) := by
        unfold allOut
        exact List.Perm.append_left _ (batchTasks_perm hip2)
      constructor
      · rw [hperm.nodup_iff]; exact hinv.out_nodup
      · intro x
        rw [hperm.mem_iff]
        exact hinv.present_iff x
      · exact hinv.present_nodup
      · show ((q.inProgress.filter (fun e => ¬ e.1 = bid) ++ [(bid, att)]).map Prod.fst).Nodup
        rw [(hip2.map Prod.fst).nodup_iff]
        exact hinv.keys_nodup
      · intro e he
        exact hinv.keys_lt e (hip2.subset he)
      · exact hinv.lock_free
      · exact hinv.no_waiters
    · rw [if_neg hbad]
      show TQInv (({ q with inProgress := q.inProgress.filter (fun e => ¬ e.1 = bid),
                            openQueue := pushAll orderOf q.openQueue
                              (att.filter (· ∉ completed)).dedup,
                            present := q.present.filter (· ∉ completed) } :
        TaskQueue α).releaseIfRoom)
      rw [releaseIfRoom_of_unlocked
        ({ q with inProgress := q.inProgress.filter (fun e => ¬ e.1 = bid),
                  openQueue := pushAll orderOf q.openQueue
                    (att.filter (· ∉ completed)).dedup,
                  present := q.present.filter (· ∉ completed) } : TaskQueue α)
        hinv.lock_free]
      have hdone_sub : ∀ y ∈ completed, y ∈ att := by
        intro y hy
        by_contra hno
        exact hbad (List.any_eq_true.mpr ⟨y, hy, by simpa using hno⟩)
      -- decompose the old nodup along open ++ att ++ rest
      set btF := ((q.inProgress.filter (fun e => ¬ e.1 = bid)).map Prod.snd).flatten with hbtF
      have hallq : List.Perm (allOut q) (q.openQueue ++ (att ++ btF)) :=
        List.Perm.append_left _ hbt
      have hnodup_q : (q.openQueue ++ (att ++ btF)).Nodup :=
        hallq.nodup_iff.mp hinv.out_nodup
      rw [List.nodup_append] at hnodup_q
      obtain ⟨hopen_nd, hrest_nd, hdisj_open⟩ := hnodup_q
      rw [List.nodup_append] at hrest_nd
      obtain ⟨hatt_nd, hbtF_nd, hdisj_att_btF⟩ := hrest_nd
      have hdedup : (att.filter (· ∉ completed)).dedup = att.filter (· ∉ completed) :=
        List.dedup_eq_self.mpr (hatt_nd.filter _)
      have hperm : List.Perm
          (allOut ({ q with inProgress := q.inProgress.filter (fun e => ¬ e.1 = bid),
                            openQueue := pushAll orderOf q.openQueue (att.filter (· ∉ completed)).dedup,
                            present := q.present.filter (· ∉ completed) } : TaskQueue α))
          ((att.filter (· ∉ completed) ++ q.openQueue) ++ btF) := by
        unfold allOut
        rw [hdedup]
        exact List.Perm.append_right _ (pushAll_perm orderOf _ _)
      constructor
      · rw [hperm.nodup_iff, List.nodup_append, List.nodup_append]
        have hfilter_sub : List.Sublist (att.filter (· ∉ completed)) att :=
          List.filter_sublist att
        refine ⟨⟨hatt_nd.sublist hfilter_sub, hopen_nd, ?_⟩, hbtF_nd, ?_⟩
        · intro a ha hopen
          exact hdisj_open hopen (List.mem_append.mpr (Or.inl (hfilter_sub.mem ha)))
        · intro a ha
          rcases List.mem_append.mp ha with hfa | hoa
          · exact hdisj_att_btF (hfilter_sub.mem hfa)
          · intro hbtFa
            exact hdisj_open hoa (List.mem_append.mpr (Or.inr hbtFa))
      · intro x
        rw [hperm.mem_iff]
        show x ∈ q.present.filter (· ∉ completed) ↔ _
        rw [List.mem_filter]
        simp only [decide_not, Bool.not_eq_true', decide_eq_false_iff_not]
        rw [hinv.present_iff x, hallq.mem_iff]
        constructor
        · rintro ⟨hmem, hnc⟩
          rcases List.mem_append.mp hmem with hopen | hrest
          · exact List.mem_append.mpr (Or.inl (List.mem_append.mpr (Or.inr hopen)))
          · rcases List.mem_append.mp hrest with hatt | hbtFx
            · refine List.mem_append.mpr (Or.inl (List.mem_append.mpr (Or.inl ?_)))
              rw [List.mem_filter]
              exact ⟨hatt, by simpa using hnc⟩
            · exact List.mem_append.mpr (Or.inr hbtFx)
        · intro hmem
          rcases List.mem_append.mp hmem with hleft | hbtFx
          · rcases List.mem_append.mp hleft with hfx | hopen
            · rw [List.mem_filter] at hfx
              refine ⟨List.mem_append.mpr (Or.inr (List.mem_append.mpr (Or.inl hfx.1))), ?_⟩
              simpa using hfx.2
            · refine ⟨List.mem_append.mpr (Or.inl hopen), ?_⟩
              intro hc
              exact hdisj_open hopen (List.mem_append.mpr (Or.inl (hdone_sub x hc)))
          · refine ⟨List.mem_append.mpr (Or.inr (List.mem_append.mpr (Or.inr hbtFx))), ?_⟩
            intro hc
            exact hdisj_att_btF (hdone_sub x hc) hbtFx
      · exact hinv.present_nodup.filter _
      · show ((q.inProgress.filter (fun e => ¬ e.1 = bid)).map Prod.fst).Nodup
        exact hinv.keys_nodup.sublist ((List.filter_sublist _).map Prod.fst)
      · intro e he
        exact hinv.keys_lt e (List.mem_of_mem_filter he)
      · exact hinv.lock_free
      · exact hinv.no_waiters

/-- With no waiter parked, a scheduler step is a no-op. -/
theorem TQInv_resume (orderOf : α → β) (q : TaskQueue α) (hinv : TQInv q) :
    TQInv (q.resume orderOf).1 := by
  unfold TaskQueue.resume
  rw [hinv.no_waiters]
  exact hinv

/-- The invariant holds in the initial state and is preserved by every
well-formed operation. -/
theorem TQInv_runOps (orderOf : α → β) (ops : List (TQOp α)) :
    ∀ (q : TaskQueue α), TQInv q → TQWfTrace orderOf q ops →
    TQInv (TaskQueue.runOps orderOf q ops) := by
  induction ops with
  | nil => intro q hinv _; exact hinv
  | cons op ops ih =>
    intro q hinv hwf
    obtain ⟨hopwf, hrest⟩ := hwf
    refine ih _ ?_ hrest
    cases op with
    | add ts => exact TQInv_add orderOf q ts hinv hopwf.1 hopwf.2
    | getNowait n => exact TQInv_getNowait q n hinv
    | get n => exact TQInv_get q n hinv
    | complete bid completed => exact TQInv_complete orderOf q bid completed hinv
    | resume => exact TQInv_resume orderOf q hinv

theorem TQInv_init (maxsize : Nat) : TQInv (TaskQueue.init maxsize : TaskQueue α) := by
  constructor <;> simp [TaskQueue.init, allOut, batchTasks]

/-! ### The C3 verdict -/

/-- C3 counterexample: with `maxsize = 2` and tasks `1, 2` present, two
producers each call `add((3,))` — both pass the entry duplicate check
(`3` is not yet present) and suspend on the full-queue lock.  After
`complete` frees the queue, each resumed continuation inserts its
remainder *without re-running the duplicate check*, so `3` enters the
open priority queue twice while `_tasks` holds it once;
`get_nowait(1)` then checks one copy out into a batch while the other
stays in the pool: task `3` is simultaneously in the open pool and in
an in-flight batch, refuting the claim — even though every single `add`
call passed pairwise-distinct tasks. -/
theorem C3_counterexample :
    ¬ exactlyOnePlace (TaskQueue.runOps (id : Nat → Nat) (TaskQueue.init 2)
        [TQOp.add [1, 2], TQOp.add [3], TQOp.add [3], TQOp.getNowait none,
         TQOp.complete 0 [1, 2], TQOp.resume, TQOp.resume,
         TQOp.getNowait (some 1)]) := by
  intro h
  exact h.1 3 ⟨by decide, by decide⟩

/-- C3 (amended): for every PTQ and every sequence of `add`,
`get`/`get_nowait` and `complete` operations in which each `add` passes
pairwise-distinct tasks *and returns without suspending on the
full-queue lock*, no task is ever simultaneously in the open pool and
in an in-flight batch, and every present task is in exactly one of the
two (when in flight, in exactly one batch).  A suspended `add`'s
resumed continuation re-inserts its remaining tasks without re-running
the duplicate check, and the partition can fail.  "Ever" is covered
because every prefix of a well-formed operation sequence is itself
well-formed. -/
theorem C3_partition (orderOf : α → β) (maxsize : Nat) (ops : List (TQOp α))
    (hwf : TQWfTrace orderOf (TaskQueue.init maxsize) ops) :
    exactlyOnePlace (TaskQueue.runOps orderOf (TaskQueue.init maxsize) ops) :=
  exactlyOnePlace_of_inv _
    (TQInv_runOps orderOf ops (TaskQueue.init maxsize) (TQInv_init maxsize) hwf)

/-- C3 witness: the partition property after
`add([5,1,3]); get(); complete(b0,[1])`. -/
theorem C3_witness :
    exactlyOnePlace (TaskQueue.runOps (id : Nat → Nat) (TaskQueue.init 3)
      [TQOp.add [5, 1, 3], TQOp.get none, TQOp.complete 0 [1]]) := by
  refine C3_partition (id : Nat → Nat) 3 _ ?_
  exact ⟨⟨by decide, by decide⟩, trivial, trivial, trivial⟩

/-! ## Request/response manager

`BaseRequestManager` (`trinity/protocol/common/managers.py`) keeps one
`pending_request : Tuple[RequestType, asyncio.Future]` per peer and
message class.  We model the future store explicitly (futures outlive
the `pending_request` slot: the awaiting caller holds a reference), the
peer's sub-protocol as the list of requests sent so far, and the logger
as a list of log events.  `request.validate_response` (which raises
`ValidationError` on a bad response) is the boolean parameter
`validateResponse`; `_normalize_response` is `normalizeResponse`. -/

/-- Log events the manager emits on the paths modelled here. -/
inductive MgrLog where
  /-- `logger.error("Already waiting for response to ...")`, line 120. -/
  | alreadyWaitingError
  /-- `logger.debug("Response validation failure for pending ...")`, line 84. -/
  | validationFailure
  deriving DecidableEq, Repr

/-- Errors raised by the manager paths modelled here. -/
inductive MgrErr where
  /-- `trinity.exceptions.AlreadyWaiting` raised by `_wait_for_response`. -/
  | alreadyWaiting
  deriving DecidableEq, Repr

/-- Manager state: `pending_request` holds the request and the id of its
future; `futures` is the store of created futures (`none` = not yet
resolved); `sent` is the list of requests pushed through
`_send_sub_proto_request`; `log` is the logger sink. -/
structure Manager (Req Ret : Type u) where
  pending : Option (Req × Nat)
  futures : List (Nat × Option Ret)
  nextFutureId : Nat
  log : List MgrLog
  sent : List Req

variable {Req Resp Ret : Type u}

/-- Resolve a future id in the store. -/
def lookupFuture (l : List (Nat × Option Ret)) (fid : Nat) : Option (Option Ret) :=
  (l.find? (fun e => e.1 = fid)).map Prod.snd

/-- `future.set_result(v)`: resolve the future `fid`. -/
def setFuture (l : List (Nat × Option Ret)) (fid : Nat) (v : Ret) :
    List (Nat × Option Ret) :=
  l.map (fun e => if e.1 = fid then (e.1, some v) else e)

/-- `_send_sub_proto_request(request)`: push the request to the peer's
sub-protocol. -/
def Manager.sendSubProtoRequest (s : Manager Req Ret) (req : Req) : Manager Req Ret :=
  { s with sent := s.sent ++ [req] }

/-- The synchronous prefix of `_wait_for_response` (managers.py
116-133): if a request is already pending, log an error and raise
`AlreadyWaiting` — touching nothing else; otherwise create a fresh
future, record `(request, future)` in `pending_request`, and hand the
future id back to be awaited. -/
def Manager.waitForResponseStart (s : Manager Req Ret) (req : Req) :
    Manager Req Ret × Except MgrErr Nat :=
  match s.pending with
  | some _ =>
    ({ s with log := s.log ++ [MgrLog.alreadyWaitingError] }, .error .alreadyWaiting)
  | none =>
    ({ s with futures := s.futures ++ [(s.nextFutureId, none)],
              pending := some (req, s.nextFutureId),
              nextFutureId := s.nextFutureId + 1 },
     .ok s.nextFutureId)

/-- `_handle_msg(msg)` (managers.py 75-92): nothing pending → return;
validation failure → log it, leave the future and `pending_request`
untouched; success → resolve the future with the normalized response
and clear `pending_request`. -/
def Manager.handleMsg (validateResponse : Req → Resp → Bool)
    (normalizeResponse : Resp → Ret) (s : Manager Req Ret) (msg : Resp) :
    Manager Req Ret :=
  match s.pending with
  | none => s
  | some (req, fid) =>
    if validateResponse req msg then
      { s with futures := setFuture s.futures fid (normalizeResponse msg),
               pending := none }
    else
      { s with log := s.log ++ [MgrLog.validationFailure] }

/-- `_request_and_wait` (managers.py 143-147): the request is sent
through the sub-protocol *first*; only then does `_wait_for_response`
perform the pending check. -/
def Manager.requestAndWaitStart (s : Manager Req Ret) (req : Req) :
    Manager Req Ret × Except MgrErr Nat :=
  (s.sendSubProtoRequest req).waitForResponseStart req

/-- Resolving a stored future: `setFuture` rewrites exactly the entry of
`fid`. -/
theorem lookupFuture_setFuture_self (l : List (Nat × Option Ret)) (fid : Nat)
    (v : Ret) (w : Option Ret) (hl : lookupFuture l fid = some w) :
    lookupFuture (setFuture l fid v) fid = some (some v) := by
  induction l with
  | nil => simp [lookupFuture] at hl
  | cons e l ih =>
    by_cases he : e.1 = fid
    · unfold lookupFuture setFuture
      rw [List.map_cons, if_pos he,
        List.find?_cons_of_pos _ (by simpa using he)]
      rfl
    · unfold lookupFuture at hl
      rw [List.find?_cons_of_neg _ (by simpa using he)] at hl
      unfold lookupFuture setFuture
      rw [List.map_cons, if_neg he,
        List.find?_cons_of_neg _ (by simpa using he)]
      exact ih hl

/-! ## Claim C8 — second call while pending fails `AlreadyWaiting` -/

/-- C8: while a request is pending, a second `_wait_for_response` logs
and fails with `AlreadyWaiting` without mutating `pending_request` (or
the future store or the id counter), and the pending request's future
can still be fulfilled: a subsequently handled message that validates
against the first request resolves that future with the normalized
response. -/
theorem C8_already_waiting (validateResponse : Req → Resp → Bool)
    (normalizeResponse : Resp → Ret) (s : Manager Req Ret)
    (req0 : Req) (fid0 : Nat) (req2 : Req)
    (hp : s.pending = some (req0, fid0))
    (hf : lookupFuture s.futures fid0 = some none) :
    (s.waitForResponseStart req2).2 = .error .alreadyWaiting ∧
    (s.waitForResponseStart req2).1.pending = s.pending ∧
    (s.waitForResponseStart req2).1.futures = s.futures ∧
    (s.waitForResponseStart req2).1.nextFutureId = s.nextFutureId ∧
    (∀ msg, validateResponse req0 msg = true →
      (Manager.handleMsg validateResponse normalizeResponse
        (s.waitForResponseStart req2).1 msg).pending = none ∧
      lookupFuture (Manager.handleMsg validateResponse normalizeResponse
        (s.waitForResponseStart req2).1 msg).futures fid0 =
        some (some (normalizeResponse msg))) := by
  have hstart : s.waitForResponseStart req2 =
      ({ s with log := s.log ++ [MgrLog.alreadyWaitingError] }, .error .alreadyWaiting) := by
    unfold Manager.waitForResponseStart
    rw [hp]
  refine ⟨by rw [hstart], by rw [hstart], by rw [hstart], by rw [hstart], ?_⟩
  intro msg hval
  have hmsg : Manager.handleMsg validateResponse normalizeResponse
      (s.waitForResponseStart req2).1 msg =
      { s with log := s.log ++ [MgrLog.alreadyWaitingError],
               futures := setFuture s.futures fid0 (normalizeResponse msg),
               pending := none } := by
    rw [hstart]
    unfold Manager.handleMsg
    simp only [hp, hval, if_true]
  rw [hmsg]
  exact ⟨rfl, lookupFuture_setFuture_self s.futures fid0 _ none hf⟩

/-- C8 witness: a manager pending on request `7` with future `0`
rejects a second call and can still be fulfilled by the response `7`. -/
theorem C8_witness :
    (({ pending := some (7, 0), futures := [(0, none)], nextFutureId := 1,
        log := [], sent := [7] } : Manager Nat Nat).pending = some (7, 0) ∧
      lookupFuture ([(0, none)] : List (Nat × Option Nat)) 0 = some none) ∧
    ((({ pending := some (7, 0), futures := [(0, none)], nextFutureId := 1,
         log := [], sent := [7] } : Manager Nat Nat).waitForResponseStart 8).2 =
        .error .alreadyWaiting ∧
      (({ pending := some (7, 0), futures := [(0, none)], nextFutureId := 1,
          log := [], sent := [7] } : Manager Nat Nat).waitForResponseStart 8).1.pending =
        some (7, 0)) := by
  refine ⟨⟨rfl, rfl⟩, ?_⟩
  have h := C8_already_waiting (fun r m => decide (r = m)) (fun m => m)
    ({ pending := some (7, 0), futures := [(0, none)], nextFutureId := 1,
       log := [], sent := [7] } : Manager Nat Nat) 7 0 8 rfl rfl
  exact ⟨h.1, by rw [h.2.1]⟩

/-! ## Claim C9 — inbound message validation -/

/-- C9: with a request pending, an inbound message that fails
validation is logged (a `validationFailure` entry is appended) and
everything else — `pending_request` and the unresolved future — stays
as it was, so the caller keeps waiting; a message that validates
resolves the future with the normalized response and clears
`pending_request`. -/
theorem C9_handle_msg (validateResponse : Req → Resp → Bool)
    (normalizeResponse : Resp → Ret) (s : Manager Req Ret)
    (req : Req) (fid : Nat) (msg : Resp)
    (hp : s.pending = some (req, fid))
    (hf : lookupFuture s.futures fid = some none) :
    (validateResponse req msg = false →
      Manager.handleMsg validateResponse normalizeResponse s msg =
        { s with log := s.log ++ [MgrLog.validationFailure] } ∧
      (Manager.handleMsg validateResponse normalizeResponse s msg).pending =
        some (req, fid) ∧
      lookupFuture (Manager.handleMsg validateResponse normalizeResponse
        s msg).futures fid = some none) ∧
    (validateResponse req msg = true →
      (Manager.handleMsg validateResponse normalizeResponse s msg).pending = none ∧
      lookupFuture (Manager.handleMsg validateResponse normalizeResponse
        s msg).futures fid = some (some (normalizeResponse msg))) := by
  constructor
  · intro hval
    have hmsg : Manager.handleMsg validateResponse normalizeResponse s msg =
        { s with log := s.log ++ [MgrLog.validationFailure] } := by
      unfold Manager.handleMsg
      simp only [hp, hval, Bool.false_eq_true, if_false]
    rw [hmsg]
    exact ⟨rfl, hp, hf⟩
  · intro hval
    have hmsg : Manager.handleMsg validateResponse normalizeResponse s msg =
        { s with futures := setFuture s.futures fid (normalizeResponse msg),
                 pending := none } := by
      unfold Manager.handleMsg
      simp only [hp, hval, if_true]
    rw [hmsg]
    exact ⟨rfl, lookupFuture_setFuture_self s.futures fid _ none hf⟩

/-- C9 witness: the pending manager handles the non-validating message
`9` (logged, still pending) and the validating message `7` (future
resolved, pending cleared). -/
theorem C9_witness :
    (({ pending := some (7, 0), futures := [(0, none)], nextFutureId := 1,
        log := [], sent := [7] } : Manager Nat Nat).pending = some (7, 0)) ∧
    ((Manager.handleMsg (fun r m => decide (r = m)) (fun m => m)
        ({ pending := some (7, 0), futures := [(0, none)], nextFutureId := 1,
           log := [], sent := [7] } : Manager Nat Nat) 9).pending = some (7, 0) ∧
      (Manager.handleMsg (fun r m => decide (r = m)) (fun m => m)
        ({ pending := some (7, 0), futures := [(0, none)], nextFutureId := 1,
           log := [], sent := [7] } : Manager Nat Nat) 7).pending = none) := by
  refine ⟨rfl, ?_⟩
  have h := C9_handle_msg (fun r m => decide (r = m)) (fun m => m)
    ({ pending := some (7, 0), futures := [(0, none)], nextFutureId := 1,
       log := [], sent := [7] } : Manager Nat Nat) 7 0 9 rfl rfl
  have h2 := C9_handle_msg (fun r m => decide (r = m)) (fun m => m)
    ({ pending := some (7, 0), futures := [(0, none)], nextFutureId := 1,
       log := [], sent := [7] } : Manager Nat Nat) 7 0 7 rfl rfl
  exact ⟨(h.1 (by decide)).2.1, (h2.2 (by decide)).1⟩

/-! ## Claim C10 — the duplicate request is sent before the pending check -/

/-- C10: `_request_and_wait` calls `_send_sub_proto_request(request)`
before `_wait_for_response`, so when a request is already pending the
`AlreadyWaiting` failure is raised only after the duplicate request has
been transmitted to the peer: the error path leaves the duplicate in
the sent stream (and `pending` untouched). -/
theorem C10_send_before_pending_check (s : Manager Req Ret) (req : Req)
    (p : Req × Nat) (hp : s.pending = some p) :
    (s.requestAndWaitStart req).2 = .error .alreadyWaiting ∧
    (s.requestAndWaitStart req).1.sent = s.sent ++ [req] ∧
    (s.requestAndWaitStart req).1.pending = s.pending := by
  have hstart : s.requestAndWaitStart req =
      ({ s with sent := s.sent ++ [req],
                log := s.log ++ [MgrLog.alreadyWaitingError] }, .error .alreadyWaiting) := by
    unfold Manager.requestAndWaitStart Manager.sendSubProtoRequest
      Manager.waitForResponseStart
    simp only [hp]
  rw [hstart, hp]
  exact ⟨rfl, rfl, rfl⟩

/-- C10 witness: the pending manager transmits the duplicate request
`8` and only then fails. -/
theorem C10_witness :
    (({ pending := some (7, 0), futures := [(0, none)], nextFutureId := 1,
        log := [], sent := [7] } : Manager Nat Nat).pending = some (7, 0)) ∧
    ((({ pending := some (7, 0), futures := [(0, none)], nextFutureId := 1,
         log := [], sent := [7] } : Manager Nat Nat).requestAndWaitStart 8).2 =
        .error .alreadyWaiting ∧
      (({ pending := some (7, 0), futures := [(0, none)], nextFutureId := 1,
          log := [], sent := [7] } : Manager Nat Nat).requestAndWaitStart 8).1.sent =
        [7, 8]) := by
  refine ⟨rfl, ?_⟩
  have h := C10_send_before_pending_check
    ({ pending := some (7, 0), futures := [(0, none)], nextFutureId := 1,
       log := [], sent := [7] } : Manager Nat Nat) 8 (7, 0) rfl
  exact ⟨h.1, h.2.1⟩

/-! ## Ordered task preparation: data model

`OrderedTaskPreparation` (datastructures.py 339-579) tracks, per task
id, a prerequisite tracker (`BaseTaskPrerequisites`), the set of
dependents (`_dependencies`, a `defaultdict(set)`), the unready ids
(`_unready`), the queue of promoted tasks (`_ready_tasks`), the depth
of each id (`_depths`) and the oldest unpruned depth (`_oldest_depth`).
Python dicts become association lists (assignment replaces an existing
key or appends a new one, deletion filters), Python sets become
duplicate-free lists with order-preserving insertion.

`τ` is the task type, `ι` the id type (`id_extractor` / `dependency_
extractor` are the parameters `idOf` / `depOf`), `κ` the prerequisite
enumeration (the parameter `prereqs` lists its members).  The model
adds one history field, `emitted`: every task ever put into
`_ready_tasks`, in order — the concatenation of everything
`ready_tasks()` ever returns — used to state the emission-order
claims; `readyQueue` is the queue's current (undrained) content. -/

/-- Generic association-list lookup (`d[k]` returning `None` when
absent). -/
def alookup {ι : Type u} {γ : Type v} [DecidableEq ι] (l : List (ι × γ)) (k : ι) :
    Option γ :=
  (l.find? (fun e => e.1 = k)).map Prod.snd

/-- Generic association-list assignment (`d[k] = v`): replace the
existing entry in place, or append a new one (Python dicts preserve
insertion order). -/
def aset {ι : Type u} {γ : Type v} [DecidableEq ι] (l : List (ι × γ)) (k : ι) (v : γ) :
    List (ι × γ) :=
  if (l.find? (fun e => e.1 = k)).isSome then
    l.map (fun e => if e.1 = k then (k, v) else e)
  else l ++ [(k, v)]

/-- `set.add`: insert if absent, preserving order. -/
def insertSet {ι : Type u} [DecidableEq ι] (x : ι) (s : List ι) : List ι :=
  if x ∈ s then s else s ++ [x]

/-- Errors raised by the `OrderedTaskPreparation` code, one constructor
per `raise` site.  All are `ValidationError`s except the last, which is
the `KeyError` escaping `_prune`. -/
inductive OtpErr where
  /-- `from_enum`: "There must be at least one prerequisite". -/
  | atLeastOnePrereq
  /-- `set_finished_dependency`: "Tasks already added, cannot set ... as finished". -/
  | alreadyPrimed
  /-- `register_tasks`: "Cannot prepare task ... before preparing its dependency". -/
  | unknownDependency
  /-- `finish_prereq`: "Cannot finish a task until set_last_completion() is called". -/
  | noTasksRegistered
  /-- `finish_prereq`: "Cannot finish task ... before preparing it". -/
  | unknownTask
  /-- `BaseTaskPrerequisites.finish`: "Prerequisite ... is not recognized". -/
  | unknownPrereq
  /-- `BaseTaskPrerequisites.finish`: "Prerequisite ... is already complete". -/
  | alreadyFinished
  /-- `_prune`: `del self._dependencies[prune_task_id]` raises `KeyError`
  when the pruned id has no dependents entry — `_dependencies` is a
  `defaultdict(set)`, but entries are created only by `__getitem__`
  (at `register_tasks` for the parent and at `_mark_one_task_complete`
  for the emitted id), never by `del`.  A pruned id that was never
  emitted and has no registered dependent therefore crashes `_prune`
  mid-deletion. -/
  | dependenciesKeyError
  deriving DecidableEq, Repr

/-- A `BaseTaskPrerequisites` instance: the task plus its completed
prerequisite kinds (`_completed_prereqs`, a set). -/
structure Tracker (τ κ : Type u) where
  task : τ
  completed : List κ
  deriving DecidableEq, Repr

variable {τ ι κ : Type u} [DecidableEq τ] [DecidableEq ι] [DecidableEq κ]

/-- `is_complete`: no prerequisite kind is missing. -/
def Tracker.isComplete (prereqs : List κ) (tr : Tracker τ κ) : Bool :=
  prereqs.all (· ∈ tr.completed)

/-- `finish(prereq)`: reject unknown or already-satisfied kinds,
otherwise record the kind. -/
def Tracker.finish (prereqs : List κ) (tr : Tracker τ κ) (k : κ) :
    Except OtpErr (Tracker τ κ) :=
  if k ∉ prereqs then .error .unknownPrereq
  else if k ∈ tr.completed then .error .alreadyFinished
  else .ok { tr with completed := tr.completed ++ [k] }

/-- The constructor arguments of `OrderedTaskPreparation`: the
prerequisite enumeration's members and the id / dependency extractors
(stored on the instance as `_prereq_tracker`, `_id_of`,
`_dependency_of`). -/
structure OtpCtx (τ ι κ : Type u) where
  idOf : τ → ι
  depOf : τ → ι
  prereqs : List κ

/-- State of an `OrderedTaskPreparation` instance. -/
structure Otp (τ ι κ : Type u) where
  /-- `_max_depth` (= `min(10000, max_depth)` when given). -/
  maxDepth : Int
  /-- `_oldest_depth`. -/
  oldestDepth : Int
  /-- `_tasks`: id → prerequisite tracker, for every unpruned task. -/
  tasks : List (ι × Tracker τ κ)
  /-- `_dependencies`: id → ids of the registered dependents. -/
  dependencies : List (ι × List ι)
  /-- `_unready`: ids whose prereqs are incomplete or whose dependency
  is not ready.  Note `_prune` never touches this set. -/
  unready : List ι
  /-- `_ready_tasks`: promoted tasks awaiting `ready_tasks()`. -/
  readyQueue : List τ
  /-- History (model-only): every task ever promoted, in order; the
  concatenation of all `ready_tasks()` results. -/
  emitted : List τ
  /-- `_depths`: id → distance from the seed. -/
  depths : List (ι × Int)

/-- A fresh tracker (`OrderedTaskPreparation(...)` constructor); a
negative `max_depth` is not excluded by the code but is nonsensical and
excluded in the theorems below. -/
def Otp.empty (maxDepth : Option Int) : Otp τ ι κ :=
  { maxDepth := match maxDepth with | none => 10000 | some m => min 10000 m,
    oldestDepth := 0, tasks := [], dependencies := [], unready := [],
    readyQueue := [], emitted := [], depths := [] }

/-- `set_finished_dependency(finished_task)`: only on a virgin tracker;
records the seed with a fully satisfied prerequisite set
(`set_complete()`) at depth 0, *not* in `_unready`. -/
def Otp.setFinishedDependency (c : OtpCtx τ ι κ) (s : Otp τ ι κ) (seed : τ) :
    Otp τ ι κ × Option OtpErr :=
  if 0 < s.tasks.length ∨ s.oldestDepth ≠ 0 then (s, some .alreadyPrimed)
  else
    ({ s with tasks := aset s.tasks (c.idOf seed) ⟨seed, c.prereqs.dedup⟩,
              depths := aset s.depths (c.idOf seed) 0 }, none)

/-- `register_tasks(tasks)`: sequentially; each task's dependency must
already be tracked; the task is recorded unready at
`depth(dependency) + 1` and added to its dependency's dependents set.
On failure the already-registered prefix stays (the Python loop has
already mutated the object). -/
def Otp.registerTasks (c : OtpCtx τ ι κ) (s : Otp τ ι κ) (ts : List τ) :
    Otp τ ι κ × Option OtpErr :=
  match ts with
  | [] => (s, none)
  | t :: rest =>
    if (alookup s.tasks (c.depOf t)).isSome then
      Otp.registerTasks c
        { s with tasks := aset s.tasks (c.idOf t) ⟨t, []⟩,
                 unready := insertSet (c.idOf t) s.unready,
                 dependencies := aset s.dependencies (c.depOf t)
                   (insertSet (c.idOf t) ((alookup s.dependencies (c.depOf t)).getD [])),
                 depths := aset s.depths (c.idOf t)
                   (((alookup s.depths (c.depOf t)).getD 0) + 1) }
        rest
    else (s, some .unknownDependency)

/-- The ids `_prune` collects for one depth:
`tuple(task_id for task_id in self._tasks.keys() if self._depths[task_id] == depth)`,
in dict insertion order.  (`_depths[task_id]` cannot miss for a tracked
id; a missing entry makes the test false here.) -/
def pruneTargets (s : Otp τ ι κ) (d : Int) : List ι :=
  (s.tasks.map Prod.fst).filter (fun i => alookup s.depths i = some d)

/-- The inner `for prune_task_id in prune_tasks:` loop of `_prune`:
`del self._tasks[p]`, then `del self._dependencies[p]` — which raises
`KeyError` when `p` has no dependents entry, aborting the loop with the
record half-deleted (the tracker gone, the depth kept) — then
`del self._depths[p]`. -/
def Otp.pruneList (s : Otp τ ι κ) : List ι → Otp τ ι κ × Option OtpErr
  | [] => (s, none)
  | p :: ps =>
    if (alookup s.dependencies p).isSome then
      Otp.pruneList
        { s with tasks := s.tasks.filter (fun e => ¬ e.1 = p),
                 dependencies := s.dependencies.filter (fun e => ¬ e.1 = p),
                 depths := s.depths.filter (fun e => ¬ e.1 = p) } ps
    else
      ({ s with tasks := s.tasks.filter (fun e => ¬ e.1 = p) },
        some .dependenciesKeyError)

/-- `range(lo, hi)` over the integers. -/
def intRange (lo hi : Int) : List Int :=
  (List.range (hi - lo).toNat).map (fun k : Nat => lo + (k : Int))

/-- The outer `for depth in range(self._oldest_depth, prune_depth):`
loop of `_prune`; the `KeyError` propagates. -/
def Otp.pruneDepths (s : Otp τ ι κ) : List Int → Otp τ ι κ × Option OtpErr
  | [] => (s, none)
  | d :: ds =>
    if ((Otp.pruneList s (pruneTargets s d)).2).isSome then
      Otp.pruneList s (pruneTargets s d)
    else Otp.pruneDepths (Otp.pruneList s (pruneTargets s d)).1 ds

/-- `_prune(task_id)` (datastructures.py 556-579): with
`floor = depths[task_id] - max_depth`, when `floor > oldest_depth`
delete every task record (tracker, dependents entry, depth) at depths
in `[oldest_depth, floor)`, depth by depth in dict order, and advance
`oldest_depth` to `floor` — unless a pruned id without a dependents
entry raises `KeyError` mid-deletion, in which case the partially
deleted state is left behind and `oldest_depth` stays.  (The lookup of
`depths[task_id]` cannot miss on the calls the code makes.) -/
def Otp.pruneAt (s : Otp τ ι κ) (tid : ι) : Otp τ ι κ × Option OtpErr :=
  match alookup s.depths tid with
  | none => (s, none)
  | some d =>
    if s.oldestDepth < d - s.maxDepth then
      if ((s.pruneDepths (intRange s.oldestDepth (d - s.maxDepth))).2).isSome then
        s.pruneDepths (intRange s.oldestDepth (d - s.maxDepth))
      else
        ({ (s.pruneDepths (intRange s.oldestDepth (d - s.maxDepth))).1 with
            oldestDepth := d - s.maxDepth }, none)
    else (s, none)

/-- The `defaultdict` touch of
`for depending_task_id in self._dependencies[task_id]:` — reading
`_dependencies[task_id]` creates an empty entry when none exists. -/
def touchDeps (s : Otp τ ι κ) (tid : ι) : Otp τ ι κ :=
  { s with
    dependencies := aset s.dependencies tid ((alookup s.dependencies tid).getD []) }

/-- The state right after the ready-queue push, emission and `_unready`
removal of `_mark_one_task_complete`, before `_prune` runs. -/
def preMark (s : Otp τ ι κ) (tid : ι) (tr : Tracker τ κ) : Otp τ ι κ :=
  { s with readyQueue := s.readyQueue ++ [tr.task],
           emitted := s.emitted ++ [tr.task],
           unready := s.unready.erase tid }

/-- `_mark_one_task_complete(task_id)`: push the task on the ready
queue (and the `emitted` history), drop the id from `_unready`, prune —
a `KeyError` there escapes with the state mutated so far and no
dependents are resolved — then touch the dependents entry and yield the
dependents whose prerequisites are all complete.  A missing tracker
cannot occur on the calls the code makes. -/
def Otp.markOne (c : OtpCtx τ ι κ) (s : Otp τ ι κ) (tid : ι) :
    Otp τ ι κ × List ι × Option OtpErr :=
  match alookup s.tasks tid with
  | none => (s, [], none)
  | some tr =>
    match Otp.pruneAt (preMark s tid tr) tid with
    | (s1, some e) => (s1, [], some e)
    | (s1, none) =>
      (touchDeps s1 tid,
        ((alookup s1.dependencies tid).getD []).filter
          (fun d => match alookup s1.tasks d with
            | some trd => trd.isComplete c.prereqs
            | none => false),
        none)

/-- One pass of `_mark_complete`'s inner generator: mark every id of the
level left to right, concatenating the qualified dependents; an escaping
`KeyError` aborts the pass (the ids collected so far are discarded with
the raising `tuple(...)` call). -/
def Otp.markLevel (c : OtpCtx τ ι κ) (s : Otp τ ι κ) :
    List ι → Otp τ ι κ × List ι × Option OtpErr
  | [] => (s, [], none)
  | tid :: rest =>
    match Otp.markOne c s tid with
    | (s1, _, some e) => (s1, [], some e)
    | (s1, wl1, none) =>
      ((Otp.markLevel c s1 rest).1, wl1 ++ (Otp.markLevel c s1 rest).2.1,
        (Otp.markLevel c s1 rest).2.2)

/-- The `while qualified_tasks:` loop of `_mark_complete`, with explicit
fuel.  Each level that produces further work removes at least one id
from `_unready`, so `|_unready| + 1` levels always suffice. -/
def Otp.markCompleteAux (c : OtpCtx τ ι κ) : Nat → Otp τ ι κ → List ι →
    Otp τ ι κ × Option OtpErr
  | _, s, [] => (s, none)
  | 0, s, _ :: _ => (s, none)
  | fuel + 1, s, wl =>
    match Otp.markLevel c s wl with
    | (s1, _, some e) => (s1, some e)
    | (s1, wl1, none) => Otp.markCompleteAux c fuel s1 wl1

/-- `_mark_complete(task_id)`. -/
def Otp.markComplete (c : OtpCtx τ ι κ) (s : Otp τ ι κ) (tid : ι) :
    Otp τ ι κ × Option OtpErr :=
  Otp.markCompleteAux c (s.unready.length + 1) s [tid]

/-- One step of the `finish_prereq` loop: look the task up, finish the
kind on its tracker, and — when the task became prerequisite-complete
and its dependency is not unready — promote it via `_mark_complete`.
Errors (including a `KeyError` escaping `_prune`) abort the loop with
the state mutated so far. -/
def Otp.finishPrereqAux (c : OtpCtx τ ι κ) (s : Otp τ ι κ) (k : κ) (ts : List τ) :
    Otp τ ι κ × Option OtpErr :=
  match ts with
  | [] => (s, none)
  | t :: rest =>
    match alookup s.tasks (c.idOf t) with
    | none => (s, some .unknownTask)
    | some tr =>
      match Tracker.finish c.prereqs tr k with
      | .error e => (s, some e)
      | .ok tr2 =>
        if tr2.isComplete c.prereqs ∧ c.depOf t ∉ s.unready then
          match Otp.markComplete c { s with tasks := aset s.tasks (c.idOf t) tr2 }
              (c.idOf t) with
          | (s1, some e) => (s1, some e)
          | (s1, none) => Otp.finishPrereqAux c s1 k rest
        else
          Otp.finishPrereqAux c { s with tasks := aset s.tasks (c.idOf t) tr2 } k rest

/-- `finish_prereq(prereq, tasks)` (datastructures.py 502-515). -/
def Otp.finishPrereq (c : OtpCtx τ ι κ) (s : Otp τ ι κ) (k : κ) (ts : List τ) :
    Otp τ ι κ × Option OtpErr :=
  if s.tasks.length = 0 then (s, some .noTasksRegistered)
  else Otp.finishPrereqAux c s k ts

/-- One call into the tracker API (`ready_tasks` drains the ready
queue; it does not touch the dependency bookkeeping). -/
inductive OtpOp (τ κ : Type u) where
  | register (ts : List τ)
  | finishPrereq (k : κ) (ts : List τ)
  | readyTasks

/-- The state effect of one call. -/
def Otp.stepOp (c : OtpCtx τ ι κ) (s : Otp τ ι κ) : OtpOp τ κ → Otp τ ι κ
  | .register ts => (Otp.registerTasks c s ts).1
  | .finishPrereq k ts => (Otp.finishPrereq c s k ts).1
  | .readyTasks => { s with readyQueue := [] }

/-- Run a sequence of calls on a tracker freshly seeded with
`set_finished_dependency(seed)`. -/
def Otp.runOps (c : OtpCtx τ ι κ) (maxDepth : Option Int) (seed : τ)
    (ops : List (OtpOp τ κ)) : Otp τ ι κ :=
  ops.foldl (Otp.stepOp c) ((Otp.empty maxDepth).setFinishedDependency c seed).1

/-! ### Association-list lemmas -/

theorem alookup_filter_key {γ : Type v} (l : List (ι × γ)) (p : ι → Bool) (k : ι) :
    alookup (l.filter (fun e => p e.1)) k = if p k then alookup l k else none := by
  induction l with
  | nil => simp [alookup]
  | cons e l ih =>
    by_cases hpe : p e.1
    · rw [List.filter_cons_of_pos (by simpa using hpe)]
      by_cases hek : e.1 = k
      · subst hek
        unfold alookup
        rw [List.find?_cons_of_pos _ (by simp), List.find?_cons_of_pos _ (by simp)]
        simp [hpe]
      · unfold alookup
        rw [List.find?_cons_of_neg _ (by simpa using hek),
          List.find?_cons_of_neg _ (by simpa using hek)]
        exact ih
    · rw [List.filter_cons_of_neg (by simpa using hpe)]
      by_cases hek : e.1 = k
      · subst hek
        rw [ih]
        unfold alookup
        rw [List.find?_cons_of_pos _ (by simp)]
        simp [hpe]
      · unfold alookup
        rw [List.find?_cons_of_neg _ (by simpa using hek)]
        exact ih

theorem alookup_aset_self {γ : Type v} (l : List (ι × γ)) (k : ι) (v : γ) :
    alookup (aset l k v) k = some v := by
  unfold aset
  by_cases hf : (l.find? (fun e => e.1 = k)).isSome
  · rw [if_pos hf]
    induction l with
    | nil => simp [List.find?] at hf
    | cons e l ih =>
      by_cases hek : e.1 = k
      · unfold alookup
        rw [List.map_cons, if_pos hek, List.find?_cons_of_pos _ (by simp)]
        rfl
      · rw [List.find?_cons_of_neg _ (by simpa using hek)] at hf
        unfold alookup
        rw [List.map_cons, if_neg hek, List.find?_cons_of_neg _ (by simpa using hek)]
        exact ih hf
  · rw [if_neg hf]
    unfold alookup
    rw [List.find?_append]
    rw [Option.not_isSome_iff_eq_none] at hf
    rw [hf]
    simp [List.find?]

theorem alookup_aset_other {γ : Type v} (l : List (ι × γ)) (k k' : ι) (v : γ)
    (hne : k' ≠ k) : alookup (aset l k v) k' = alookup l k' := by
  unfold aset
  by_cases hf : (l.find? (fun e => e.1 = k)).isSome
  · rw [if_pos hf]
    clear hf
    induction l with
    | nil => rfl
    | cons e l ih =>
      by_cases hek : e.1 = k
      · unfold alookup
        rw [List.map_cons, if_pos hek,
          List.find?_cons_of_neg _ (by simpa using hne.symm),
          List.find?_cons_of_neg _ (by rw [hek]; simpa using hne.symm)]
        exact ih
      · unfold alookup
        rw [List.map_cons, if_neg hek]
        by_cases hek' : e.1 = k'
        · rw [List.find?_cons_of_pos _ (by simpa using hek'),
            List.find?_cons_of_pos _ (by simpa using hek')]
        · rw [List.find?_cons_of_neg _ (by simpa using hek'),
            List.find?_cons_of_neg _ (by simpa using hek')]
          exact ih
  · rw [if_neg hf]
    unfold alookup
    rw [List.find?_append]
    cases hfind : l.find? (fun e => e.1 = k') with
    | some e => rfl
    | none => simp [List.find?, Ne.symm hne]

theorem mem_insertSet (x y : ι) (s : List ι) :
    y ∈ insertSet x s ↔ y = x ∨ y ∈ s := by
  unfold insertSet
  split
  · next hx =>
    constructor
    · exact Or.inr
    · rintro (rfl | h)
      · exact hx
      · exact h
  · simp only [List.mem_append, List.mem_singleton]
    tauto

theorem insertSet_nodup (x : ι) (s : List ι) (h : s.Nodup) :
    (insertSet x s).Nodup := by
  unfold insertSet
  split
  · exact h
  · next hx => simpa [List.nodup_append] using ⟨h, hx⟩

/-! ## Claim C1 — pruning

The claim: pruning removes exactly the tracked tasks whose depth is
`≤ (max depth of any ready task − max_depth)`, and in the S4 scenario
registering H4 leaves exactly `{H2, H3, H4}` tracked.

On the code the claim is off three ways:
* `_prune` runs when a task *becomes ready* (`_mark_one_task_complete`),
  never during `register_tasks`;
* it removes the depths in `[oldest_depth, finished_depth − max_depth)`
  — strictly *below* the floor, so a task exactly at the floor depth
  survives; and
* it removes them only when every pruned id has a dependents entry in
  `_dependencies` (created by emission or by registering a dependent):
  a never-emitted, childless pruned task makes
  `del self._dependencies[prune_task_id]` raise `KeyError` mid-prune,
  after `del self._tasks[...]` already ran, so the structure is left
  partially deleted (tracker gone, depth behind, `_oldest_depth` not
  advanced) and the exception escapes `finish_prereq`.

In S4 (`max_depth = 2`) the only prune fires when H3 (depth 3) becomes
ready: `floor = 1`, so only H0 (depth 0) is dropped.  H1 sits at depth
1 = floor and stays; registering H4 prunes nothing.  The tracked set is
`{H1, H2, H3, H4}`, not `{H2, H3, H4}`.

The crash path is reached by adding to S4's chain a childless sibling
H9→H0 that never finishes its prerequisites: when H4 becomes ready its
prune targets depth 1 = {H1, H9}, deletes H1, deletes H9's tracker, and
raises `KeyError` on H9's missing dependents entry (`crashResult`
below).  `C1_prune_exact`, stated after the prune lemmas, shows both
faces: exactness of the depth window under the no-crash hypothesis, and
the `KeyError` with its half-deleted state on the crash trace. -/

/-- The prerequisite enumeration of the S3/S4 scenarios. -/
inductive BlockPrereq where
  | body
  | receipt
  deriving DecidableEq, Repr

/-- Headers for the scenarios: `(hash, parent_hash)` with
`id_of = hash` and `dep_of = parent_hash`. -/
def hdrCtx : OtpCtx (Nat × Nat) Nat BlockPrereq :=
  { idOf := Prod.fst, depOf := Prod.snd, prereqs := [BlockPrereq.body, BlockPrereq.receipt] }

/-- The S3 operations up to "ready_tasks does not return yet": register
H1→H0, H2→H1, H3→H2, then finish both prerequisites on H2 and H3. -/
def s3OpsMid : List (OtpOp (Nat × Nat) BlockPrereq) :=
  [OtpOp.register [(1, 0), (2, 1), (3, 2)],
   OtpOp.finishPrereq BlockPrereq.body [(2, 1), (3, 2)],
   OtpOp.finishPrereq BlockPrereq.receipt [(2, 1), (3, 2)]]

/-- The full S3 operations: additionally finish both prerequisites on
H1. -/
def s3OpsFull : List (OtpOp (Nat × Nat) BlockPrereq) :=
  s3OpsMid ++
    [OtpOp.finishPrereq BlockPrereq.body [(1, 0)],
     OtpOp.finishPrereq BlockPrereq.receipt [(1, 0)]]

/-- The S4 state: S3 with `max_depth = 2`, drained, then H4→H3
registered. -/
def s4State : Otp (Nat × Nat) Nat BlockPrereq :=
  Otp.runOps hdrCtx (some 2) (0, 100)
    (s3OpsFull ++ [OtpOp.readyTasks, OtpOp.register [(4, 3)]])

/-- C1 counterexample: in the S4 state the tracked ids are *not*
exactly `{2, 3, 4}` — H1 (id 1, depth 1 = floor) is still tracked after
H4 is registered. -/
theorem C1_counterexample :
    ¬ (∀ i : Nat, (alookup s4State.tasks i).isSome ↔ i ∈ [2, 3, 4]) := by
  intro h
  exact absurd ((h 1).mp (by decide)) (by decide)

/-- Tasks of the crash scenario, up to the brink: seed H0, register
H1→H0 and a childless sibling H9→H0, register the chain H2→H1, H3→H2,
H4→H3, then finish the `body` prerequisite everywhere. -/
def crashOpsPre : List (OtpOp (Nat × Nat) BlockPrereq) :=
  [OtpOp.register [(1, 0), (9, 0)],
   OtpOp.register [(2, 1), (3, 2), (4, 3)],
   OtpOp.finishPrereq BlockPrereq.body [(1, 0), (2, 1), (3, 2), (4, 3)]]

/-- The state on the brink of the crash. -/
def crashBase : Otp (Nat × Nat) Nat BlockPrereq :=
  Otp.runOps hdrCtx (some 2) (0, 100) crashOpsPre

/-- The crashing call: finishing `receipt` everywhere emits H1 through
H4 in cascade; H4 (depth 4) triggers a prune of depth 1, whose targets
are H1 and H9.  H1 has a dependents entry (H2 registered under it) and
is deleted; H9 — never emitted, no registered dependent — has none, so
`del self._dependencies[9]` raises `KeyError` after `del self._tasks[9]`
already ran. -/
def crashResult : Otp (Nat × Nat) Nat BlockPrereq × Option OtpErr :=
  Otp.finishPrereq hdrCtx crashBase BlockPrereq.receipt
    [(1, 0), (2, 1), (3, 2), (4, 3)]


/-! ## Claim C4 — a task never precedes its dependency in the ready stream

The proof is an invariant over every operation sequence on a seeded
tracker.  The operation sequences are constrained by a well-formedness
predicate faithful to how the structure is used (and to what its
contract assumes): ids passed to `register_tasks` are fresh — block
hashes do not collide with previously seen ids — and tasks passed to
`finish_prereq` are the registered task objects themselves (the tracker
looks the task up by id but reads `dependency_of` off the passed
object, so a forged object with a registered id but a different parent
hash could confuse it). -/

/-- The ids of the emission history, in emission order. -/
def emittedIds (c : OtpCtx τ ι κ) (s : Otp τ ι κ) : List ι := s.emitted.map c.idOf

/-- Well-formedness of one call, checked against the state it runs in:
registered ids are fresh (never tracked before: not unready, not
emitted, not the seed, and pairwise distinct within the call), and
`finish_prereq` is passed the registered task objects. -/
def OtpOp.wfb (c : OtpCtx τ ι κ) (sid : ι) (s : Otp τ ι κ) : OtpOp τ κ → Bool
  | .register ts => decide ((ts.map c.idOf).Nodup) &&
      ts.all (fun t => decide (c.idOf t ∉ s.unready) &&
        decide (c.idOf t ∉ emittedIds c s) && decide (c.idOf t ≠ sid))
  | .finishPrereq _ ts => ts.all (fun t =>
      match alookup s.tasks (c.idOf t) with
      | some tr => decide (tr.task = t)
      | none => true)
  | .readyTasks => true

/-- Well-formedness of a whole call sequence. -/
def WFtrace (c : OtpCtx τ ι κ) (sid : ι) : Otp τ ι κ → List (OtpOp τ κ) → Bool
  | _, [] => true
  | s, op :: rest => OtpOp.wfb c sid s op && WFtrace c sid (Otp.stepOp c s op) rest

/-- The reachability invariant of a seeded tracker.  `sid` is the seed's
id.  The fields, in order: the emission history respects parent edges;
emitted ids are distinct, never the seed, and disjoint from `_unready`;
a tracked id outside `_unready` is the seed or emitted; a tracked
non-seed task's parent is the seed, emitted, or still unready; a
tracker sits at its own id; trackers of emitted ids (and the seed) are
prerequisite-complete; the tracker of an emitted id holds that very
task; dependents are non-seed, ever-registered (unready or emitted),
point back to their parent, and are duplicate-free; every tracked id
has a depth (`_depths` can hold more: a `KeyError` escaping `_prune`
deletes the tracker but leaves the depth behind); a dependent's depth
is its parent's plus one; `_max_depth` is non-negative. -/
structure OtpInv (c : OtpCtx τ ι κ) (sid : ι) (s : Otp τ ι κ) : Prop where
  ordA : ∀ l1 T l2, s.emitted = l1 ++ T :: l2 →
    c.depOf T = sid ∨ c.depOf T ∈ l1.map c.idOf
  em_nodup : (s.emitted.map c.idOf).Nodup
  sid_not_em : sid ∉ s.emitted.map c.idOf
  unready_nodup : s.unready.Nodup
  sid_not_unready : sid ∉ s.unready
  unready_em_disj : ∀ i ∈ s.unready, i ∉ s.emitted.map c.idOf
  trackedE : ∀ i tr, alookup s.tasks i = some tr → i ∉ s.unready →
    i = sid ∨ i ∈ s.emitted.map c.idOf
  trackedD : ∀ i tr, alookup s.tasks i = some tr → i ≠ sid →
    (c.depOf tr.task = sid ∨ c.depOf tr.task ∈ s.emitted.map c.idOf ∨
      c.depOf tr.task ∈ s.unready)
  tracked_id : ∀ i tr, alookup s.tasks i = some tr → c.idOf tr.task = i
  em_complete : ∀ i tr, alookup s.tasks i = some tr →
    (i = sid ∨ i ∈ s.emitted.map c.idOf) → tr.isComplete c.prereqs = true
  em_tracked : ∀ T ∈ s.emitted, ∀ tr, alookup s.tasks (c.idOf T) = some tr →
    tr.task = T
  deps_parent : ∀ p ds, alookup s.dependencies p = some ds → ∀ d ∈ ds,
    d ≠ sid ∧ (d ∈ s.unready ∨ d ∈ s.emitted.map c.idOf) ∧
    ∀ tr, alookup s.tasks d = some tr → c.depOf tr.task = p
  deps_nodup : ∀ p ds, alookup s.dependencies p = some ds → ds.Nodup
  deps_key : ∀ p ds, alookup s.dependencies p = some ds →
    p = sid ∨ p ∈ s.unready ∨ p ∈ s.emitted.map c.idOf
  dom_sub : ∀ i, (alookup s.tasks i).isSome → (alookup s.depths i).isSome
  depth_child : ∀ p ds, alookup s.dependencies p = some ds → ∀ d ∈ ds,
    ∀ dp dd, alookup s.depths p = some dp → alookup s.depths d = some dd →
      dd = dp + 1
  max_nonneg : 0 ≤ s.maxDepth

/-! ### Prune lemmas -/

theorem alookup_erase_key {γ : Type v} (l : List (ι × γ)) (p k : ι) :
    alookup (l.filter (fun e => ¬ e.1 = p)) k =
      if k = p then none else alookup l k := by
  rw [alookup_filter_key l (fun x => ¬ x = p) k]
  by_cases hk : k = p
  · rw [if_neg (by simp [hk]), if_pos hk]
  · rw [if_pos (by simpa using hk), if_neg hk]

theorem pruneAt_eq_none (s : Otp τ ι κ) (tid : ι)
    (hd : alookup s.depths tid = none) : s.pruneAt tid = (s, none) := by
  unfold Otp.pruneAt
  rw [hd]

theorem mem_intRange (lo hi k : Int) (h : k ∈ intRange lo hi) :
    lo ≤ k ∧ k < hi := by
  unfold intRange at h
  simp only [List.mem_map, List.mem_range] at h
  obtain ⟨j, hj, rfl⟩ := h
  omega

/-- The inner deletion loop never touches `_unready`, the ready queue,
the emission history, `_max_depth` or `_oldest_depth`. -/
theorem pruneList_same (ps : List ι) : ∀ (s : Otp τ ι κ),
    (Otp.pruneList s ps).1.unready = s.unready ∧
    (Otp.pruneList s ps).1.emitted = s.emitted ∧
    (Otp.pruneList s ps).1.maxDepth = s.maxDepth ∧
    (Otp.pruneList s ps).1.readyQueue = s.readyQueue ∧
    (Otp.pruneList s ps).1.oldestDepth = s.oldestDepth := by
  induction ps with
  | nil => intro s; exact ⟨rfl, rfl, rfl, rfl, rfl⟩
  | cons p ps ih =>
    intro s
    unfold Otp.pruneList
    by_cases h : (alookup s.dependencies p).isSome
    · rw [if_pos h]
      exact ih _
    · rw [if_neg h]
      exact ⟨rfl, rfl, rfl, rfl, rfl⟩

/-- Lookups that survive the inner deletion loop were there before,
unchanged. -/
theorem pruneList_sub (ps : List ι) : ∀ (s : Otp τ ι κ),
    (∀ i tr, alookup (Otp.pruneList s ps).1.tasks i = some tr →
      alookup s.tasks i = some tr) ∧
    (∀ i ds, alookup (Otp.pruneList s ps).1.dependencies i = some ds →
      alookup s.dependencies i = some ds) ∧
    (∀ i dv, alookup (Otp.pruneList s ps).1.depths i = some dv →
      alookup s.depths i = some dv) := by
  induction ps with
  | nil => intro s; exact ⟨fun _ _ => id, fun _ _ => id, fun _ _ => id⟩
  | cons p ps ih =>
    intro s
    unfold Otp.pruneList
    by_cases h : (alookup s.dependencies p).isSome
    · rw [if_pos h]
      obtain ⟨h1, h2, h3⟩ := ih ({ s with
        tasks := s.tasks.filter (fun e => ¬ e.1 = p),
        dependencies := s.dependencies.filter (fun e => ¬ e.1 = p),
        depths := s.depths.filter (fun e => ¬ e.1 = p) } : Otp τ ι κ)
      refine ⟨?_, ?_, ?_⟩
      · intro i tr hl
        have := h1 i tr hl
        replace this : alookup (s.tasks.filter (fun e => ¬ e.1 = p)) i = some tr := this
        rw [alookup_erase_key] at this
        split at this
        · cases this
        · exact this
      · intro i ds hl
        have := h2 i ds hl
        replace this : alookup (s.dependencies.filter (fun e => ¬ e.1 = p)) i =
          some ds := this
        rw [alookup_erase_key] at this
        split at this
        · cases this
        · exact this
      · intro i dv hl
        have := h3 i dv hl
        replace this : alookup (s.depths.filter (fun e => ¬ e.1 = p)) i = some dv := this
        rw [alookup_erase_key] at this
        split at this
        · cases this
        · exact this
    · rw [if_neg h]
      refine ⟨?_, fun _ _ => id, fun _ _ => id⟩
      intro i tr hl
      replace hl : alookup (s.tasks.filter (fun e => ¬ e.1 = p)) i = some tr := hl
      rw [alookup_erase_key] at hl
      split at hl
      · cases hl
      · exact hl

/-- Ids that the inner loop does not process keep their records. -/
theorem pruneList_keep (ps : List ι) : ∀ (s : Otp τ ι κ) (y : ι),
    (∀ p ∈ ps, p ≠ y) →
    alookup (Otp.pruneList s ps).1.tasks y = alookup s.tasks y ∧
    alookup (Otp.pruneList s ps).1.dependencies y = alookup s.dependencies y ∧
    alookup (Otp.pruneList s ps).1.depths y = alookup s.depths y := by
  induction ps with
  | nil => intro s y _; exact ⟨rfl, rfl, rfl⟩
  | cons p ps ih =>
    intro s y hy
    have hpy : y ≠ p := fun h => hy p (List.mem_cons_self _ _) h.symm
    unfold Otp.pruneList
    by_cases h : (alookup s.dependencies p).isSome
    · rw [if_pos h]
      obtain ⟨h1, h2, h3⟩ := ih ({ s with
        tasks := s.tasks.filter (fun e => ¬ e.1 = p),
        dependencies := s.dependencies.filter (fun e => ¬ e.1 = p),
        depths := s.depths.filter (fun e => ¬ e.1 = p) } : Otp τ ι κ) y
        (fun q hq => hy q (List.mem_cons_of_mem _ hq))
      refine ⟨?_, ?_, ?_⟩
      · rw [h1]
        show alookup (s.tasks.filter (fun e => ¬ e.1 = p)) y = _
        rw [alookup_erase_key, if_neg hpy]
      · rw [h2]
        show alookup (s.dependencies.filter (fun e => ¬ e.1 = p)) y = _
        rw [alookup_erase_key, if_neg hpy]
      · rw [h3]
        show alookup (s.depths.filter (fun e => ¬ e.1 = p)) y = _
        rw [alookup_erase_key, if_neg hpy]
    · rw [if_neg h]
      refine ⟨?_, rfl, rfl⟩
      show alookup (s.tasks.filter (fun e => ¬ e.1 = p)) y = _
      rw [alookup_erase_key, if_neg hpy]

/-- Deleting records — even partially, when the `KeyError` fires —
preserves the reachability invariant. -/
theorem pruneList_inv (c : OtpCtx τ ι κ) (sid : ι) (ps : List ι) :
    ∀ (s : Otp τ ι κ), OtpInv c sid s → OtpInv c sid (Otp.pruneList s ps).1 := by
  induction ps with
  | nil => intro s hinv; exact hinv
  | cons p ps ih =>
    intro s hinv
    have hstep : ∀ (t : List (ι × Tracker τ κ)) (dp : List (ι × List ι))
        (dh : List (ι × Int)),
        (∀ i tr, alookup t i = some tr → alookup s.tasks i = some tr) →
        (∀ i ds, alookup dp i = some ds → alookup s.dependencies i = some ds) →
        (∀ i dv, alookup dh i = some dv → alookup s.depths i = some dv) →
        (∀ i, (alookup t i).isSome → (alookup dh i).isSome) →
        OtpInv c sid ({ s with tasks := t, dependencies := dp, depths := dh } :
          Otp τ ι κ) := by
      intro t dp dh ht hdp hdh hdom
      constructor
      · exact hinv.ordA
      · exact hinv.em_nodup
      · exact hinv.sid_not_em
      · exact hinv.unready_nodup
      · exact hinv.sid_not_unready
      · exact hinv.unready_em_disj
      · intro i tr hl hni
        exact hinv.trackedE i tr (ht i tr hl) hni
      · intro i tr hl hns
        exact hinv.trackedD i tr (ht i tr hl) hns
      · intro i tr hl
        exact hinv.tracked_id i tr (ht i tr hl)
      · intro i tr hl hi
        exact hinv.em_complete i tr (ht i tr hl) hi
      · intro T hT tr hl
        exact hinv.em_tracked T hT tr (ht _ tr hl)
      · intro p' ds hds d hd
        obtain ⟨h1, h2, h3⟩ := hinv.deps_parent p' ds (hdp p' ds hds) d hd
        exact ⟨h1, h2, fun tr htr => h3 tr (ht d tr htr)⟩
      · exact fun p' ds h => hinv.deps_nodup p' ds (hdp p' ds h)
      · exact fun p' ds h => hinv.deps_key p' ds (hdp p' ds h)
      · exact hdom
      · intro p' ds h d hd dpv ddv hp hdd
        exact hinv.depth_child p' ds (hdp p' ds h) d hd dpv ddv
          (hdh p' dpv hp) (hdh d ddv hdd)
      · exact hinv.max_nonneg
    unfold Otp.pruneList
    by_cases h : (alookup s.dependencies p).isSome
    · rw [if_pos h]
      apply ih
      apply hstep
      · intro i tr hl
        rw [alookup_erase_key] at hl
        split at hl
        · cases hl
        · exact hl
      · intro i ds hl
        rw [alookup_erase_key] at hl
        split at hl
        · cases hl
        · exact hl
      · intro i dv hl
        rw [alookup_erase_key] at hl
        split at hl
        · cases hl
        · exact hl
      · intro i hl
        rw [alookup_erase_key] at hl ⊢
        split at hl
        · exact absurd hl (by simp)
        · next hne =>
          rw [if_neg hne]
          exact hinv.dom_sub i hl
    · rw [if_neg h]
      have := hstep (s.tasks.filter (fun e => ¬ e.1 = p)) s.dependencies s.depths
        ?_ (fun _ _ => id) (fun _ _ => id) ?_
      · exact this
      · intro i tr hl
        rw [alookup_erase_key] at hl
        split at hl
        · cases hl
        · exact hl
      · intro i hl
        rw [alookup_erase_key] at hl
        split at hl
        · exact absurd hl (by simp)
        · exact hinv.dom_sub i hl

theorem pruneDepths_same (ds : List Int) : ∀ (s : Otp τ ι κ),
    (Otp.pruneDepths s ds).1.unready = s.unready ∧
    (Otp.pruneDepths s ds).1.emitted = s.emitted ∧
    (Otp.pruneDepths s ds).1.maxDepth = s.maxDepth ∧
    (Otp.pruneDepths s ds).1.readyQueue = s.readyQueue := by
  induction ds with
  | nil => intro s; exact ⟨rfl, rfl, rfl, rfl⟩
  | cons d ds ih =>
    intro s
    obtain ⟨l1, l2, l3, l4, _⟩ := pruneList_same (pruneTargets s d) s
    unfold Otp.pruneDepths
    by_cases h : ((Otp.pruneList s (pruneTargets s d)).2).isSome
    · rw [if_pos h]
      exact ⟨l1, l2, l3, l4⟩
    · rw [if_neg h]
      obtain ⟨m1, m2, m3, m4⟩ := ih (Otp.pruneList s (pruneTargets s d)).1
      exact ⟨m1.trans l1, m2.trans l2, m3.trans l3, m4.trans l4⟩

theorem pruneDepths_sub (ds : List Int) : ∀ (s : Otp τ ι κ),
    (∀ i tr, alookup (Otp.pruneDepths s ds).1.tasks i = some tr →
      alookup s.tasks i = some tr) ∧
    (∀ i dsv, alookup (Otp.pruneDepths s ds).1.dependencies i = some dsv →
      alookup s.dependencies i = some dsv) ∧
    (∀ i dv, alookup (Otp.pruneDepths s ds).1.depths i = some dv →
      alookup s.depths i = some dv) := by
  induction ds with
  | nil => intro s; exact ⟨fun _ _ => id, fun _ _ => id, fun _ _ => id⟩
  | cons d ds ih =>
    intro s
    obtain ⟨l1, l2, l3⟩ := pruneList_sub (pruneTargets s d) s
    unfold Otp.pruneDepths
    by_cases h : ((Otp.pruneList s (pruneTargets s d)).2).isSome
    · rw [if_pos h]
      exact ⟨l1, l2, l3⟩
    · rw [if_neg h]
      obtain ⟨m1, m2, m3⟩ := ih (Otp.pruneList s (pruneTargets s d)).1
      exact ⟨fun i tr hl => l1 i tr (m1 i tr hl),
        fun i dsv hl => l2 i dsv (m2 i dsv hl),
        fun i dv hl => l3 i dv (m3 i dv hl)⟩

/-- Records whose depth is outside the processed range survive the
depth loop untouched. -/
theorem pruneDepths_keep (ds : List Int) : ∀ (s : Otp τ ι κ) (y : ι) (dY : Int),
    alookup s.depths y = some dY → (∀ d ∈ ds, d ≠ dY) →
    alookup (Otp.pruneDepths s ds).1.tasks y = alookup s.tasks y ∧
    alookup (Otp.pruneDepths s ds).1.dependencies y = alookup s.dependencies y ∧
    alookup (Otp.pruneDepths s ds).1.depths y = alookup s.depths y := by
  induction ds with
  | nil => intro s y dY _ _; exact ⟨rfl, rfl, rfl⟩
  | cons d ds ih =>
    intro s y dY hdY hne
    have hyt : ∀ p ∈ pruneTargets s d, p ≠ y := by
      intro p hp hpy
      have := (List.mem_filter.mp hp).2
      rw [hpy, hdY] at this
      simp only [decide_eq_true_eq, Option.some.injEq] at this
      exact hne d (List.mem_cons_self _ _) this.symm
    obtain ⟨l1, l2, l3⟩ := pruneList_keep (pruneTargets s d) s y hyt
    unfold Otp.pruneDepths
    by_cases h : ((Otp.pruneList s (pruneTargets s d)).2).isSome
    · rw [if_pos h]
      exact ⟨l1, l2, l3⟩
    · rw [if_neg h]
      obtain ⟨m1, m2, m3⟩ := ih (Otp.pruneList s (pruneTargets s d)).1 y dY
        (by rw [l3]; exact hdY) (fun e he => hne e (List.mem_cons_of_mem _ he))
      exact ⟨m1.trans l1, m2.trans l2, m3.trans l3⟩

theorem pruneDepths_inv (c : OtpCtx τ ι κ) (sid : ι) (ds : List Int) :
    ∀ (s : Otp τ ι κ), OtpInv c sid s → OtpInv c sid (Otp.pruneDepths s ds).1 := by
  induction ds with
  | nil => intro s hinv; exact hinv
  | cons d ds ih =>
    intro s hinv
    unfold Otp.pruneDepths
    by_cases h : ((Otp.pruneList s (pruneTargets s d)).2).isSome
    · rw [if_pos h]
      exact pruneList_inv c sid _ s hinv
    · rw [if_neg h]
      exact ih _ (pruneList_inv c sid _ s hinv)

/-- Advancing `_oldest_depth` preserves the invariant (no clause
mentions it). -/
theorem OtpInv_setOldest (c : OtpCtx τ ι κ) (sid : ι) (s : Otp τ ι κ) (v : Int)
    (hinv : OtpInv c sid s) :
    OtpInv c sid ({ s with oldestDepth := v } : Otp τ ι κ) :=
  ⟨hinv.ordA, hinv.em_nodup, hinv.sid_not_em, hinv.unready_nodup,
    hinv.sid_not_unready, hinv.unready_em_disj, hinv.trackedE, hinv.trackedD,
    hinv.tracked_id, hinv.em_complete, hinv.em_tracked, hinv.deps_parent,
    hinv.deps_nodup, hinv.deps_key, hinv.dom_sub, hinv.depth_child,
    hinv.max_nonneg⟩

/-- `_prune` never touches `_unready`, the ready queue, the emission
history, or `_max_depth` — crash or no crash. -/
theorem pruneAt_same (s : Otp τ ι κ) (tid : ι) :
    (s.pruneAt tid).1.unready = s.unready ∧ (s.pruneAt tid).1.emitted = s.emitted ∧
      (s.pruneAt tid).1.maxDepth = s.maxDepth ∧
      (s.pruneAt tid).1.readyQueue = s.readyQueue := by
  unfold Otp.pruneAt
  cases hd : alookup s.depths tid with
  | none => exact ⟨rfl, rfl, rfl, rfl⟩
  | some d =>
    dsimp only
    by_cases hfl : s.oldestDepth < d - s.maxDepth
    · rw [if_pos hfl]
      obtain ⟨l1, l2, l3, l4⟩ :=
        pruneDepths_same (intRange s.oldestDepth (d - s.maxDepth)) s
      by_cases h : ((s.pruneDepths (intRange s.oldestDepth (d - s.maxDepth))).2).isSome
      · rw [if_pos h]
        exact ⟨l1, l2, l3, l4⟩
      · rw [if_neg h]
        exact ⟨l1, l2, l3, l4⟩
    · rw [if_neg hfl]
      exact ⟨rfl, rfl, rfl, rfl⟩

/-- Lookups found after a prune were already there before. -/
theorem pruneAt_lookup_sub (s : Otp τ ι κ) (tid : ι) :
    (∀ i tr, alookup (s.pruneAt tid).1.tasks i = some tr →
      alookup s.tasks i = some tr) ∧
    (∀ i ds, alookup (s.pruneAt tid).1.dependencies i = some ds →
      alookup s.dependencies i = some ds) ∧
    (∀ i dv, alookup (s.pruneAt tid).1.depths i = some dv →
      alookup s.depths i = some dv) := by
  unfold Otp.pruneAt
  cases hd : alookup s.depths tid with
  | none => exact ⟨fun _ _ => id, fun _ _ => id, fun _ _ => id⟩
  | some d =>
    dsimp only
    by_cases hfl : s.oldestDepth < d - s.maxDepth
    · rw [if_pos hfl]
      obtain ⟨l1, l2, l3⟩ :=
        pruneDepths_sub (intRange s.oldestDepth (d - s.maxDepth)) s
      by_cases h : ((s.pruneDepths (intRange s.oldestDepth (d - s.maxDepth))).2).isSome
      · rw [if_pos h]
        exact ⟨l1, l2, l3⟩
      · rw [if_neg h]
        exact ⟨l1, l2, l3⟩
    · rw [if_neg hfl]
      exact ⟨fun _ _ => id, fun _ _ => id, fun _ _ => id⟩

/-- Entries whose depth is at or above the prune floor survive a prune
untouched. -/
theorem pruneAt_lookup_keep (s : Otp τ ι κ) (tid y : ι) (d dY : Int)
    (hd : alookup s.depths tid = some d) (hy : alookup s.depths y = some dY)
    (hge : d - s.maxDepth ≤ dY) :
    alookup (s.pruneAt tid).1.tasks y = alookup s.tasks y ∧
    alookup (s.pruneAt tid).1.dependencies y = alookup s.dependencies y ∧
    alookup (s.pruneAt tid).1.depths y = alookup s.depths y := by
  unfold Otp.pruneAt
  rw [hd]
  dsimp only
  by_cases hfl : s.oldestDepth < d - s.maxDepth
  · rw [if_pos hfl]
    have hout : ∀ e ∈ intRange s.oldestDepth (d - s.maxDepth), e ≠ dY := by
      intro e he heq
      have := mem_intRange _ _ e he
      omega
    obtain ⟨l1, l2, l3⟩ :=
      pruneDepths_keep (intRange s.oldestDepth (d - s.maxDepth)) s y dY hy hout
    by_cases h : ((s.pruneDepths (intRange s.oldestDepth (d - s.maxDepth))).2).isSome
    · rw [if_pos h]
      exact ⟨l1, l2, l3⟩
    · rw [if_neg h]
      exact ⟨l1, l2, l3⟩
  · rw [if_neg hfl]
    exact ⟨rfl, rfl, rfl⟩

/-- The prune preserves the reachability invariant — also when it
crashes mid-deletion. -/
theorem OtpInv_pruneAt (c : OtpCtx τ ι κ) (sid : ι) (s : Otp τ ι κ) (tid : ι)
    (hinv : OtpInv c sid s) : OtpInv c sid (s.pruneAt tid).1 := by
  unfold Otp.pruneAt
  cases hd : alookup s.depths tid with
  | none => exact hinv
  | some d =>
    dsimp only
    by_cases hfl : s.oldestDepth < d - s.maxDepth
    · rw [if_pos hfl]
      by_cases h : ((s.pruneDepths (intRange s.oldestDepth (d - s.maxDepth))).2).isSome
      · rw [if_pos h]
        exact pruneDepths_inv c sid _ s hinv
      · rw [if_neg h]
        exact OtpInv_setOldest c sid _ _ (pruneDepths_inv c sid _ s hinv)
    · rw [if_neg hfl]
      exact hinv

theorem alookup_isSome_iff_mem {γ : Type v} (l : List (ι × γ)) (k : ι) :
    (alookup l k).isSome ↔ k ∈ l.map Prod.fst := by
  induction l with
  | nil => simp [alookup]
  | cons e l ih =>
    by_cases h : e.1 = k
    · unfold alookup
      rw [List.find?_cons_of_pos _ (by simpa using h)]
      simp [h]
    · unfold alookup
      rw [List.find?_cons_of_neg _ (by simpa using h)]
      rw [List.map_cons, List.mem_cons]
      constructor
      · intro hs
        exact Or.inr (ih.mp hs)
      · rintro (hk | hk)
        · exact absurd hk.symm h
        · exact ih.mpr hk

theorem mem_pruneTargets (s : Otp τ ι κ) (d : Int) (y : ι) :
    y ∈ pruneTargets s d ↔ y ∈ s.tasks.map Prod.fst ∧ alookup s.depths y = some d := by
  unfold pruneTargets
  rw [List.mem_filter]
  simp

theorem intRange_mem (lo hi k : Int) : k ∈ intRange lo hi ↔ lo ≤ k ∧ k < hi := by
  constructor
  · exact mem_intRange lo hi k
  · intro h
    unfold intRange
    simp only [List.mem_map, List.mem_range]
    exact ⟨(k - lo).toNat, by omega, by omega⟩

theorem pruneList_keys_sublist (ps : List ι) : ∀ (s : Otp τ ι κ),
    ((Otp.pruneList s ps).1.tasks.map Prod.fst).Sublist (s.tasks.map Prod.fst) := by
  induction ps with
  | nil => intro s; exact List.Sublist.refl _
  | cons p ps ih =>
    intro s
    unfold Otp.pruneList
    by_cases h : (alookup s.dependencies p).isSome
    · rw [if_pos h]
      exact (ih _).trans ((List.filter_sublist s.tasks).map Prod.fst)
    · rw [if_neg h]
      exact (List.filter_sublist s.tasks).map Prod.fst

/-- In the success path, a processed id's tracker is gone afterwards. -/
theorem pruneList_deletes (ps : List ι) : ∀ (s : Otp τ ι κ) (p : ι), p ∈ ps →
    (Otp.pruneList s ps).2 = none → alookup (Otp.pruneList s ps).1.tasks p = none := by
  induction ps with
  | nil => intro s p hp _; exact absurd hp (List.not_mem_nil p)
  | cons q ps ih =>
    intro s p hp hsucc
    unfold Otp.pruneList at hsucc ⊢
    by_cases h : (alookup s.dependencies q).isSome
    · rw [if_pos h] at hsucc ⊢
      rcases List.mem_cons.mp hp with rfl | hp'
      · cases hfin : alookup (Otp.pruneList ({ s with
            tasks := s.tasks.filter (fun e => ¬ e.1 = p),
            dependencies := s.dependencies.filter (fun e => ¬ e.1 = p),
            depths := s.depths.filter (fun e => ¬ e.1 = p) } : Otp τ ι κ) ps).1.tasks p with
        | none => rfl
        | some tr =>
          exfalso
          have hsub := (pruneList_sub ps _).1 p tr hfin
          replace hsub : alookup (s.tasks.filter (fun e => ¬ e.1 = p)) p = some tr := hsub
          rw [alookup_erase_key, if_pos rfl] at hsub
          cases hsub
      · exact ih _ p hp' hsucc
    · rw [if_neg h] at hsucc
      simp at hsucc

/-- The inner loop succeeds whenever every processed id has a
dependents entry. -/
theorem pruneList_ok (ps : List ι) : ∀ (s : Otp τ ι κ), ps.Nodup →
    (∀ p ∈ ps, (alookup s.dependencies p).isSome) →
    (Otp.pruneList s ps).2 = none := by
  induction ps with
  | nil => intro s _ _; rfl
  | cons q ps ih =>
    intro s hnd hdep
    unfold Otp.pruneList
    rw [if_pos (hdep q (List.mem_cons_self _ _))]
    apply ih _ (List.nodup_cons.mp hnd).2
    intro p hp
    have hpq : ¬ p = q := fun h => (List.nodup_cons.mp hnd).1 (h ▸ hp)
    show (alookup (s.dependencies.filter (fun e => ¬ e.1 = q)) p).isSome = true
    rw [alookup_erase_key, if_neg hpq]
    exact hdep p (List.mem_cons_of_mem _ hp)

theorem pruneDepths_cons_none (s : Otp τ ι κ) (d : Int) (ds : List Int)
    (h : (Otp.pruneDepths s (d :: ds)).2 = none) :
    (Otp.pruneList s (pruneTargets s d)).2 = none ∧
    Otp.pruneDepths s (d :: ds) =
      Otp.pruneDepths (Otp.pruneList s (pruneTargets s d)).1 ds := by
  by_cases hi : ((Otp.pruneList s (pruneTargets s d)).2).isSome
  · exfalso
    unfold Otp.pruneDepths at h
    rw [if_pos hi] at h
    rw [h] at hi
    simp at hi
  · refine ⟨Option.not_isSome_iff_eq_none.mp hi, ?_⟩
    conv_lhs => unfold Otp.pruneDepths
    rw [if_neg hi]

/-- In the success path, every id at a processed depth loses its
tracker. -/
theorem pruneDepths_deletes (ds : List Int) : ∀ (s : Otp τ ι κ) (y : ι) (dv : Int),
    (Otp.pruneDepths s ds).2 = none → alookup s.depths y = some dv → dv ∈ ds →
    alookup (Otp.pruneDepths s ds).1.tasks y = none := by
  induction ds with
  | nil => intro s y dv _ _ hdm; exact absurd hdm (List.not_mem_nil dv)
  | cons d ds ih =>
    intro s y dv hsucc hdep hdm
    obtain ⟨hinner, heq⟩ := pruneDepths_cons_none s d ds hsucc
    rw [heq] at hsucc ⊢
    by_cases hdd : dv = d
    · cases hfin : alookup
          (Otp.pruneDepths (Otp.pruneList s (pruneTargets s d)).1 ds).1.tasks y with
      | none => rfl
      | some tr2 =>
        exfalso
        have h1 := (pruneDepths_sub ds _).1 y tr2 hfin
        cases hy : alookup s.tasks y with
        | none =>
          have h2 := (pruneList_sub (pruneTargets s d) s).1 y tr2 h1
          rw [hy] at h2
          cases h2
        | some tr =>
          have hymem : y ∈ pruneTargets s d :=
            (mem_pruneTargets s d y).mpr
              ⟨(alookup_isSome_iff_mem s.tasks y).mp (by rw [hy]; rfl),
                by rw [hdep, hdd]⟩
          have hdel := pruneList_deletes (pruneTargets s d) s y hymem hinner
          rw [hdel] at h1
          cases h1
    · have hdm' : dv ∈ ds := by
        rcases List.mem_cons.mp hdm with h | h
        · exact absurd h hdd
        · exact h
      have hne : ∀ p ∈ pruneTargets s d, p ≠ y := by
        intro p hp hpy
        have h1 := ((mem_pruneTargets s d p).mp hp).2
        rw [hpy, hdep] at h1
        exact hdd (Option.some.inj h1)
      obtain ⟨k1, k2, k3⟩ := pruneList_keep (pruneTargets s d) s y hne
      exact ih _ y dv hsucc (by rw [k3]; exact hdep) hdm'

/-- Records with no depth entry are never prune targets and survive the
depth loop. -/
theorem pruneDepths_keep_none (ds : List Int) : ∀ (s : Otp τ ι κ) (y : ι),
    alookup s.depths y = none →
    alookup (Otp.pruneDepths s ds).1.tasks y = alookup s.tasks y := by
  induction ds with
  | nil => intro s y _; rfl
  | cons d ds ih =>
    intro s y hy
    have hne : ∀ p ∈ pruneTargets s d, p ≠ y := by
      intro p hp hpy
      have h1 := ((mem_pruneTargets s d p).mp hp).2
      rw [hpy, hy] at h1
      cases h1
    obtain ⟨k1, k2, k3⟩ := pruneList_keep (pruneTargets s d) s y hne
    unfold Otp.pruneDepths
    by_cases h : ((Otp.pruneList s (pruneTargets s d)).2).isSome
    · rw [if_pos h]
      exact k1
    · rw [if_neg h]
      rw [ih _ y (by rw [k3]; exact hy), k1]

/-- The depth loop succeeds whenever every tracked id whose depth lies
in the processed range has a dependents entry. -/
theorem pruneDepths_ok (ds : List Int) : ∀ (s : Otp τ ι κ),
    (s.tasks.map Prod.fst).Nodup →
    (∀ i dvv, (alookup s.tasks i).isSome → alookup s.depths i = some dvv →
      dvv ∈ ds → (alookup s.dependencies i).isSome) →
    (Otp.pruneDepths s ds).2 = none := by
  induction ds with
  | nil => intro s _ _; rfl
  | cons d ds ih =>
    intro s hnd hH
    have htgdep : ∀ p ∈ pruneTargets s d, (alookup s.dependencies p).isSome := by
      intro p hp
      obtain ⟨hpm, hpd⟩ := (mem_pruneTargets s d p).mp hp
      exact hH p d ((alookup_isSome_iff_mem s.tasks p).mpr hpm) hpd
        (List.mem_cons_self _ _)
    have htgnd : (pruneTargets s d).Nodup := hnd.filter _
    have hinner : (Otp.pruneList s (pruneTargets s d)).2 = none :=
      pruneList_ok (pruneTargets s d) s htgnd htgdep
    unfold Otp.pruneDepths
    rw [if_neg (by rw [hinner]; simp)]
    apply ih
    · exact List.Nodup.sublist (pruneList_keys_sublist (pruneTargets s d) s) hnd
    · intro i dvv hti hdi hdm
      have hnotmem : i ∉ pruneTargets s d := by
        intro hmem
        have hdel := pruneList_deletes (pruneTargets s d) s i hmem hinner
        rw [hdel] at hti
        simp at hti
      have hne : ∀ p ∈ pruneTargets s d, p ≠ i := fun p hp hpi => hnotmem (hpi ▸ hp)
      obtain ⟨k1, k2, k3⟩ := pruneList_keep (pruneTargets s d) s i hne
      rw [k2]
      apply hH i dvv
      · rw [← k1]
        exact hti
      · rw [← k3]
        exact hdi
      · exact List.mem_cons_of_mem _ hdm

/-- C1 (amended): `_prune` runs when a task becomes ready (never at
registration).  With `floor = D − max_depth` for the finishing task's
depth `D`, and provided every tracked id with depth in
`[oldest_depth, floor)` has a dependents entry in `_dependencies`, the
prune succeeds and removes exactly the tracked tasks whose depth lies
in that half-open window — a task at depth `floor` itself survives.
Without such an entry — a never-emitted, childless pruned task — the
prune raises `KeyError` mid-deletion: on the crash trace the error
escapes with H9's tracker deleted, its depth entry left behind,
`oldest_depth` not advanced, and H9 still unready.  In the S4 scenario
the prune triggered by H3 drops only H0, and after registering H4 the
tracked ids are `{1, 2, 3, 4}` (H1 included), with `oldest_depth = 1`. -/
theorem C1_prune_exact (s : Otp τ ι κ) (tid : ι) (d : Int)
    (hd : alookup s.depths tid = some d)
    (hnd : (s.tasks.map Prod.fst).Nodup)
    (hkeys : ∀ e ∈ s.tasks, ((alookup s.dependencies e.1).isSome ||
      (alookup s.depths e.1).all
        (fun dv => decide (dv < s.oldestDepth) || decide (d - s.maxDepth ≤ dv))) = true) :
    ((s.pruneAt tid).2 = none ∧
      ∀ i, (alookup (s.pruneAt tid).1.tasks i).isSome ↔
        ((alookup s.tasks i).isSome ∧
          ∀ dv, alookup s.depths i = some dv →
            (dv < s.oldestDepth ∨ d - s.maxDepth ≤ dv))) ∧
    (s4State.tasks.map Prod.fst = [1, 2, 3, 4] ∧
      alookup s4State.tasks 0 = none ∧
      s4State.oldestDepth = 1 ∧
      s4State.emitted = [(1, 0), (2, 1), (3, 2)]) ∧
    (crashResult.2 = some OtpErr.dependenciesKeyError ∧
      alookup crashResult.1.tasks 9 = none ∧
      alookup crashResult.1.depths 9 = some 1 ∧
      crashResult.1.oldestDepth = 1 ∧
      crashResult.1.unready = [9]) := by
  refine ⟨?_, ⟨by decide, by decide, by decide, by decide⟩,
    ⟨by decide, by decide, by decide, by decide, by decide⟩⟩
  have hH : ∀ i dvv, (alookup s.tasks i).isSome → alookup s.depths i = some dvv →
      dvv ∈ intRange s.oldestDepth (d - s.maxDepth) →
      (alookup s.dependencies i).isSome := by
    intro i dvv hti hdi hmem
    obtain ⟨hlo, hhi⟩ := mem_intRange _ _ _ hmem
    obtain ⟨e, he, he1⟩ := List.mem_map.mp ((alookup_isSome_iff_mem s.tasks i).mp hti)
    have hk := hkeys e he
    rw [he1] at hk
    rw [Bool.or_eq_true] at hk
    rcases hk with hk | hk
    · exact hk
    · rw [hdi] at hk
      replace hk : (decide (dvv < s.oldestDepth) ||
        decide (d - s.maxDepth ≤ dvv)) = true := hk
      rw [Bool.or_eq_true, decide_eq_true_eq, decide_eq_true_eq] at hk
      rcases hk with hk | hk <;> omega
  unfold Otp.pruneAt
  rw [hd]
  dsimp only
  by_cases hfl : s.oldestDepth < d - s.maxDepth
  · rw [if_pos hfl]
    have hsucc : (s.pruneDepths (intRange s.oldestDepth (d - s.maxDepth))).2 = none :=
      pruneDepths_ok (intRange s.oldestDepth (d - s.maxDepth)) s hnd hH
    rw [if_neg (by rw [hsucc]; simp)]
    refine ⟨rfl, ?_⟩
    intro i
    show (alookup
      (s.pruneDepths (intRange s.oldestDepth (d - s.maxDepth))).1.tasks i).isSome ↔ _
    constructor
    · intro hsome
      obtain ⟨tr, htr⟩ := Option.isSome_iff_exists.mp hsome
      have hsub := (pruneDepths_sub (intRange s.oldestDepth (d - s.maxDepth)) s).1 i tr htr
      refine ⟨by rw [hsub]; rfl, ?_⟩
      intro dv hdv
      by_contra hcon
      push_neg at hcon
      have hmem : dv ∈ intRange s.oldestDepth (d - s.maxDepth) :=
        (intRange_mem _ _ _).mpr ⟨by omega, by omega⟩
      have hdel := pruneDepths_deletes _ s i dv hsucc hdv hmem
      rw [hdel] at htr
      cases htr
    · rintro ⟨hti, hcond⟩
      cases hdv : alookup s.depths i with
      | none =>
        rw [pruneDepths_keep_none _ s i hdv]
        exact hti
      | some dv =>
        have hout : ∀ e ∈ intRange s.oldestDepth (d - s.maxDepth), e ≠ dv := by
          intro e he
          have h1 := mem_intRange _ _ _ he
          rcases hcond dv hdv with h | h <;> omega
        obtain ⟨k1, _, _⟩ :=
          pruneDepths_keep (intRange s.oldestDepth (d - s.maxDepth)) s i dv hdv hout
        rw [k1]
        exact hti
  · rw [if_neg hfl]
    refine ⟨rfl, ?_⟩
    intro i
    constructor
    · intro h
      exact ⟨h, fun dv _ => by omega⟩
    · exact fun h => h.1

/-- C1 witness: the exactness characterization applied to the prune
that fires when H3 becomes ready (depth 3, floor 1, `oldest_depth` 0 in
the mid-S3 state); the hypotheses are checked by evaluation. -/
theorem C1_witness :
    alookup (Otp.runOps hdrCtx (some 2) ((0 : Nat), (100 : Nat)) s3OpsMid).depths 3 =
      some 3 ∧
    (((Otp.runOps hdrCtx (some 2) ((0 : Nat), (100 : Nat)) s3OpsMid).pruneAt 3).2 =
        none ∧
      ∀ i, (alookup ((Otp.runOps hdrCtx (some 2) ((0 : Nat), (100 : Nat))
          s3OpsMid).pruneAt 3).1.tasks i).isSome ↔
        ((alookup (Otp.runOps hdrCtx (some 2) ((0 : Nat), (100 : Nat))
            s3OpsMid).tasks i).isSome ∧
          ∀ dv, alookup (Otp.runOps hdrCtx (some 2) ((0 : Nat), (100 : Nat))
              s3OpsMid).depths i = some dv →
            (dv < (Otp.runOps hdrCtx (some 2) ((0 : Nat), (100 : Nat))
              s3OpsMid).oldestDepth ∨
              3 - (Otp.runOps hdrCtx (some 2) ((0 : Nat), (100 : Nat))
                s3OpsMid).maxDepth ≤ dv))) :=
  ⟨by decide,
    (C1_prune_exact (Otp.runOps hdrCtx (some 2) ((0 : Nat), (100 : Nat)) s3OpsMid) 3 3
      (by decide) (by decide) (by decide)).1⟩

/-! ### Marking one task ready -/

/-- Splitting a list extended by one element. -/
theorem append_singleton_eq_split {γ : Type v} {xs l1 l2 : List γ} {a T : γ}
    (h : xs ++ [a] = l1 ++ T :: l2) :
    (l1 = xs ∧ T = a ∧ l2 = []) ∨ (∃ l2', l2 = l2' ++ [a] ∧ xs = l1 ++ T :: l2') := by
  induction l1 generalizing xs with
  | nil =>
    cases xs with
    | nil =>
      simp only [List.nil_append, List.cons.injEq] at h ⊢
      exact Or.inl ⟨trivial, h.1.symm, h.2.symm⟩
    | cons x xs' =>
      simp only [List.cons_append, List.nil_append, List.cons.injEq] at h
      exact Or.inr ⟨xs', h.2.symm, by simp [h.1]⟩
  | cons b l1' ih =>
    cases xs with
    | nil =>
      exfalso
      simp only [List.nil_append, List.cons_append, List.cons.injEq] at h
      have := congrArg List.length h.2
      simp only [List.length_nil, List.length_append, List.length_cons] at this
      omega
    | cons x xs' =>
      simp only [List.cons_append, List.cons.injEq] at h
      rcases ih h.2 with ⟨h1, h2, h3⟩ | ⟨l2', h1, h2⟩
      · exact Or.inl ⟨by rw [h.1, h1], h2, h3⟩
      · exact Or.inr ⟨l2', h1, by simp [h.1, h2]⟩

/-- The condition under which `_mark_one_task_complete(i)` is invoked:
`i` is unready at depth `D`, tracked, prerequisite-complete, and its
dependency is the seed or already emitted. -/
def WlCond (c : OtpCtx τ ι κ) (sid : ι) (s : Otp τ ι κ) (D : Int) (i : ι) : Prop :=
  i ∈ s.unready ∧ alookup s.depths i = some D ∧
  ∃ tr, alookup s.tasks i = some tr ∧ tr.isComplete c.prereqs = true ∧
    (c.depOf tr.task = sid ∨ c.depOf tr.task ∈ emittedIds c s)

/-- A well-formed worklist level: distinct ids, all satisfying
`WlCond` at the same depth. -/
def WlOk (c : OtpCtx τ ι κ) (sid : ι) (s : Otp τ ι κ) (D : Int) (wl : List ι) : Prop :=
  wl.Nodup ∧ ∀ i ∈ wl, WlCond c sid s D i

/-- The state after the bookkeeping of `_mark_one_task_complete` up to
and including the prune (ready-queue push, emission, `_unready`
removal, prune — successful or crashed mid-deletion). -/
def markedState (s : Otp τ ι κ) (tid : ι) (tr : Tracker τ κ) : Otp τ ι κ :=
  (Otp.pruneAt (preMark s tid tr) tid).1

/-- One-step reduction of `markOne` when the prune raises `KeyError`. -/
theorem markOne_eq_err (c : OtpCtx τ ι κ) (s : Otp τ ι κ) (tid : ι) (tr : Tracker τ κ)
    (s1 : Otp τ ι κ) (e : OtpErr) (hlook : alookup s.tasks tid = some tr)
    (hP : Otp.pruneAt (preMark s tid tr) tid = (s1, some e)) :
    Otp.markOne c s tid = (s1, [], some e) := by
  unfold Otp.markOne
  rw [hlook]
  dsimp only
  rw [hP]

/-- One-step reduction of `markOne` when the prune succeeds. -/
theorem markOne_eq_ok (c : OtpCtx τ ι κ) (s : Otp τ ι κ) (tid : ι) (tr : Tracker τ κ)
    (s1 : Otp τ ι κ) (hlook : alookup s.tasks tid = some tr)
    (hP : Otp.pruneAt (preMark s tid tr) tid = (s1, none)) :
    Otp.markOne c s tid = (touchDeps s1 tid,
      ((alookup s1.dependencies tid).getD []).filter
        (fun d => match alookup s1.tasks d with
          | some trd => trd.isComplete c.prereqs
          | none => false),
      none) := by
  unfold Otp.markOne
  rw [hlook]
  dsimp only
  rw [hP]

theorem alookup_touch (s : Otp τ ι κ) (tid p : ι) :
    alookup (touchDeps s tid).dependencies p =
      if p = tid then some ((alookup s.dependencies tid).getD [])
      else alookup s.dependencies p := by
  show alookup (aset s.dependencies tid ((alookup s.dependencies tid).getD [])) p = _
  by_cases hp : p = tid
  · rw [if_pos hp, hp, alookup_aset_self]
  · rw [if_neg hp, alookup_aset_other _ _ _ _ hp]

/-- The `defaultdict` touch preserves the invariant whenever the
touched key is the seed, unready, or emitted. -/
theorem OtpInv_touch (c : OtpCtx τ ι κ) (sid : ι) (s : Otp τ ι κ) (tid : ι)
    (hinv : OtpInv c sid s)
    (hloc : tid = sid ∨ tid ∈ s.unready ∨ tid ∈ emittedIds c s) :
    OtpInv c sid (touchDeps s tid) := by
  have hds : ∀ p ds, alookup (touchDeps s tid).dependencies p = some ds →
      (p = tid ∧ ds = (alookup s.dependencies tid).getD []) ∨
      alookup s.dependencies p = some ds := by
    intro p ds h
    rw [alookup_touch] at h
    by_cases hp : p = tid
    · rw [if_pos hp] at h
      exact Or.inl ⟨hp, (Option.some.inj h).symm⟩
    · rw [if_neg hp] at h
      exact Or.inr h
  constructor
  · exact hinv.ordA
  · exact hinv.em_nodup
  · exact hinv.sid_not_em
  · exact hinv.unready_nodup
  · exact hinv.sid_not_unready
  · exact hinv.unready_em_disj
  · exact hinv.trackedE
  · exact hinv.trackedD
  · exact hinv.tracked_id
  · exact hinv.em_complete
  · exact hinv.em_tracked
  · intro p ds h d hd
    rcases hds p ds h with ⟨hp, hv⟩ | hold
    · cases hol : alookup s.dependencies tid with
      | none =>
        rw [hol] at hv
        simp only [Option.getD_none] at hv
        subst hv
        exact absurd hd (List.not_mem_nil d)
      | some ds0 =>
        rw [hol] at hv
        simp only [Option.getD_some] at hv
        rw [hv] at hd
        rw [hp]
        exact hinv.deps_parent tid ds0 hol d hd
    · exact hinv.deps_parent p ds hold d hd
  · intro p ds h
    rcases hds p ds h with ⟨hp, hv⟩ | hold
    · cases hol : alookup s.dependencies tid with
      | none =>
        rw [hol] at hv
        simp only [Option.getD_none] at hv
        subst hv
        exact List.nodup_nil
      | some ds0 =>
        rw [hol] at hv
        simp only [Option.getD_some] at hv
        rw [hv]
        exact hinv.deps_nodup tid ds0 hol
    · exact hinv.deps_nodup p ds hold
  · intro p ds h
    rcases hds p ds h with ⟨hp, _⟩ | hold
    · subst hp
      exact hloc
    · exact hinv.deps_key p ds hold
  · exact hinv.dom_sub
  · intro p ds h d hd dp dd hp hdd
    rcases hds p ds h with ⟨hpe, hv⟩ | hold
    · cases hol : alookup s.dependencies tid with
      | none =>
        rw [hol] at hv
        simp only [Option.getD_none] at hv
        subst hv
        exact absurd hd (List.not_mem_nil d)
      | some ds0 =>
        rw [hol] at hv
        simp only [Option.getD_some] at hv
        rw [hv] at hd
        rw [hpe] at hp
        exact hinv.depth_child tid ds0 hol d hd dp dd hp hdd
    · exact hinv.depth_child p ds hold d hd dp dd hp hdd
  · exact hinv.max_nonneg

/-- Everything `markOne` guarantees, given the invariant and the
worklist condition for the marked id — in both outcomes of the prune
(on a crash the produced worklist is empty). -/
theorem markOne_spec (c : OtpCtx τ ι κ) (sid : ι) (s : Otp τ ι κ) (tid : ι) (D : Int)
    (hinv : OtpInv c sid s) (hc : WlCond c sid s D tid) :
    OtpInv c sid (Otp.markOne c s tid).1 ∧
    (∃ T, (Otp.markOne c s tid).1.emitted = s.emitted ++ [T] ∧ c.idOf T = tid) ∧
    (Otp.markOne c s tid).1.unready = s.unready.erase tid ∧
    (Otp.markOne c s tid).1.maxDepth = s.maxDepth ∧
    (∀ y dY, D ≤ dY → y ≠ tid → alookup s.depths y = some dY →
      alookup (Otp.markOne c s tid).1.depths y = some dY ∧
      alookup (Otp.markOne c s tid).1.tasks y = alookup s.tasks y ∧
      (y ∈ s.unready → y ∈ (Otp.markOne c s tid).1.unready)) ∧
    WlOk c sid (Otp.markOne c s tid).1 (D + 1) (Otp.markOne c s tid).2.1 ∧
    (∀ z ∈ (Otp.markOne c s tid).2.1, ∃ trz,
      alookup (Otp.markOne c s tid).1.tasks z = some trz ∧ c.depOf trz.task = tid) := by
  obtain ⟨hu, hdep, tr, hlook, hcomp, hpar⟩ := hc
  have hid : c.idOf tr.task = tid := hinv.tracked_id tid tr hlook
  have htid_ne_sid : tid ≠ sid := fun h => hinv.sid_not_unready (h ▸ hu)
  have htid_not_em : tid ∉ emittedIds c s := hinv.unready_em_disj tid hu
  -- the pre-prune state
  have hinv1 : OtpInv c sid (preMark s tid tr) := by
    have hidmap : (s.emitted ++ [tr.task]).map c.idOf = s.emitted.map c.idOf ++ [tid] := by
      rw [List.map_append, List.map_cons, List.map_nil, hid]
    have hmem_er : ∀ i, i ∈ s.unready.erase tid ↔ i ≠ tid ∧ i ∈ s.unready :=
      fun i => hinv.unready_nodup.mem_erase_iff
    constructor
    · -- ordA
      intro l1 T l2 h
      rcases append_singleton_eq_split h with ⟨hl1, hT, _⟩ | ⟨l2', _, hxs⟩
      · subst hl1
        rw [hT]
        exact hpar
      · exact hinv.ordA l1 T l2' hxs
    · show ((s.emitted ++ [tr.task]).map c.idOf).Nodup
      rw [hidmap, List.nodup_append]
      refine ⟨hinv.em_nodup, by simp, ?_⟩
      intro a ha hmem
      simp only [List.mem_singleton] at hmem
      subst hmem
      exact htid_not_em ha
    · show sid ∉ (s.emitted ++ [tr.task]).map c.idOf
      rw [hidmap, List.mem_append]
      rintro (h | h)
      · exact hinv.sid_not_em h
      · simp only [List.mem_singleton] at h
        exact htid_ne_sid h.symm
    · exact hinv.unready_nodup.erase tid
    · show sid ∉ s.unready.erase tid
      intro h
      exact hinv.sid_not_unready (List.mem_of_mem_erase h)
    · intro i hi
      replace hi : i ∈ s.unready.erase tid := hi
      rw [hmem_er] at hi
      show i ∉ (s.emitted ++ [tr.task]).map c.idOf
      rw [hidmap, List.mem_append]
      rintro (h | h)
      · exact hinv.unready_em_disj i hi.2 h
      · simp only [List.mem_singleton] at h
        exact hi.1 h
    · intro i tr2 hl hni
      show i = sid ∨ i ∈ (s.emitted ++ [tr.task]).map c.idOf
      rw [hidmap, List.mem_append]
      by_cases hit : i = tid
      · subst hit
        exact Or.inr (Or.inr (by simp))
      · have : i ∉ s.unready := by
          intro hmem
          exact hni ((hmem_er i).mpr ⟨hit, hmem⟩)
        rcases hinv.trackedE i tr2 hl this with h | h
        · exact Or.inl h
        · exact Or.inr (Or.inl h)
    · intro i tr2 hl hns
      show c.depOf tr2.task = sid ∨
        c.depOf tr2.task ∈ (s.emitted ++ [tr.task]).map c.idOf ∨
        c.depOf tr2.task ∈ s.unready.erase tid
      rw [hidmap]
      rcases hinv.trackedD i tr2 hl hns with h | h | h
      · exact Or.inl h
      · exact Or.inr (Or.inl (List.mem_append.mpr (Or.inl h)))
      · by_cases hdt : c.depOf tr2.task = tid
        · exact Or.inr (Or.inl (List.mem_append.mpr (Or.inr (by simp [hdt]))))
        · exact Or.inr (Or.inr ((hmem_er _).mpr ⟨hdt, h⟩))
    · exact hinv.tracked_id
    · intro i tr2 hl hi
      replace hl : alookup s.tasks i = some tr2 := hl
      show tr2.isComplete c.prereqs = true
      rcases hi with h | h
      · exact hinv.em_complete i tr2 hl (Or.inl h)
      · replace h : i ∈ (s.emitted ++ [tr.task]).map c.idOf := h
        rw [hidmap, List.mem_append] at h
        rcases h with h | h
        · exact hinv.em_complete i tr2 hl (Or.inr h)
        · simp only [List.mem_singleton] at h
          subst h
          rw [hlook] at hl
          cases hl
          exact hcomp
    · intro T hT tr2 hl
      replace hT : T ∈ s.emitted ++ [tr.task] := hT
      replace hl : alookup s.tasks (c.idOf T) = some tr2 := hl
      rcases List.mem_append.mp hT with h | h
      · exact hinv.em_tracked T h tr2 hl
      · simp only [List.mem_singleton] at h
        subst h
        rw [hid, hlook] at hl
        cases hl
        rfl
    · intro p ds hds d hd
      obtain ⟨h1, h2, h3⟩ := hinv.deps_parent p ds hds d hd
      refine ⟨h1, ?_, h3⟩
      show d ∈ s.unready.erase tid ∨ d ∈ (s.emitted ++ [tr.task]).map c.idOf
      rw [hidmap]
      rcases h2 with h | h
      · by_cases hdt : d = tid
        · exact Or.inr (List.mem_append.mpr (Or.inr (by simp [hdt])))
        · exact Or.inl ((hmem_er d).mpr ⟨hdt, h⟩)
      · exact Or.inr (List.mem_append.mpr (Or.inl h))
    · exact hinv.deps_nodup
    · intro p ds hds
      replace hds : alookup s.dependencies p = some ds := hds
      show p = sid ∨ p ∈ s.unready.erase tid ∨ p ∈ (s.emitted ++ [tr.task]).map c.idOf
      rw [hidmap]
      rcases hinv.deps_key p ds hds with h | h | h
      · exact Or.inl h
      · by_cases hpt : p = tid
        · exact Or.inr (Or.inr (List.mem_append.mpr (Or.inr (by simp [hpt]))))
        · exact Or.inr (Or.inl ((hmem_er p).mpr ⟨hpt, h⟩))
      · exact Or.inr (Or.inr (List.mem_append.mpr (Or.inl h)))
    · exact hinv.dom_sub
    · exact hinv.depth_child
    · exact hinv.max_nonneg
  have hinv2 : OtpInv c sid (markedState s tid tr) :=
    OtpInv_pruneAt c sid _ tid hinv1
  have hpremax : (preMark s tid tr).maxDepth = s.maxDepth := rfl
  have hdep1 : alookup (preMark s tid tr).depths tid = some D := hdep
  obtain ⟨hun2, hem2, hmax2, _⟩ := pruneAt_same (preMark s tid tr) tid
  have hem2' : (markedState s tid tr).emitted = s.emitted ++ [tr.task] := hem2
  have hun2' : (markedState s tid tr).unready = s.unready.erase tid := hun2
  have hmax2' : (markedState s tid tr).maxDepth = s.maxDepth := hmax2
  -- depth-D lookups survive the prune
  have hkeepD : alookup (markedState s tid tr).depths tid = some D := by
    have h := pruneAt_lookup_keep (preMark s tid tr) tid tid D D hdep1 hdep1
      (by rw [hpremax]; have := hinv.max_nonneg; omega)
    show alookup (Otp.pruneAt (preMark s tid tr) tid).1.depths tid = some D
    rw [h.2.2]
    exact hdep1
  have hdeep : ∀ y dY, D ≤ dY → y ≠ tid → alookup s.depths y = some dY →
      alookup (markedState s tid tr).depths y = some dY ∧
      alookup (markedState s tid tr).tasks y = alookup s.tasks y ∧
      (y ∈ s.unready → y ∈ (markedState s tid tr).unready) := by
    intro y dY hlt hyne hy
    have hy1 : alookup (preMark s tid tr).depths y = some dY := hy
    have hk := pruneAt_lookup_keep (preMark s tid tr) tid y D dY hdep1 hy1
      (by rw [hpremax]; have := hinv.max_nonneg; omega)
    refine ⟨?_, ?_, ?_⟩
    · show alookup (Otp.pruneAt (preMark s tid tr) tid).1.depths y = some dY
      rw [hk.2.2]
      exact hy1
    · show alookup (Otp.pruneAt (preMark s tid tr) tid).1.tasks y = alookup s.tasks y
      rw [hk.1]
      rfl
    · intro hyu
      rw [hun2']
      exact (List.mem_erase_of_ne hyne).mpr hyu
  have htid_em2 : tid ∈ emittedIds c (markedState s tid tr) := by
    unfold emittedIds
    rw [hem2', List.map_append, List.map_cons, List.map_nil, hid]
    simp
  rcases hP : Otp.pruneAt (preMark s tid tr) tid with ⟨s1, oe⟩
  have hs1 : s1 = markedState s tid tr := by
    unfold markedState
    rw [hP]
  subst hs1
  cases oe with
  | some e =>
    rw [markOne_eq_err c s tid tr (markedState s tid tr) e hlook hP]
    dsimp only
    refine ⟨hinv2, ⟨tr.task, hem2', hid⟩, hun2', hmax2', hdeep,
      ⟨List.nodup_nil, ?_⟩, ?_⟩
    · intro i hi
      exact absurd hi (List.not_mem_nil i)
    · intro z hz
      exact absurd hz (List.not_mem_nil z)
  | none =>
    rw [markOne_eq_ok c s tid tr (markedState s tid tr) hlook hP]
    dsimp only
    refine ⟨OtpInv_touch c sid _ tid hinv2 (Or.inr (Or.inr htid_em2)),
      ⟨tr.task, hem2', hid⟩, hun2', hmax2', hdeep, ?_, ?_⟩
    · -- the produced worklist level
      constructor
      · -- Nodup
        cases hds : alookup (markedState s tid tr).dependencies tid with
        | none => simp [hds]
        | some ds0 =>
          simp only [hds, Option.getD_some]
          exact (hinv2.deps_nodup tid ds0 hds).filter _
      · intro y hy
        cases hds : alookup (markedState s tid tr).dependencies tid with
        | none => rw [hds] at hy; simp at hy
        | some ds0 =>
          rw [hds] at hy
          simp only [Option.getD_some] at hy
          have hyds := List.mem_filter.mp hy
          obtain ⟨hyd, hypred⟩ := hyds
          obtain ⟨trd, hltrd, hcompd⟩ : ∃ trd,
              alookup (markedState s tid tr).tasks y = some trd ∧
              trd.isComplete c.prereqs = true := by
            cases hlt : alookup (markedState s tid tr).tasks y with
            | none => rw [hlt] at hypred; simp at hypred
            | some trd =>
              rw [hlt] at hypred
              exact ⟨trd, rfl, by simpa using hypred⟩
          obtain ⟨hysid, hyue, hypar⟩ := hinv2.deps_parent tid ds0 hds y hyd
          have hpard : c.depOf trd.task = tid := hypar trd hltrd
          have hyunready : y ∈ (markedState s tid tr).unready := by
            by_contra hnu
            rcases hinv2.trackedE y trd hltrd hnu with h | h
            · exact hysid h
            · -- y emitted: its tracked parent tid would have to be emitted
              -- strictly earlier, impossible
              rcases List.mem_map.mp h with ⟨Ty, hTy, hTyid⟩
              have hTy_task : trd.task = Ty := by
                have := hinv2.em_tracked Ty hTy trd
                rw [hTyid] at this
                exact this hltrd
              rcases List.append_of_mem hTy with ⟨l1, l2, hsplit⟩
              have hordA := hinv2.ordA l1 Ty l2 hsplit
              rw [← hTy_task, hpard] at hordA
              rcases hordA with h' | h'
              · exact htid_ne_sid h'
              · -- tid among the ids before Ty: but tid's only emission is last
                rw [hem2'] at hsplit
                rcases append_singleton_eq_split hsplit with ⟨hl1, _, _⟩ | ⟨l2', _, hxs⟩
                · subst hl1
                  exact htid_not_em h'
                · apply htid_not_em
                  unfold emittedIds
                  rw [hxs]
                  rcases List.mem_map.mp h' with ⟨w, hw, hwid⟩
                  exact List.mem_map.mpr ⟨w, by simp [hw], hwid⟩
          refine ⟨hyunready, ?_, trd, hltrd, hcompd, ?_⟩
          · -- depth y = D + 1
            show alookup (markedState s tid tr).depths y = some (D + 1)
            have hsome : (alookup (markedState s tid tr).depths y).isSome :=
              hinv2.dom_sub y (by rw [hltrd]; rfl)
            cases hdy : alookup (markedState s tid tr).depths y with
            | none => rw [hdy] at hsome; simp at hsome
            | some dd =>
              have := hinv2.depth_child tid ds0 hds y hyd D dd hkeepD hdy
              rw [this]
          · rw [hpard]
            exact Or.inr htid_em2
    · intro z hz
      cases hds : alookup (markedState s tid tr).dependencies tid with
      | none => rw [hds] at hz; simp at hz
      | some ds0 =>
        rw [hds] at hz
        simp only [Option.getD_some] at hz
        have hzds := List.mem_filter.mp hz
        obtain ⟨hzd, hzpred⟩ := hzds
        cases hlt : alookup (markedState s tid tr).tasks z with
        | none => rw [hlt] at hzpred; simp at hzpred
        | some trz =>
          exact ⟨trz, hlt, (hinv2.deps_parent tid ds0 hds z hzd).2.2 trz hlt⟩

/-- One-step reduction of the level pass when `markOne` errors at its
head. -/
theorem markLevel_cons_err (c : OtpCtx τ ι κ) (s : Otp τ ι κ) (tid : ι)
    (rest : List ι) (s1 : Otp τ ι κ) (wl1 : List ι) (e : OtpErr)
    (hM : Otp.markOne c s tid = (s1, wl1, some e)) :
    Otp.markLevel c s (tid :: rest) = (s1, [], some e) := by
  conv_lhs => unfold Otp.markLevel
  rw [hM]

/-- One-step reduction of the level pass when `markOne` succeeds at its
head. -/
theorem markLevel_cons_ok (c : OtpCtx τ ι κ) (s : Otp τ ι κ) (tid : ι)
    (rest : List ι) (s1 : Otp τ ι κ) (wl1 : List ι)
    (hM : Otp.markOne c s tid = (s1, wl1, none)) :
    Otp.markLevel c s (tid :: rest) =
      ((Otp.markLevel c s1 rest).1, wl1 ++ (Otp.markLevel c s1 rest).2.1,
        (Otp.markLevel c s1 rest).2.2) := by
  conv_lhs => unfold Otp.markLevel
  rw [hM]

/-- Everything one pass of the cascade guarantees: the invariant is
kept, the emission history only grows, deeper records survive, and the
produced next level is a well-formed worklist one depth further down
whose members are children of this level — in the crash outcome the
produced level is empty. -/
theorem markLevel_spec (c : OtpCtx τ ι κ) (sid : ι) (wl : List ι) :
    ∀ (s : Otp τ ι κ) (D : Int), OtpInv c sid s → WlOk c sid s D wl →
    OtpInv c sid (Otp.markLevel c s wl).1 ∧
    (∃ ext, (Otp.markLevel c s wl).1.emitted = s.emitted ++ ext) ∧
    (∀ y dY, D < dY → alookup s.depths y = some dY →
      alookup (Otp.markLevel c s wl).1.depths y = some dY ∧
      alookup (Otp.markLevel c s wl).1.tasks y = alookup s.tasks y ∧
      (y ∈ s.unready → y ∈ (Otp.markLevel c s wl).1.unready)) ∧
    WlOk c sid (Otp.markLevel c s wl).1 (D + 1) (Otp.markLevel c s wl).2.1 ∧
    (∀ z ∈ (Otp.markLevel c s wl).2.1, ∃ trz,
      alookup (Otp.markLevel c s wl).1.tasks z = some trz ∧
      c.depOf trz.task ∈ wl) := by
  induction wl with
  | nil =>
    intro s D hinv _
    refine ⟨hinv, ⟨[], by simp [Otp.markLevel]⟩, ?_, ⟨by simp [Otp.markLevel], ?_⟩, ?_⟩
    · intro y dY _ hy
      exact ⟨hy, rfl, id⟩
    · intro i hi
      simp [Otp.markLevel] at hi
    · intro z hz
      simp [Otp.markLevel] at hz
  | cons tid rest ih =>
    intro s D hinv hwl
    obtain ⟨hnd, hcond⟩ := hwl
    have htid_notin : tid ∉ rest := (List.nodup_cons.mp hnd).1
    have hrest_nd : rest.Nodup := (List.nodup_cons.mp hnd).2
    have hctid := hcond tid (List.mem_cons_self _ _)
    have htid_depth : alookup s.depths tid = some D := hctid.2.1
    obtain ⟨h1inv, hemT', hunr1, hmax1, hdeep1, hWl1, hpar1⟩ :=
      markOne_spec c sid s tid D hinv hctid
    rcases hM : Otp.markOne c s tid with ⟨s1, wl1, oe⟩
    rw [hM] at h1inv hemT' hunr1 hmax1 hdeep1 hWl1 hpar1
    dsimp only at h1inv hemT' hunr1 hmax1 hdeep1 hWl1 hpar1
    obtain ⟨T, hemT, hidT⟩ := hemT'
    have hdeeper : ∀ y dY, D < dY → alookup s.depths y = some dY →
        alookup s1.depths y = some dY ∧ alookup s1.tasks y = alookup s.tasks y ∧
        (y ∈ s.unready → y ∈ s1.unready) := by
      intro y dY hlt hy
      have hyne : y ≠ tid := by
        intro h
        rw [h, htid_depth] at hy
        cases hy
        omega
      exact hdeep1 y dY (le_of_lt hlt) hyne hy
    cases oe with
    | some e =>
      rw [markLevel_cons_err c s tid rest s1 wl1 e hM]
      dsimp only
      refine ⟨h1inv, ⟨[T], hemT⟩, hdeeper, ⟨List.nodup_nil, ?_⟩, ?_⟩
      · intro i hi
        exact absurd hi (List.not_mem_nil i)
      · intro z hz
        exact absurd hz (List.not_mem_nil z)
    | none =>
      rw [markLevel_cons_ok c s tid rest s1 wl1 hM]
      dsimp only
      -- the rest of this level still qualifies in the post-markOne state
      have hWlrest : WlOk c sid s1 D rest := by
        refine ⟨hrest_nd, ?_⟩
        intro j hj
        have hjne : j ≠ tid := fun h => htid_notin (h ▸ hj)
        obtain ⟨hju, hjdep, trj, hjlook, hjcomp, hjpar⟩ :=
          hcond j (List.mem_cons_of_mem _ hj)
        obtain ⟨hjd', hjt', hju'⟩ := hdeep1 j D le_rfl hjne hjdep
        refine ⟨hju' hju, hjd', trj, by rw [hjt']; exact hjlook, hjcomp, ?_⟩
        rcases hjpar with h | h
        · exact Or.inl h
        · refine Or.inr ?_
          unfold emittedIds at h ⊢
          rw [hemT, List.map_append, List.mem_append]
          exact Or.inl h
      obtain ⟨ihinv, ⟨ext2, hemext⟩, ihdeep, ihWl, ihparent⟩ := ih s1 D h1inv hWlrest
      refine ⟨ihinv, ⟨[T] ++ ext2, by rw [hemext, hemT, List.append_assoc]⟩, ?_, ?_, ?_⟩
      · -- deep survival composes
        intro y dY hlt hy
        obtain ⟨ha, hb, hc2⟩ := hdeeper y dY hlt hy
        obtain ⟨ha', hb', hc'⟩ := ihdeep y dY hlt ha
        exact ⟨ha', by rw [hb', hb], fun h => hc' (hc2 h)⟩
      · -- the produced next level
        constructor
        · rw [List.nodup_append]
          refine ⟨hWl1.1, ihWl.1, ?_⟩
          intro z hz1 hz2
          obtain ⟨trz, hlz, hdz⟩ := hpar1 z hz1
          obtain ⟨trz', hlz', hdz'⟩ := ihparent z hz2
          have hzdep : alookup s1.depths z = some (D + 1) := (hWl1.2 z hz1).2.1
          have := (ihdeep z (D + 1) (by omega) hzdep).2.1
          rw [this, hlz] at hlz'
          cases hlz'
          rw [hdz] at hdz'
          exact htid_notin hdz'
        · intro z hz
          rcases List.mem_append.mp hz with hz1 | hz2
          · obtain ⟨hzu, hzdep, trz, hzlook, hzcomp, hzpar⟩ := hWl1.2 z hz1
            obtain ⟨ha, hb, hc2⟩ := ihdeep z (D + 1) (by omega) hzdep
            refine ⟨hc2 hzu, ha, trz, by rw [hb]; exact hzlook, hzcomp, ?_⟩
            rcases hzpar with h | h
            · exact Or.inl h
            · refine Or.inr ?_
              unfold emittedIds at h ⊢
              rw [hemext, List.map_append, List.mem_append]
              exact Or.inl h
          · exact ihWl.2 z hz2
      · -- every member of the next level is a child of this level
        intro z hz
        rcases List.mem_append.mp hz with hz1 | hz2
        · obtain ⟨trz, hlz, hdz⟩ := hpar1 z hz1
          have hzdep : alookup s1.depths z = some (D + 1) := (hWl1.2 z hz1).2.1
          have hkeep := (ihdeep z (D + 1) (by omega) hzdep).2.1
          exact ⟨trz, by rw [hkeep]; exact hlz, by rw [hdz]; exact List.mem_cons_self _ _⟩
        · obtain ⟨trz, hlz, hdz⟩ := ihparent z hz2
          exact ⟨trz, hlz, List.mem_cons_of_mem _ hdz⟩

theorem markCompleteAux_cons_err (c : OtpCtx τ ι κ) (fuel : Nat) (s : Otp τ ι κ)
    (a : ι) (l : List ι) (s1 : Otp τ ι κ) (wl1 : List ι) (e : OtpErr)
    (h : Otp.markLevel c s (a :: l) = (s1, wl1, some e)) :
    Otp.markCompleteAux c (fuel + 1) s (a :: l) = (s1, some e) := by
  conv_lhs => unfold Otp.markCompleteAux
  rw [h]

theorem markCompleteAux_cons_ok (c : OtpCtx τ ι κ) (fuel : Nat) (s : Otp τ ι κ)
    (a : ι) (l : List ι) (s1 : Otp τ ι κ) (wl1 : List ι)
    (h : Otp.markLevel c s (a :: l) = (s1, wl1, none)) :
    Otp.markCompleteAux c (fuel + 1) s (a :: l) = Otp.markCompleteAux c fuel s1 wl1 := by
  conv_lhs => unfold Otp.markCompleteAux
  rw [h]

/-- The whole cascade loop preserves the invariant, starting from any
well-formed worklist, whatever the fuel and whether or not a prune
crashes along the way. -/
theorem markCompleteAux_spec (c : OtpCtx τ ι κ) (sid : ι) (fuel : Nat) :
    ∀ (s : Otp τ ι κ) (wl : List ι) (D : Int), OtpInv c sid s → WlOk c sid s D wl →
    OtpInv c sid (Otp.markCompleteAux c fuel s wl).1 := by
  induction fuel with
  | zero =>
    intro s wl D hinv _
    cases wl with
    | nil => exact hinv
    | cons a l => exact hinv
  | succ fuel ih =>
    intro s wl D hinv hwl
    cases wl with
    | nil => exact hinv
    | cons tid rest =>
      obtain ⟨hLinv, _, _, hLwl, _⟩ := markLevel_spec c sid (tid :: rest) s D hinv hwl
      rcases hL : Otp.markLevel c s (tid :: rest) with ⟨s1, wl1, oe⟩
      rw [hL] at hLinv hLwl
      dsimp only at hLinv hLwl
      cases oe with
      | some e =>
        rw [markCompleteAux_cons_err c fuel s tid rest s1 wl1 e hL]
        exact hLinv
      | none =>
        rw [markCompleteAux_cons_ok c fuel s tid rest s1 wl1 hL]
        exact ih s1 wl1 (D + 1) hLinv hLwl

/-- `_mark_complete` preserves the invariant whenever its argument
satisfies the promotion conditions — also when the prune inside raises. -/
theorem markComplete_spec (c : OtpCtx τ ι κ) (sid : ι) (s : Otp τ ι κ) (tid : ι)
    (D : Int) (hinv : OtpInv c sid s) (hcond : WlCond c sid s D tid) :
    OtpInv c sid (Otp.markComplete c s tid).1 :=
  markCompleteAux_spec c sid (s.unready.length + 1) s [tid] D hinv
    ⟨List.nodup_singleton tid, fun i hi => by
      rcases List.mem_singleton.mp hi with rfl
      exact hcond⟩

/-- The cascade never adds or rewrites task entries: a tracker found
afterwards was already there, unchanged. -/
theorem markOne_tasks_sub (c : OtpCtx τ ι κ) (s : Otp τ ι κ) (tid : ι) :
    ∀ i tr', alookup (Otp.markOne c s tid).1.tasks i = some tr' →
      alookup s.tasks i = some tr' := by
  intro i tr' h
  cases hlook : alookup s.tasks tid with
  | none =>
    have heq : Otp.markOne c s tid = (s, [], none) := by
      unfold Otp.markOne
      rw [hlook]
    rw [heq] at h
    exact h
  | some tr =>
    rcases hP : Otp.pruneAt (preMark s tid tr) tid with ⟨s1, oe⟩
    have hsub : ∀ j trj, alookup s1.tasks j = some trj →
        alookup s.tasks j = some trj := by
      intro j trj hj
      exact (pruneAt_lookup_sub (preMark s tid tr) tid).1 j trj (by rw [hP]; exact hj)
    cases oe with
    | some e =>
      rw [markOne_eq_err c s tid tr s1 e hlook hP] at h
      exact hsub i tr' h
    | none =>
      rw [markOne_eq_ok c s tid tr s1 hlook hP] at h
      exact hsub i tr' h

theorem markLevel_tasks_sub (c : OtpCtx τ ι κ) (wl : List ι) :
    ∀ (s : Otp τ ι κ) i tr', alookup (Otp.markLevel c s wl).1.tasks i = some tr' →
      alookup s.tasks i = some tr' := by
  induction wl with
  | nil => intro s i tr' h; exact h
  | cons tid rest ih =>
    intro s i tr' h
    rcases hM : Otp.markOne c s tid with ⟨s1, wl1, oe⟩
    have hsub : ∀ j trj, alookup s1.tasks j = some trj →
        alookup s.tasks j = some trj := by
      intro j trj hj
      exact markOne_tasks_sub c s tid j trj (by rw [hM]; exact hj)
    cases oe with
    | some e =>
      rw [markLevel_cons_err c s tid rest s1 wl1 e hM] at h
      exact hsub i tr' h
    | none =>
      rw [markLevel_cons_ok c s tid rest s1 wl1 hM] at h
      exact hsub i tr' (ih s1 i tr' h)

theorem markCompleteAux_tasks_sub (c : OtpCtx τ ι κ) (fuel : Nat) :
    ∀ (s : Otp τ ι κ) (wl : List ι) i tr',
      alookup (Otp.markCompleteAux c fuel s wl).1.tasks i = some tr' →
      alookup s.tasks i = some tr' := by
  induction fuel with
  | zero =>
    intro s wl i tr' h
    cases wl with
    | nil => exact h
    | cons a l => exact h
  | succ fuel ih =>
    intro s wl i tr' h
    cases wl with
    | nil => exact h
    | cons tid rest =>
      rcases hL : Otp.markLevel c s (tid :: rest) with ⟨s1, wl1, oe⟩
      have hsub : ∀ j trj, alookup s1.tasks j = some trj →
          alookup s.tasks j = some trj := by
        intro j trj hj
        exact markLevel_tasks_sub c (tid :: rest) s j trj (by rw [hL]; exact hj)
      cases oe with
      | some e =>
        rw [markCompleteAux_cons_err c fuel s tid rest s1 wl1 e hL] at h
        exact hsub i tr' h
      | none =>
        rw [markCompleteAux_cons_ok c fuel s tid rest s1 wl1 hL] at h
        exact hsub i tr' (ih s1 wl1 i tr' h)

theorem markComplete_tasks_sub (c : OtpCtx τ ι κ) (s : Otp τ ι κ) (tid : ι) :
    ∀ i tr', alookup (Otp.markComplete c s tid).1.tasks i = some tr' →
      alookup s.tasks i = some tr' :=
  fun i tr' h => markCompleteAux_tasks_sub c (s.unready.length + 1) s [tid] i tr' h

/-- What a successful `finish(prereq)` did. -/
theorem finish_ok_spec (prereqs : List κ) (tr tr2 : Tracker τ κ) (k : κ)
    (h : Tracker.finish prereqs tr k = .ok tr2) :
    tr2.task = tr.task ∧ tr2.completed = tr.completed ++ [k] ∧
      k ∈ prereqs ∧ k ∉ tr.completed := by
  unfold Tracker.finish at h
  by_cases h1 : k ∉ prereqs
  · rw [if_pos h1] at h
    cases h
  · rw [if_neg h1] at h
    by_cases h2 : k ∈ tr.completed
    · rw [if_pos h2] at h
      cases h
    · rw [if_neg h2] at h
      cases h
      exact ⟨rfl, rfl, by tauto, h2⟩

/-- Registering a single fresh task preserves the invariant. -/
theorem register_one_inv (c : OtpCtx τ ι κ) (sid : ι) (s : Otp τ ι κ) (t : τ)
    (hinv : OtpInv c sid s)
    (hdep : (alookup s.tasks (c.depOf t)).isSome)
    (hfu : c.idOf t ∉ s.unready) (hfe : c.idOf t ∉ s.emitted.map c.idOf)
    (hfs : c.idOf t ≠ sid) :
    OtpInv c sid
      ({ s with tasks := aset s.tasks (c.idOf t) ⟨t, []⟩,
                unready := insertSet (c.idOf t) s.unready,
                dependencies := aset s.dependencies (c.depOf t)
                  (insertSet (c.idOf t) ((alookup s.dependencies (c.depOf t)).getD [])),
                depths := aset s.depths (c.idOf t)
                  (((alookup s.depths (c.depOf t)).getD 0) + 1) } : Otp τ ι κ) := by
  have htrf : alookup s.tasks (c.idOf t) = none := by
    cases h : alookup s.tasks (c.idOf t) with
    | none => rfl
    | some tr =>
      rcases hinv.trackedE _ tr h hfu with h' | h'
      · exact absurd h' hfs
      · exact absurd h' hfe
  obtain ⟨trd, hdlook⟩ := Option.isSome_iff_exists.mp hdep
  have hdep_ne_f : c.depOf t ≠ c.idOf t := by
    intro h
    rw [h, htrf] at hdlook
    cases hdlook
  obtain ⟨dpd, hddepth⟩ := Option.isSome_iff_exists.mp (hinv.dom_sub _ hdep)
  have hgetD : ((alookup s.depths (c.depOf t)).getD 0) = dpd := by rw [hddepth]; rfl
  have hdep_where : c.depOf t = sid ∨ c.depOf t ∈ s.unready ∨
      c.depOf t ∈ s.emitted.map c.idOf := by
    by_cases hdu : c.depOf t ∈ s.unready
    · exact Or.inr (Or.inl hdu)
    · rcases hinv.trackedE _ trd hdlook hdu with h | h
      · exact Or.inl h
      · exact Or.inr (Or.inr h)
  have hds_ne_f : ∀ p ds, alookup s.dependencies p = some ds → ∀ d ∈ ds,
      d ≠ c.idOf t := by
    intro p ds hds d hd h
    rcases (hinv.deps_parent p ds hds d hd).2.1 with h' | h'
    · exact hfu (h ▸ h')
    · exact hfe (h ▸ h')
  have hmem_u : ∀ i, i ∈ insertSet (c.idOf t) s.unready ↔ i = c.idOf t ∨ i ∈ s.unready :=
    fun i => mem_insertSet _ i s.unready
  constructor
  · exact hinv.ordA
  · exact hinv.em_nodup
  · exact hinv.sid_not_em
  · exact insertSet_nodup _ _ hinv.unready_nodup
  · show sid ∉ insertSet (c.idOf t) s.unready
    rw [hmem_u]
    rintro (h | h)
    · exact hfs h.symm
    · exact hinv.sid_not_unready h
  · intro i hi
    replace hi : i ∈ insertSet (c.idOf t) s.unready := hi
    rw [hmem_u] at hi
    rcases hi with rfl | hi
    · exact hfe
    · exact hinv.unready_em_disj i hi
  · intro i tr2 hl hni
    replace hl : alookup (aset s.tasks (c.idOf t) ⟨t, []⟩) i = some tr2 := hl
    have hni' : i ∉ insertSet (c.idOf t) s.unready := hni
    rw [hmem_u] at hni'
    push_neg at hni'
    rw [alookup_aset_other _ _ _ _ hni'.1] at hl
    exact hinv.trackedE i tr2 hl hni'.2
  · intro i tr2 hl hns
    replace hl : alookup (aset s.tasks (c.idOf t) ⟨t, []⟩) i = some tr2 := hl
    show c.depOf tr2.task = sid ∨ c.depOf tr2.task ∈ s.emitted.map c.idOf ∨
      c.depOf tr2.task ∈ insertSet (c.idOf t) s.unready
    by_cases hif : i = c.idOf t
    · subst hif
      rw [alookup_aset_self] at hl
      cases hl
      rcases hdep_where with h | h | h
      · exact Or.inl h
      · exact Or.inr (Or.inr ((hmem_u _).mpr (Or.inr h)))
      · exact Or.inr (Or.inl h)
    · rw [alookup_aset_other _ _ _ _ hif] at hl
      rcases hinv.trackedD i tr2 hl hns with h | h | h
      · exact Or.inl h
      · exact Or.inr (Or.inl h)
      · exact Or.inr (Or.inr ((hmem_u _).mpr (Or.inr h)))
  · intro i tr2 hl
    replace hl : alookup (aset s.tasks (c.idOf t) ⟨t, []⟩) i = some tr2 := hl
    by_cases hif : i = c.idOf t
    · subst hif
      rw [alookup_aset_self] at hl
      cases hl
      rfl
    · rw [alookup_aset_other _ _ _ _ hif] at hl
      exact hinv.tracked_id i tr2 hl
  · intro i tr2 hl hi
    replace hl : alookup (aset s.tasks (c.idOf t) ⟨t, []⟩) i = some tr2 := hl
    by_cases hif : i = c.idOf t
    · subst hif
      rcases hi with h | h
      · exact absurd h hfs
      · exact absurd h hfe
    · rw [alookup_aset_other _ _ _ _ hif] at hl
      exact hinv.em_complete i tr2 hl hi
  · intro T hT tr2 hl
    replace hl : alookup (aset s.tasks (c.idOf t) ⟨t, []⟩) (c.idOf T) = some tr2 := hl
    have hTf : c.idOf T ≠ c.idOf t := by
      intro h
      exact hfe (h ▸ List.mem_map.mpr ⟨T, hT, rfl⟩)
    rw [alookup_aset_other _ _ _ _ hTf] at hl
    exact hinv.em_tracked T hT tr2 hl
  · intro p ds hds d hd
    replace hds : alookup (aset s.dependencies (c.depOf t)
        (insertSet (c.idOf t) ((alookup s.dependencies (c.depOf t)).getD []))) p =
        some ds := hds
    show d ≠ sid ∧ (d ∈ insertSet (c.idOf t) s.unready ∨ d ∈ s.emitted.map c.idOf) ∧
      ∀ tr2, alookup (aset s.tasks (c.idOf t) ⟨t, []⟩) d = some tr2 →
        c.depOf tr2.task = p
    by_cases hpd : p = c.depOf t
    · subst hpd
      rw [alookup_aset_self] at hds
      cases hds
      rcases (mem_insertSet _ d _).mp hd with rfl | hd'
      · refine ⟨hfs, Or.inl ((hmem_u _).mpr (Or.inl rfl)), ?_⟩
        intro tr2 hl2
        rw [alookup_aset_self] at hl2
        cases hl2
        rfl
      · cases holds : alookup s.dependencies (c.depOf t) with
        | none => rw [holds] at hd'; simp at hd'
        | some ds0 =>
          rw [holds] at hd'
          simp only [Option.getD_some] at hd'
          obtain ⟨h1, h2, h3⟩ := hinv.deps_parent _ ds0 holds d hd'
          refine ⟨h1, ?_, ?_⟩
          · rcases h2 with h | h
            · exact Or.inl ((hmem_u _).mpr (Or.inr h))
            · exact Or.inr h
          · intro tr2 hl2
            have hdf : d ≠ c.idOf t := hds_ne_f _ ds0 holds d hd'
            rw [alookup_aset_other _ _ _ _ hdf] at hl2
            exact h3 tr2 hl2
    · rw [alookup_aset_other _ _ _ _ hpd] at hds
      obtain ⟨h1, h2, h3⟩ := hinv.deps_parent p ds hds d hd
      refine ⟨h1, ?_, ?_⟩
      · rcases h2 with h | h
        · exact Or.inl ((hmem_u _).mpr (Or.inr h))
        · exact Or.inr h
      · intro tr2 hl2
        have hdf : d ≠ c.idOf t := hds_ne_f p ds hds d hd
        rw [alookup_aset_other _ _ _ _ hdf] at hl2
        exact h3 tr2 hl2
  · intro p ds hds
    replace hds : alookup (aset s.dependencies (c.depOf t)
        (insertSet (c.idOf t) ((alookup s.dependencies (c.depOf t)).getD []))) p =
        some ds := hds
    by_cases hpd : p = c.depOf t
    · subst hpd
      rw [alookup_aset_self] at hds
      cases hds
      cases holds : alookup s.dependencies (c.depOf t) with
      | none => simp [insertSet]
      | some ds0 =>
        exact insertSet_nodup _ _ (hinv.deps_nodup _ ds0 holds)
    · rw [alookup_aset_other _ _ _ _ hpd] at hds
      exact hinv.deps_nodup p ds hds
  · intro p ds hds
    replace hds : alookup (aset s.dependencies (c.depOf t)
        (insertSet (c.idOf t) ((alookup s.dependencies (c.depOf t)).getD []))) p =
        some ds := hds
    show p = sid ∨ p ∈ insertSet (c.idOf t) s.unready ∨ p ∈ s.emitted.map c.idOf
    by_cases hpd : p = c.depOf t
    · subst hpd
      rcases hdep_where with h | h | h
      · exact Or.inl h
      · exact Or.inr (Or.inl ((hmem_u _).mpr (Or.inr h)))
      · exact Or.inr (Or.inr h)
    · rw [alookup_aset_other _ _ _ _ hpd] at hds
      rcases hinv.deps_key p ds hds with h | h | h
      · exact Or.inl h
      · exact Or.inr (Or.inl ((hmem_u _).mpr (Or.inr h)))
      · exact Or.inr (Or.inr h)
  · intro i hi
    replace hi : (alookup (aset s.tasks (c.idOf t) ⟨t, []⟩) i).isSome := hi
    show (alookup (aset s.depths (c.idOf t) (((alookup s.depths (c.depOf t)).getD 0) + 1))
        i).isSome
    by_cases hif : i = c.idOf t
    · subst hif
      rw [alookup_aset_self]
      rfl
    · rw [alookup_aset_other _ _ _ _ hif] at hi
      rw [alookup_aset_other _ _ _ _ hif]
      exact hinv.dom_sub i hi
  · intro p ds hds d hd dp dd hp hdd
    replace hds : alookup (aset s.dependencies (c.depOf t)
        (insertSet (c.idOf t) ((alookup s.dependencies (c.depOf t)).getD []))) p =
        some ds := hds
    replace hp : alookup (aset s.depths (c.idOf t)
        (((alookup s.depths (c.depOf t)).getD 0) + 1)) p = some dp := hp
    replace hdd : alookup (aset s.depths (c.idOf t)
        (((alookup s.depths (c.depOf t)).getD 0) + 1)) d = some dd := hdd
    by_cases hpd : p = c.depOf t
    · subst hpd
      rw [alookup_aset_self] at hds
      cases hds
      have hpf : c.depOf t ≠ c.idOf t := hdep_ne_f
      rw [alookup_aset_other _ _ _ _ hpf, hddepth] at hp
      cases hp
      rcases (mem_insertSet _ d _).mp hd with rfl | hd'
      · rw [alookup_aset_self] at hdd
        cases hdd
        rw [hgetD]
      · cases holds : alookup s.dependencies (c.depOf t) with
        | none => rw [holds] at hd'; simp at hd'
        | some ds0 =>
          rw [holds] at hd'
          simp only [Option.getD_some] at hd'
          have hdf : d ≠ c.idOf t := hds_ne_f _ ds0 holds d hd'
          rw [alookup_aset_other _ _ _ _ hdf] at hdd
          exact hinv.depth_child _ ds0 holds d hd' dpd dd hddepth hdd
    · rw [alookup_aset_other _ _ _ _ hpd] at hds
      have hpf : p ≠ c.idOf t := by
        intro h
        rcases hinv.deps_key p _ hds with h' | h' | h'
        · exact hfs (h ▸ h')
        · exact hfu (h ▸ h')
        · exact hfe (h ▸ h')
      have hdf : d ≠ c.idOf t := hds_ne_f p _ hds d hd
      rw [alookup_aset_other _ _ _ _ hpf] at hp
      rw [alookup_aset_other _ _ _ _ hdf] at hdd
      exact hinv.depth_child p _ hds d hd dp dd hp hdd
  · exact hinv.max_nonneg

/-- `register_tasks` preserves the invariant for fresh ids. -/
theorem registerTasks_spec (c : OtpCtx τ ι κ) (sid : ι) (ts : List τ) :
    ∀ (s : Otp τ ι κ), OtpInv c sid s → (ts.map c.idOf).Nodup →
    (∀ t ∈ ts, c.idOf t ∉ s.unready ∧ c.idOf t ∉ s.emitted.map c.idOf ∧
      c.idOf t ≠ sid) →
    OtpInv c sid (Otp.registerTasks c s ts).1 := by
  induction ts with
  | nil => intro s hinv _ _; exact hinv
  | cons t rest ih =>
    intro s hinv hnd hfresh
    obtain ⟨hfu, hfe, hfs⟩ := hfresh t (List.mem_cons_self _ _)
    rw [List.map_cons] at hnd
    unfold Otp.registerTasks
    by_cases hdep : (alookup s.tasks (c.depOf t)).isSome
    · rw [if_pos hdep]
      have hinv1 := register_one_inv c sid s t hinv hdep hfu hfe hfs
      apply ih _ hinv1
      · exact (List.nodup_cons.mp hnd).2
      · intro t' ht'
        obtain ⟨h1, h2, h3⟩ := hfresh t' (List.mem_cons_of_mem _ ht')
        have hne : c.idOf t' ≠ c.idOf t := by
          intro h
          have := (List.nodup_cons.mp hnd).1
          exact this (h ▸ List.mem_map.mpr ⟨t', ht', rfl⟩)
        refine ⟨?_, h2, h3⟩
        show c.idOf t' ∉ insertSet (c.idOf t) s.unready
        rw [mem_insertSet]
        rintro (h | h)
        · exact hne h
        · exact h1 h
    · rw [if_neg hdep]
      exact hinv

/-- Updating a tracker in place (same task, new completion set)
preserves the invariant, provided completeness is preserved where the
invariant demands it. -/
theorem tracker_update_inv (c : OtpCtx τ ι κ) (sid : ι) (s : Otp τ ι κ) (i : ι)
    (tr tr2 : Tracker τ κ) (hinv : OtpInv c sid s)
    (hlook : alookup s.tasks i = some tr) (htask : tr2.task = tr.task)
    (hcomp : (i = sid ∨ i ∈ s.emitted.map c.idOf) → tr2.isComplete c.prereqs = true) :
    OtpInv c sid ({ s with tasks := aset s.tasks i tr2 } : Otp τ ι κ) := by
  have hl1 : ∀ j tr', alookup (aset s.tasks i tr2) j = some tr' →
      (j = i ∧ tr' = tr2) ∨ (j ≠ i ∧ alookup s.tasks j = some tr') := by
    intro j tr' h
    by_cases hj : j = i
    · subst hj
      rw [alookup_aset_self] at h
      cases h
      exact Or.inl ⟨rfl, rfl⟩
    · rw [alookup_aset_other _ _ _ _ hj] at h
      exact Or.inr ⟨hj, h⟩
  constructor
  · exact hinv.ordA
  · exact hinv.em_nodup
  · exact hinv.sid_not_em
  · exact hinv.unready_nodup
  · exact hinv.sid_not_unready
  · exact hinv.unready_em_disj
  · intro j tr' hl hni
    rcases hl1 j tr' hl with ⟨hj, _⟩ | ⟨_, hold⟩
    · rw [hj]
      exact hinv.trackedE i tr hlook (hj ▸ hni)
    · exact hinv.trackedE j tr' hold hni
  · intro j tr' hl hns
    rcases hl1 j tr' hl with ⟨hj, htr⟩ | ⟨_, hold⟩
    · rw [htr, htask]
      exact hinv.trackedD i tr hlook (hj ▸ hns)
    · exact hinv.trackedD j tr' hold hns
  · intro j tr' hl
    rcases hl1 j tr' hl with ⟨hj, htr⟩ | ⟨_, hold⟩
    · rw [htr, htask, hj]
      exact hinv.tracked_id i tr hlook
    · exact hinv.tracked_id j tr' hold
  · intro j tr' hl hj2
    rcases hl1 j tr' hl with ⟨hj, htr⟩ | ⟨_, hold⟩
    · rw [htr]
      exact hcomp (hj ▸ hj2)
    · exact hinv.em_complete j tr' hold hj2
  · intro T hT tr' hl
    rcases hl1 _ tr' hl with ⟨hTi, htr⟩ | ⟨_, hold⟩
    · rw [htr, htask]
      exact hinv.em_tracked T hT tr (hTi.symm ▸ hlook)
    · exact hinv.em_tracked T hT tr' hold
  · intro p ds hds d hd
    replace hds : alookup s.dependencies p = some ds := hds
    obtain ⟨h1, h2, h3⟩ := hinv.deps_parent p ds hds d hd
    refine ⟨h1, h2, ?_⟩
    intro tr' hl
    rcases hl1 d tr' hl with ⟨hdi, htr⟩ | ⟨_, hold⟩
    · rw [htr, htask]
      exact h3 tr (hdi.symm ▸ hlook)
    · exact h3 tr' hold
  · exact hinv.deps_nodup
  · exact hinv.deps_key
  · intro j hj2
    replace hj2 : (alookup (aset s.tasks i tr2) j).isSome := hj2
    by_cases hj : j = i
    · subst hj
      exact hinv.dom_sub j (by rw [hlook]; rfl)
    · rw [alookup_aset_other _ _ _ _ hj] at hj2
      exact hinv.dom_sub j hj2
  · exact hinv.depth_child
  · exact hinv.max_nonneg

/-- One-step reduction of `finishPrereqAux` when the task is unknown. -/
theorem finishPrereqAux_none (c : OtpCtx τ ι κ) (s : Otp τ ι κ) (k : κ)
    (t : τ) (rest : List τ) (h : alookup s.tasks (c.idOf t) = none) :
    Otp.finishPrereqAux c s k (t :: rest) = (s, some .unknownTask) := by
  unfold Otp.finishPrereqAux
  rw [h]

/-- One-step reduction of `finishPrereqAux` when `finish` errors. -/
theorem finishPrereqAux_err (c : OtpCtx τ ι κ) (s : Otp τ ι κ) (k : κ)
    (t : τ) (rest : List τ) (tr : Tracker τ κ) (e : OtpErr)
    (h1 : alookup s.tasks (c.idOf t) = some tr)
    (h2 : Tracker.finish c.prereqs tr k = .error e) :
    Otp.finishPrereqAux c s k (t :: rest) = (s, some e) := by
  unfold Otp.finishPrereqAux
  rw [h1]
  dsimp only
  rw [h2]

/-- One-step reduction of `finishPrereqAux` when `finish` succeeds. -/
theorem finishPrereqAux_ok (c : OtpCtx τ ι κ) (s : Otp τ ι κ) (k : κ)
    (t : τ) (rest : List τ) (tr tr2 : Tracker τ κ)
    (h1 : alookup s.tasks (c.idOf t) = some tr)
    (h2 : Tracker.finish c.prereqs tr k = .ok tr2) :
    Otp.finishPrereqAux c s k (t :: rest) =
      if tr2.isComplete c.prereqs ∧ c.depOf t ∉ s.unready then
        match Otp.markComplete c { s with tasks := aset s.tasks (c.idOf t) tr2 }
            (c.idOf t) with
        | (s1, some e) => (s1, some e)
        | (s1, none) => Otp.finishPrereqAux c s1 k rest
      else
        Otp.finishPrereqAux c { s with tasks := aset s.tasks (c.idOf t) tr2 }
          k rest := by
  conv_lhs => unfold Otp.finishPrereqAux
  rw [h1]
  dsimp only
  rw [h2]

/-- `finish_prereq`'s loop preserves the invariant when the tasks passed
in are the registered task objects. -/
theorem finishPrereqAux_spec (c : OtpCtx τ ι κ) (sid : ι) (k : κ) (ts : List τ) :
    ∀ (s : Otp τ ι κ), OtpInv c sid s →
    (∀ t ∈ ts, ∀ tr, alookup s.tasks (c.idOf t) = some tr → tr.task = t) →
    OtpInv c sid (Otp.finishPrereqAux c s k ts).1 := by
  induction ts with
  | nil => intro s hinv _; exact hinv
  | cons t rest ih =>
    intro s hinv hmatch
    cases hlook : alookup s.tasks (c.idOf t) with
    | none =>
      rw [finishPrereqAux_none c s k t rest hlook]
      exact hinv
    | some tr =>
      cases hfin : Tracker.finish c.prereqs tr k with
      | error e =>
        rw [finishPrereqAux_err c s k t rest tr e hlook hfin]
        exact hinv
      | ok tr2 =>
        rw [finishPrereqAux_ok c s k t rest tr tr2 hlook hfin]
        obtain ⟨htask, hcompleted, hkin, hknot⟩ := finish_ok_spec c.prereqs tr tr2 k hfin
        have htr_t : tr.task = t := hmatch t (List.mem_cons_self _ _) tr hlook
        have hnotcomp : ¬ tr.isComplete c.prereqs = true := by
          unfold Tracker.isComplete
          rw [List.all_eq_true]
          intro hall
          exact hknot (by simpa using hall k hkin)
        have hinv1 : OtpInv c sid
            ({ s with tasks := aset s.tasks (c.idOf t) tr2 } : Otp τ ι κ) :=
          tracker_update_inv c sid s (c.idOf t) tr tr2 hinv hlook htask
            (fun h => absurd (hinv.em_complete _ tr hlook h) hnotcomp)
        have hmatch1 : ∀ t' ∈ rest, ∀ tr',
            alookup ({ s with tasks := aset s.tasks (c.idOf t) tr2 } :
              Otp τ ι κ).tasks (c.idOf t') = some tr' → tr'.task = t' := by
          intro t' ht' tr' hl
          replace hl : alookup (aset s.tasks (c.idOf t) tr2) (c.idOf t') = some tr' := hl
          by_cases hii : c.idOf t' = c.idOf t
          · rw [hii, alookup_aset_self] at hl
            cases hl
            have : tr.task = t' := hmatch t' (List.mem_cons_of_mem _ ht') tr
              (by rw [hii]; exact hlook)
            rw [htask, this]
          · rw [alookup_aset_other _ _ _ _ hii] at hl
            exact hmatch t' (List.mem_cons_of_mem _ ht') tr' hl
        by_cases hcond : tr2.isComplete c.prereqs = true ∧ c.depOf t ∉ s.unready
        · rw [if_pos hcond]
          -- the task is promoted
          have hself_unready : c.idOf t ∈ s.unready := by
            by_contra hnu
            rcases hinv.trackedE _ tr hlook hnu with h | h
            · exact hnotcomp (hinv.em_complete _ tr hlook (Or.inl h))
            · exact hnotcomp (hinv.em_complete _ tr hlook (Or.inr h))
          obtain ⟨D, hD⟩ := Option.isSome_iff_exists.mp (hinv.dom_sub (c.idOf t)
            (by rw [hlook]; rfl))
          have hwl : WlCond c sid
              ({ s with tasks := aset s.tasks (c.idOf t) tr2 } : Otp τ ι κ)
              D (c.idOf t) := by
            refine ⟨hself_unready, hD, tr2, by
              show alookup (aset s.tasks (c.idOf t) tr2) (c.idOf t) = some tr2
              exact alookup_aset_self _ _ _, hcond.1, ?_⟩
            have hne_sid : c.idOf t ≠ sid := fun h => hinv.sid_not_unready (h ▸ hself_unready)
            have := hinv1.trackedD (c.idOf t) tr2
              (by show alookup (aset s.tasks (c.idOf t) tr2) _ = _
                  exact alookup_aset_self _ _ _) hne_sid
            rcases this with h | h | h
            · exact Or.inl h
            · exact Or.inr h
            · exact absurd (by rw [htask, htr_t] at h; exact h) hcond.2
          rcases hMC : Otp.markComplete c
              ({ s with tasks := aset s.tasks (c.idOf t) tr2 } : Otp τ ι κ) (c.idOf t)
            with ⟨s1, oe⟩
          have hinv2 : OtpInv c sid s1 := by
            have h := markComplete_spec c sid _ (c.idOf t) D hinv1 hwl
            rw [hMC] at h
            exact h
          cases oe with
          | some e => exact hinv2
          | none =>
            show OtpInv c sid (Otp.finishPrereqAux c s1 k rest).1
            apply ih _ hinv2
            intro t' ht' tr' hl
            apply hmatch1 t' ht' tr'
            apply markComplete_tasks_sub c _ (c.idOf t) _ tr'
            rw [hMC]
            exact hl
        · rw [if_neg hcond]
          exact ih _ hinv1 hmatch1

/-- Each well-formed call preserves the invariant. -/
theorem stepOp_inv (c : OtpCtx τ ι κ) (sid : ι) (s : Otp τ ι κ) (op : OtpOp τ κ)
    (hinv : OtpInv c sid s) (hwf : OtpOp.wfb c sid s op = true) :
    OtpInv c sid (Otp.stepOp c s op) := by
  cases op with
  | register ts =>
    unfold OtpOp.wfb at hwf
    rw [Bool.and_eq_true] at hwf
    apply registerTasks_spec c sid ts s hinv (of_decide_eq_true hwf.1)
    intro t ht
    have h := List.all_eq_true.mp hwf.2 t ht
    rw [Bool.and_eq_true, Bool.and_eq_true] at h
    exact ⟨of_decide_eq_true h.1.1, of_decide_eq_true h.1.2, of_decide_eq_true h.2⟩
  | finishPrereq k ts =>
    unfold OtpOp.wfb at hwf
    show OtpInv c sid (Otp.finishPrereq c s k ts).1
    unfold Otp.finishPrereq
    by_cases h0 : s.tasks.length = 0
    · rw [if_pos h0]
      exact hinv
    · rw [if_neg h0]
      apply finishPrereqAux_spec c sid k ts s hinv
      intro t ht tr hl
      have h := List.all_eq_true.mp hwf t ht
      rw [hl] at h
      exact of_decide_eq_true h
  | readyTasks =>
    exact ⟨hinv.ordA, hinv.em_nodup, hinv.sid_not_em, hinv.unready_nodup,
      hinv.sid_not_unready, hinv.unready_em_disj, hinv.trackedE, hinv.trackedD,
      hinv.tracked_id, hinv.em_complete, hinv.em_tracked, hinv.deps_parent,
      hinv.deps_nodup, hinv.deps_key, hinv.dom_sub, hinv.depth_child,
      hinv.max_nonneg⟩

/-- A well-formed call sequence preserves the invariant. -/
theorem foldlOps_inv (c : OtpCtx τ ι κ) (sid : ι) (ops : List (OtpOp τ κ)) :
    ∀ (s : Otp τ ι κ), OtpInv c sid s → WFtrace c sid s ops = true →
    OtpInv c sid (ops.foldl (Otp.stepOp c) s) := by
  induction ops with
  | nil => intro s hinv _; exact hinv
  | cons op rest ih =>
    intro s hinv hwf
    unfold WFtrace at hwf
    rw [Bool.and_eq_true] at hwf
    rw [List.foldl_cons]
    exact ih _ (stepOp_inv c sid s op hinv hwf.1) hwf.2

theorem alookup_pair {γ : Type v} (a : ι) (b : γ) (i : ι) :
    alookup [(a, b)] i = if a = i then some b else none := by
  unfold alookup
  by_cases h : a = i
  · rw [List.find?_cons_of_pos _ (by simpa using h)]
    simp [h]
  · rw [List.find?_cons_of_neg _ (by simpa using h)]
    simp [List.find?, h]

/-- The state produced by `set_finished_dependency(seed)` on a fresh
tracker. -/
theorem seed_state_eq (c : OtpCtx τ ι κ) (maxDepth : Option Int) (seed : τ) :
    ((Otp.empty maxDepth).setFinishedDependency c seed).1 =
      { maxDepth := (Otp.empty maxDepth : Otp τ ι κ).maxDepth,
        oldestDepth := 0,
        tasks := [(c.idOf seed, ⟨seed, c.prereqs.dedup⟩)],
        dependencies := [], unready := [], readyQueue := [], emitted := [],
        depths := [(c.idOf seed, 0)] } := by
  unfold Otp.setFinishedDependency
  rw [if_neg (by simp [Otp.empty])]
  simp [Otp.empty, aset, List.find?]

/-- The freshly seeded tracker satisfies the invariant (for a
non-negative configured max depth). -/
theorem OtpInv_seed (c : OtpCtx τ ι κ) (maxDepth : Option Int) (seed : τ)
    (hm : 0 ≤ (Otp.empty maxDepth : Otp τ ι κ).maxDepth) :
    OtpInv c (c.idOf seed) ((Otp.empty maxDepth).setFinishedDependency c seed).1 := by
  rw [seed_state_eq]
  constructor
  · intro l1 T l2 h
    exact absurd h (by simp)
  · simp
  · simp
  · simp
  · simp
  · intro i hi
    exact absurd hi (by simp)
  · intro i tr hl _
    rw [alookup_pair] at hl
    by_cases h : c.idOf seed = i
    · exact Or.inl h.symm
    · rw [if_neg h] at hl
      cases hl
  · intro i tr hl hns
    rw [alookup_pair] at hl
    by_cases h : c.idOf seed = i
    · exact absurd h.symm hns
    · rw [if_neg h] at hl
      cases hl
  · intro i tr hl
    rw [alookup_pair] at hl
    by_cases h : c.idOf seed = i
    · rw [if_pos h] at hl
      cases hl
      exact h
    · rw [if_neg h] at hl
      cases hl
  · intro i tr hl _
    rw [alookup_pair] at hl
    by_cases h : c.idOf seed = i
    · rw [if_pos h] at hl
      cases hl
      show (c.prereqs.all fun k => decide (k ∈ c.prereqs.dedup)) = true
      rw [List.all_eq_true]
      intro k hk
      simp [List.mem_dedup, hk]
    · rw [if_neg h] at hl
      cases hl
  · intro T hT
    exact absurd hT (by simp)
  · intro p ds hds
    replace hds : alookup [] p = some ds := hds
    simp [alookup, List.find?] at hds
  · intro p ds hds
    replace hds : alookup [] p = some ds := hds
    simp [alookup, List.find?] at hds
  · intro p ds hds
    replace hds : alookup [] p = some ds := hds
    simp [alookup, List.find?] at hds
  · intro i hi
    replace hi :
      (alookup [(c.idOf seed, (⟨seed, c.prereqs.dedup⟩ : Tracker τ κ))] i).isSome := hi
    show (alookup [(c.idOf seed, (0 : Int))] i).isSome
    rw [alookup_pair] at hi
    rw [alookup_pair]
    by_cases h : c.idOf seed = i
    · rw [if_pos h]
      rfl
    · rw [if_neg h] at hi
      exact absurd hi (by simp)
  · intro p ds hds
    replace hds : alookup [] p = some ds := hds
    simp [alookup, List.find?] at hds
  · exact hm

theorem nodup_map_inj (f : τ → ι) (l : List τ) (h : (l.map f).Nodup) :
    ∀ a ∈ l, ∀ b ∈ l, f a = f b → a = b := by
  induction l with
  | nil =>
    intro a ha
    exact absurd ha (by simp)
  | cons x xs ih =>
    rw [List.map_cons, List.nodup_cons] at h
    intro a ha b hb hfab
    rcases List.mem_cons.mp ha with rfl | ha' <;>
      rcases List.mem_cons.mp hb with rfl | hb'
    · rfl
    · refine absurd ?_ h.1
      rw [hfab]
      exact List.mem_map.mpr ⟨b, hb', rfl⟩
    · refine absurd ?_ h.1
      rw [← hfab]
      exact List.mem_map.mpr ⟨a, ha', rfl⟩
    · exact ih h.2 a ha' b hb' hfab

theorem nodup_split_unique {γ : Type v} (a : γ) :
    ∀ (l1 l2 m1 m2 : List γ), (l1 ++ a :: l2).Nodup →
    l1 ++ a :: l2 = m1 ++ a :: m2 → l1 = m1 ∧ l2 = m2 := by
  intro l1
  induction l1 with
  | nil =>
    intro l2 m1 m2 hnd h
    cases m1 with
    | nil =>
      rw [List.nil_append, List.nil_append] at h
      injection h with _ h2
      exact ⟨rfl, h2⟩
    | cons b m1' =>
      exfalso
      rw [List.nil_append, List.cons_append] at h
      injection h with h1 h2
      rw [List.nil_append, List.nodup_cons] at hnd
      subst h1
      exact hnd.1 (h2.symm ▸ (show a ∈ m1' ++ a :: m2 by simp))
  | cons x l1' ih =>
    intro l2 m1 m2 hnd h
    cases m1 with
    | nil =>
      exfalso
      rw [List.nil_append, List.cons_append] at h
      injection h with h1 h2
      rw [List.cons_append, List.nodup_cons] at hnd
      subst h1
      exact hnd.1 (by simp)
    | cons y m1' =>
      rw [List.cons_append, List.cons_append] at h
      injection h with h1 h2
      rw [List.cons_append, List.nodup_cons] at hnd
      obtain ⟨e1, e2⟩ := ih l2 m1' m2 hnd.2 h2
      subst h1
      exact ⟨by rw [e1], e2⟩

/-- `A` reaches the ready stream strictly before `T`. -/
def emitsBefore (s : Otp τ ι κ) (A T : τ) : Prop :=
  ∃ l1 l2 l3, s.emitted = l1 ++ A :: l2 ++ T :: l3

/-- Strict-ancestor chain below the seed: every link is a tracked task
object, other than the seed, and the parent (by id) of the next link. -/
def RegAnc (c : OtpCtx τ ι κ) (sid : ι) (s : Otp τ ι κ) : τ → τ → Prop :=
  Relation.TransGen (fun X Y => c.depOf Y = c.idOf X ∧ c.idOf X ≠ sid ∧
    ∃ tr, alookup s.tasks (c.idOf X) = some tr ∧ tr.task = X)

/-- A single parent edge: if `T` was emitted, its tracked non-seed
parent was emitted strictly earlier. -/
theorem emit_parent_before (c : OtpCtx τ ι κ) (sid : ι) (s : Otp τ ι κ)
    (hinv : OtpInv c sid s) (B T : τ)
    (hp : c.depOf T = c.idOf B) (hns : c.idOf B ≠ sid)
    (htr : ∃ tr, alookup s.tasks (c.idOf B) = some tr ∧ tr.task = B)
    (hT : T ∈ s.emitted) : emitsBefore s B T := by
  obtain ⟨l1, l2, hsplit⟩ := List.append_of_mem hT
  rcases hinv.ordA l1 T l2 hsplit with h | h
  · exact absurd (hp ▸ h) hns
  · obtain ⟨A', hA', hid⟩ := List.mem_map.mp h
    obtain ⟨tr, htrl, htrt⟩ := htr
    have hA'mem : A' ∈ s.emitted :=
      hsplit.symm ▸ (List.mem_append.mpr (Or.inl hA'))
    have htrl' : alookup s.tasks (c.idOf A') = some tr := by
      rw [hid, hp]
      exact htrl
    have hBA : B = A' := by
      rw [← htrt, hinv.em_tracked A' hA'mem tr htrl']
    subst hBA
    obtain ⟨m1, m2, hm⟩ := List.append_of_mem hA'
    refine ⟨m1, m2, l2, ?_⟩
    simp [hsplit, hm]

/-- Ancestors reach the ready stream first: along any registered
non-seed ancestor chain ending in an emitted task, each ancestor was
emitted strictly before. -/
theorem ancestors_emit_before (c : OtpCtx τ ι κ) (sid : ι) (s : Otp τ ι κ)
    (hinv : OtpInv c sid s) (A T : τ)
    (hanc : RegAnc c sid s A T) (hT : T ∈ s.emitted) : emitsBefore s A T := by
  unfold RegAnc at hanc
  revert hT
  induction hanc with
  | single hstep =>
    intro hT
    exact emit_parent_before c sid s hinv A _ hstep.1 hstep.2.1 hstep.2.2 hT
  | tail hab hbt ih =>
    rename_i B' T'
    intro hT
    obtain ⟨m1, m2, m3, hm⟩ :=
      emit_parent_before c sid s hinv B' T' hbt.1 hbt.2.1 hbt.2.2 hT
    have hB : B' ∈ s.emitted := by
      rw [hm]
      simp
    obtain ⟨n1, n2, n3, hn⟩ := ih hB
    have hndl : s.emitted.Nodup := hinv.em_nodup.of_map
    have hm' : s.emitted = m1 ++ B' :: (m2 ++ T' :: m3) := by
      rw [hm]
      simp
    obtain ⟨e1, _⟩ := nodup_split_unique B' (n1 ++ A :: n2) n3 m1 (m2 ++ T' :: m3)
      (hn ▸ hndl) (hn.symm.trans hm')
    refine ⟨n1, n2 ++ B' :: m2, m3, ?_⟩
    rw [hm, ← e1]
    simp

/-- C4: a task never reaches the ready stream before its dependency.
For every tracker seeded with `set_finished_dependency(seed)` (with a
non-negative configured max depth) and every well-formed call sequence
(fresh ids at registration, registered task objects passed to
`finish_prereq`), if `T` was emitted and `A` is an ancestor of `T`
along registered non-seed parent edges, then `A` was emitted strictly
before `T`.  Concretely, in the S3 chain H1→H0, H2→H1, H3→H2, finishing
both prerequisites on H2 and H3 releases nothing, and then finishing
both on H1 leaves the ready stream exactly `[H1, H2, H3]` in order. -/
theorem C4_emission_order (c : OtpCtx τ ι κ) (maxDepth : Option Int) (seed : τ)
    (ops : List (OtpOp τ κ))
    (hm : 0 ≤ (Otp.empty maxDepth : Otp τ ι κ).maxDepth)
    (hwf : WFtrace c (c.idOf seed)
      ((Otp.empty maxDepth).setFinishedDependency c seed).1 ops = true)
    (A T : τ)
    (hanc : RegAnc c (c.idOf seed) (Otp.runOps c maxDepth seed ops) A T)
    (hT : T ∈ (Otp.runOps c maxDepth seed ops).emitted) :
    emitsBefore (Otp.runOps c maxDepth seed ops) A T ∧
    (Otp.runOps hdrCtx (some 2) (0, 100) s3OpsMid).readyQueue = [] ∧
    (Otp.runOps hdrCtx (some 2) (0, 100) s3OpsFull).readyQueue =
      [(1, 0), (2, 1), (3, 2)] := by
  refine ⟨?_, by decide, by decide⟩
  have hinv : OtpInv c (c.idOf seed) (Otp.runOps c maxDepth seed ops) :=
    foldlOps_inv c (c.idOf seed) ops _ (OtpInv_seed c maxDepth seed hm) hwf
  exact ancestors_emit_before c (c.idOf seed) _ hinv A T hanc hT

/-- C4 witness: the S3 trace itself, with `A = H1` an ancestor of
`T = H3`; H1 is emitted strictly before H3 and the ready stream is
`[H1, H2, H3]`. -/
theorem C4_witness :
    emitsBefore (Otp.runOps hdrCtx (some 2) (0, 100) s3OpsFull) (1, 0) (3, 2) ∧
    (Otp.runOps hdrCtx (some 2) (0, 100) s3OpsMid).readyQueue = [] ∧
    (Otp.runOps hdrCtx (some 2) (0, 100) s3OpsFull).readyQueue =
      [(1, 0), (2, 1), (3, 2)] :=
  C4_emission_order hdrCtx (some 2) (0, 100) s3OpsFull (by decide) (by decide)
    (1, 0) (3, 2)
    (@Relation.TransGen.tail _ _ _ (2, 1) (3, 2)
      (@Relation.TransGen.single _ _ (1, 0) (2, 1)
        ⟨by decide, by decide,
          ⟨⟨(1, 0), [BlockPrereq.body, BlockPrereq.receipt]⟩, by decide, rfl⟩⟩)
      ⟨by decide, by decide,
        ⟨⟨(2, 1), [BlockPrereq.body, BlockPrereq.receipt]⟩, by decide, rfl⟩⟩)
    (by decide)

end Spec2Proof
